import Mathlib

/-!
# vault-migrator: export and import of a Vault server's state

A shallow embedding of `pkg/vault/client.go`, `pkg/vault/restore.go` and
`pkg/vault/types.go`.

* Go strings are Lean strings; `strings.HasPrefix`, `strings.HasSuffix` and
  `strings.TrimSuffix` are defined on the character lists.
* `interface{}` values are the type `Value`; a Go map is an association list
  whose keys are distinct (`Keys.Nodup` where it matters), a nil map is the
  empty list, except for the `Data` of an API response where nil is `none`.
  A `for k, v := range m` loop visits the list in its order, which stands for
  whatever order Go picks.
* The Vault server is a state machine `API σ`: every call takes the server
  state and returns its answer with the next state.  `traced` records the
  calls made, for the statements about what the client sends.
* A function that can panic (a failed type assertion) or recurse without
  bound (`listAllPaths`) returns a `Run`.
-/

namespace VaultMigrator

/-! ## Go strings -/

/-- Go `strings.HasPrefix s p`. -/
def HasPrefix (s p : String) : Bool := p.data.isPrefixOf s.data

/-- Go `strings.HasSuffix s suf`. -/
def HasSuffix (s suf : String) : Bool := suf.data.isSuffixOf s.data

/-- Go `strings.TrimSuffix s suf`: `s` without the trailing `suf`, or `s` itself. -/
def TrimSuffix (s suf : String) : String :=
  if HasSuffix s suf then ⟨s.data.take (s.data.length - suf.data.length)⟩ else s

/-! ## Dynamic values and maps -/

/-- A finite `float64`: the number `mant * 2 ^ exp`. -/
structure Float64 where
  mant : Int
  exp : Int
  deriving DecidableEq, Repr

/-- The dynamic types an `interface{}` holds in this program. -/
inductive Value where
  | null
  | bool (b : Bool)
  | int (i : Int)
  | float (f : Float64)
  | number (s : String)
  | str (s : String)
  | arr (xs : List Value)
  | obj (kv : List (String × Value))
  | strMap (kv : List (String × String))
  | other (typeName : String)
  deriving Repr

/-- Go `map[string]interface{}`. -/
abbrev Data := List (String × Value)

/-- Go `map[string]string`. -/
abbrev StrMap := List (String × String)

/-- The value stored under key `k`, if any. -/
def mapGet {α : Type} : List (String × α) → String → Option α
  | [], _ => none
  | (k', v) :: rest, k => if k' = k then some v else mapGet rest k

/-- Go `m[k] = v`: overwrite the entry of `k`, or add one. -/
def mapSet {α : Type} : List (String × α) → String → α → List (String × α)
  | [], k, v => [(k, v)]
  | (k', v') :: rest, k, v => if k' = k then (k, v) :: rest else (k', v') :: mapSet rest k v

/-- The keys of a map, in iteration order. -/
def Keys {α : Type} (m : List (String × α)) : List String := m.map Prod.fst

/-- Go `m[k]` on a `map[string]interface{}`: nil when the key is absent. -/
def index (m : Data) (k : String) : Value := (mapGet m k).getD Value.null

/-- Go `slice contains item`, the helper `contains` of client.go. -/
def contains : List String → String → Bool
  | [], _ => false
  | s :: rest, item => if s = item then true else contains rest item

/-! ## types.go -/

/-- Go `time.Time`, as nanoseconds; the zero value is `0`. -/
structure Time where
  nanos : Int
  deriving DecidableEq, Repr

/-- The zero `time.Time`. -/
def Time.zero : Time := ⟨0⟩

structure SecretVersion where
  Version : Int
  Data : Data
  CreatedTime : Time
  DeletionTime : String
  Destroyed : Bool
  deriving Repr

structure SecretMetadata where
  CasRequired : Bool
  CreatedTime : Time
  CurrentVersion : Int
  MaxVersions : Int
  OldestVersion : Int
  UpdatedTime : Time
  CustomMetadata : StrMap
  DeleteVersionAfter : String
  deriving DecidableEq, Repr

/-- The zero value `SecretMetadata{}`. -/
def SecretMetadata.zero : SecretMetadata :=
  ⟨false, Time.zero, 0, 0, 0, Time.zero, [], ""⟩

structure SecretBackup where
  Path : String
  Versions : List SecretVersion
  Metadata : SecretMetadata
  deriving Repr

structure SecretEngineBackup where
  Path : String
  Typ : String
  Description : String
  Config : Data
  Options : Data
  Secrets : List SecretBackup
  deriving Repr

structure PolicyBackup where
  Name : String
  Policy : String
  deriving DecidableEq, Repr

structure RoleBackup where
  Name : String
  Data : Data
  deriving Repr

structure UserBackup where
  Name : String
  Data : Data
  deriving Repr

structure AuthMethodBackup where
  Path : String
  Typ : String
  Description : String
  Config : Data
  Options : Data
  Roles : List RoleBackup
  Users : List UserBackup
  deriving Repr

structure BackupData where
  Timestamp : Time
  VaultVersion : String
  SecretEngines : List SecretEngineBackup
  Policies : List PolicyBackup
  AuthMethods : List AuthMethodBackup
  deriving Repr

structure RestoreOptions where
  Engines : List String
  SkipPolicies : Bool
  SkipAuth : Bool
  DefaultPassword : String
  deriving DecidableEq, Repr

/-! ## The Vault API client (`github.com/hashicorp/vault/api`) -/

/-- A Go `error` value, by its message. -/
abbrev Err := String

/-- The fields of `api.MountOutput` the client reads.  `Config` is a struct
(`api.MountConfigOutput`), never a map. -/
structure MountOutput where
  Typ : String
  Description : String
  Options : StrMap
  deriving DecidableEq, Repr

/-- The `api.MountInput` the client builds; its `Config` is always the empty
`api.MountConfigInput{}`. -/
structure MountInput where
  Typ : String
  Description : String
  Options : StrMap
  deriving DecidableEq, Repr

/-- The fields of `api.AuthMount` the client reads. -/
structure AuthMount where
  Typ : String
  Description : String
  Options : StrMap
  deriving DecidableEq, Repr

/-- The `api.EnableAuthOptions` the client builds; `Config` is always empty. -/
structure EnableAuthOptions where
  Typ : String
  Description : String
  Options : StrMap
  deriving DecidableEq, Repr

/-- The field of `api.Secret` the client reads; a nil `Data` map is `none`. -/
structure Secret where
  Data : Option Data
  deriving Repr

/-- The server behind `c.client`, with the clock and the two library
functions whose exact output the client only passes on.  Each call maps the
server state to an answer and the next state.  A call that returns only an
`error` answers `none` for nil; `read`, `list` and `write` answer
`ok none` for a nil `*api.Secret` with a nil error. -/
structure API (σ : Type) where
  health : σ → Except Err String × σ
  listMounts : σ → Except Err (List (String × MountOutput)) × σ
  mount : String → MountInput → σ → Option Err × σ
  listAuth : σ → Except Err (List (String × AuthMount)) × σ
  enableAuth : String → EnableAuthOptions → σ → Option Err × σ
  listPolicies : σ → Except Err (List String) × σ
  getPolicy : String → σ → Except Err String × σ
  putPolicy : String → String → σ → Option Err × σ
  read : String → σ → Except Err (Option Secret) × σ
  readWithData : String → List (String × List String) → σ → Except Err (Option Secret) × σ
  list : String → σ → Except Err (Option Secret) × σ
  write : String → Data → σ → Except Err (Option Secret) × σ
  now : σ → Time × σ
  parseTime : String → Time
  sprint : Value → String

/-- The outcome of a Go function that may panic or fail to return:
`outOfFuel` stands for a call that has not returned, within the fuel it was
given or at all. -/
inductive Run (α : Type) where
  | done (a : α)
  | panicked
  | outOfFuel
  deriving Repr

/-- Sequencing of `Run`: a panic or a missing result is passed on. -/
def Run.bind {α β : Type} (x : Run α) (f : α → Run β) : Run β :=
  match x with
  | .done a => f a
  | .panicked => .panicked
  | .outOfFuel => .outOfFuel

/-! ## client.go: decoding of metadata -/

/-- The value of a non-empty string of decimal digits. -/
def parseDigits : List Char → Nat → Option Nat
  | [], acc => some acc
  | c :: rest, acc =>
    if '0' ≤ c ∧ c ≤ '9' then parseDigits rest (acc * 10 + (c.toNat - '0'.toNat)) else none

/-- Go `strconv.ParseInt(s, 10, 64)` with the error dropped: `0` on a syntax
error, the nearest bound on a range error. -/
def parseInt64 (s : String) : Int :=
  match s.data with
  | [] => 0
  | c :: rest =>
    let body := if c = '+' ∨ c = '-' then rest else c :: rest
    match body with
    | [] => 0
    | d :: ds =>
      match parseDigits (d :: ds) 0 with
      | none => 0
      | some un =>
        if c = '-' then (if un > 2 ^ 63 then -(2 ^ 63 : Int) else -(un : Int))
        else (if un ≥ 2 ^ 63 then (2 ^ 63 - 1 : Int) else (un : Int))

/-- Go `int(v)` of a `float64`: the fraction is cut off.  A value outside
the 64-bit range gives the smallest integer, as the amd64 conversion does
(the language leaves that case to the implementation). -/
def floatToInt (f : Float64) : Int :=
  let t : Int := if 0 ≤ f.exp then f.mant * 2 ^ f.exp.toNat else Int.tdiv f.mant (2 ^ (-f.exp).toNat)
  if -(2 ^ 63 : Int) ≤ t ∧ t < 2 ^ 63 then t else -(2 ^ 63 : Int)

/-- The three-way type switch on a counter of the metadata record: `int`
(a value of the 64-bit range), `float64`, `json.Number`; `none` when the
value has another type. -/
def decodeCounter : Value → Option Int
  | .int v => some v
  | .float v => some (floatToInt v)
  | .number v => some (parseInt64 v)
  | _ => none

/-- The function `parseMetadata` of client.go; `parseTime` is
`time.Parse(time.RFC3339, ·)` with the error dropped. -/
def parseMetadata (parseTime : String → Time) (data : Data) : SecretMetadata :=
  let metadata := SecretMetadata.zero
  let metadata := match index data "cas_required" with
    | .bool v => { metadata with CasRequired := v }
    | _ => metadata
  let metadata := match index data "created_time" with
    | .str v => { metadata with CreatedTime := parseTime v }
    | _ => metadata
  let metadata := match decodeCounter (index data "current_version") with
    | some v => { metadata with CurrentVersion := v }
    | none => metadata
  let metadata := match decodeCounter (index data "max_versions") with
    | some v => { metadata with MaxVersions := v }
    | none => metadata
  let metadata := match decodeCounter (index data "oldest_version") with
    | some v => { metadata with OldestVersion := v }
    | none => metadata
  let metadata := match index data "updated_time" with
    | .str v => { metadata with UpdatedTime := parseTime v }
    | _ => metadata
  let metadata := match index data "custom_metadata" with
    | .strMap v => { metadata with CustomMetadata := v }
    | _ => metadata
  let metadata := match index data "delete_version_after" with
    | .str v => { metadata with DeleteVersionAfter := v }
    | _ => metadata
  metadata

/-- The function `convertToMap` of client.go. -/
def convertToMap (v : Value) : Data :=
  match v with
  | .obj val => val
  | .strMap val => val.foldl (fun result kv => mapSet result kv.1 (Value.str kv.2)) []
  | _ => []

/-- The function `convertStringMapToInterface` of client.go. -/
def convertStringMapToInterface (m : StrMap) : Data :=
  m.foldl (fun result kv => mapSet result kv.1 (Value.str kv.2)) []

/-! ## client.go: enumeration of the key space -/

/-- The loop over the keys of one listing in `listAllPaths`; `recurse pfx`
is the recursive call `c.listAllPaths(mountPath, pfx)`.  A key that is not a
string makes the assertion `key.(string)` panic. -/
def listKeys {σ : Type} (recurse : String → σ → Run (Except Err (List String) × σ))
    (pfx : String) : List Value → List String → σ → Run (Except Err (List String) × σ)
  | [], allPaths, s => .done (.ok allPaths, s)
  | key :: rest, allPaths, s =>
    match key with
    | .str keyStr =>
      if HasSuffix keyStr "/" then
        (recurse (pfx ++ keyStr) s).bind fun r =>
          match r with
          | (.ok subPaths, s1) =>
            listKeys recurse pfx rest (allPaths ++ subPaths.map (fun subPath => keyStr ++ subPath)) s1
          | (.error _, s1) => listKeys recurse pfx rest allPaths s1
      else listKeys recurse pfx rest (allPaths ++ [keyStr]) s
    | _ => .panicked

/-- The function `listAllPaths` of client.go.  The first argument bounds
the depth of the recursion; `outOfFuel` stands for a call that has not
returned within it. -/
def listAllPaths {σ : Type} (V : API σ) :
    Nat → String → String → σ → Run (Except Err (List String) × σ)
  | 0, _, _, _ => .outOfFuel
  | fuel + 1, mountPath, pfx, s =>
    match V.list (mountPath ++ pfx) s with
    | (.error _, s1) => .done (.ok [], s1)
    | (.ok none, s1) => .done (.ok [], s1)
    | (.ok (some resp), s1) =>
      match index (resp.Data.getD []) "keys" with
      | .arr keys => listKeys (fun p t => listAllPaths V fuel mountPath p t) pfx keys [] s1
      | _ => .done (.ok [], s1)

/-! ## client.go: secrets -/

/-- The `SecretVersion` built from a version read whose `data` is `d`;
`respData` is the `Data` of the response. -/
def mkVersion (parseTime : String → Time) (v : Int) (d : Data) (respData : Data) : SecretVersion :=
  let version : SecretVersion := ⟨v, d, Time.zero, "", false⟩
  match index respData "metadata" with
  | .obj metadata =>
    let version := match index metadata "created_time" with
      | .str ct => { version with CreatedTime := parseTime ct }
      | _ => version
    let version := match index metadata "deletion_time" with
      | .str dt => { version with DeletionTime := dt }
      | _ => version
    let version := match index metadata "destroyed" with
      | .bool destroyed => { version with Destroyed := destroyed }
      | _ => version
    version
  | _ => version

/-- The iterations of the loop `for v := 1; v <= versions; v++` of
`backupKVv2Secrets`, with `n` iterations left and `v` the current number.
A `data` field that is neither nil nor a map makes the assertion on it
panic. -/
def readVersions {σ : Type} (V : API σ) (mountPath path : String) :
    Nat → Int → List SecretVersion → σ → Run (List SecretVersion × σ)
  | 0, _, versions, s => .done (versions, s)
  | n + 1, v, versions, s =>
    match V.readWithData (mountPath ++ "data/" ++ path) [("version", [toString v])] s with
    | (.error _, s1) => readVersions V mountPath path n (v + 1) versions s1
    | (.ok none, s1) => readVersions V mountPath path n (v + 1) versions s1
    | (.ok (some versionResp), s1) =>
      match versionResp.Data with
      | none => readVersions V mountPath path n (v + 1) versions s1
      | some respData =>
        match index respData "data" with
        | .null => readVersions V mountPath path n (v + 1) versions s1
        | .obj d =>
          readVersions V mountPath path n (v + 1) (versions ++ [mkVersion V.parseTime v d respData]) s1
        | _ => .panicked

/-- The largest `int`. -/
def maxInt : Int := 2 ^ 63 - 1

/-- The loop `for v := 1; v <= versions; v++` of `backupKVv2Secrets`.  For a
count below the largest `int` it makes `versions` iterations from `v = 1`
(none when `versions` is negative).  For the largest `int` the condition
`v <= versions` never fails, since `v++` wraps around to the smallest `int`,
and the loop does not end. -/
def versionLoop {σ : Type} (V : API σ) (mountPath path : String) (versions : Int) (s : σ) :
    Run (List SecretVersion × σ) :=
  if versions ≥ maxInt then .outOfFuel
  else readVersions V mountPath path versions.toNat 1 [] s

/-- The metadata of a secret from the answer to its metadata read:
`parseMetadata` of the `Data`, or the zero value when `Data` is nil. -/
def metadataOf (parseTime : String → Time) (metadataResp : Secret) : SecretMetadata :=
  match metadataResp.Data with
  | some d => parseMetadata parseTime d
  | none => SecretMetadata.zero

/-- The loop over the paths in `backupKVv2Secrets`; `versions` of the source
is `metadata.CurrentVersion`. -/
def backupKVv2Paths {σ : Type} (V : API σ) (mountPath : String) :
    List String → List SecretBackup → σ → Run (List SecretBackup × σ)
  | [], secrets, s => .done (secrets, s)
  | path :: rest, secrets, s =>
    match V.read (mountPath ++ "metadata/" ++ path) s with
    | (.error _, s1) => backupKVv2Paths V mountPath rest secrets s1
    | (.ok none, s1) => backupKVv2Paths V mountPath rest secrets s1
    | (.ok (some metadataResp), s1) =>
      let metadata := metadataOf V.parseTime metadataResp
      if metadata.CurrentVersion = 0 then backupKVv2Paths V mountPath rest secrets s1
      else
        (versionLoop V mountPath path metadata.CurrentVersion s1).bind fun r =>
          if r.1.length > 0 then
            backupKVv2Paths V mountPath rest (secrets ++ [⟨path, r.1, metadata⟩]) r.2
          else backupKVv2Paths V mountPath rest secrets r.2

/-- The function `backupKVv2Secrets` of client.go. -/
def backupKVv2Secrets {σ : Type} (V : API σ) (fuel : Nat) (mountPath : String) (s : σ) :
    Run (Except Err (List SecretBackup) × σ) :=
  (listAllPaths V fuel mountPath "metadata/" s).bind fun r =>
    match r with
    | (.error err, s1) => .done (.error err, s1)
    | (.ok paths, s1) =>
      if paths.length = 0 then .done (.ok [], s1)
      else (backupKVv2Paths V mountPath paths [] s1).bind fun r2 => .done (.ok r2.1, r2.2)

/-- The loop over the paths in `backupKVv1Secrets`. -/
def backupKVv1Paths {σ : Type} (V : API σ) (mountPath : String) :
    List String → List SecretBackup → σ → List SecretBackup × σ
  | [], secrets, s => (secrets, s)
  | path :: rest, secrets, s =>
    match V.read (mountPath ++ path) s with
    | (.error _, s1) => backupKVv1Paths V mountPath rest secrets s1
    | (.ok none, s1) => backupKVv1Paths V mountPath rest secrets s1
    | (.ok (some resp), s1) =>
      match resp.Data with
      | none => backupKVv1Paths V mountPath rest secrets s1
      | some d =>
        let t := V.now s1
        backupKVv1Paths V mountPath rest
          (secrets ++ [⟨path, [⟨1, d, t.1, "", false⟩],
            { SecretMetadata.zero with CurrentVersion := 1, MaxVersions := 1 }⟩]) t.2

/-- The function `backupKVv1Secrets` of client.go. -/
def backupKVv1Secrets {σ : Type} (V : API σ) (fuel : Nat) (mountPath : String) (s : σ) :
    Run (Except Err (List SecretBackup) × σ) :=
  (listAllPaths V fuel mountPath "" s).bind fun r =>
    match r with
    | (.error err, s1) => .done (.error err, s1)
    | (.ok paths, s1) =>
      let r2 := backupKVv1Paths V mountPath paths [] s1
      .done (.ok r2.1, r2.2)

/-! ## client.go: engines, policies, auth methods -/

/-- The test `strings.HasPrefix(path, "sys/") || ... "identity/" || ... "cubbyhole/"`. -/
def isSystemMount (path : String) : Bool :=
  HasPrefix path "sys/" || HasPrefix path "identity/" || HasPrefix path "cubbyhole/"

/-- The test `len(filterEngines) > 0 && !contains(filterEngines, TrimSuffix(path, "/"))`. -/
def filteredOut (filterEngines : List String) (path : String) : Bool :=
  decide (filterEngines.length > 0) && !contains filterEngines (TrimSuffix path "/")

/-- Go `backup.SecretEngines = append(backup.SecretEngines, e)`. -/
def BackupData.addEngine (backup : BackupData) (e : SecretEngineBackup) : BackupData :=
  { backup with SecretEngines := backup.SecretEngines ++ [e] }

/-- The loop over the mounts in `backupSecretEngines`. -/
def backupMounts {σ : Type} (V : API σ) (fuel : Nat) (filterEngines : List String) :
    List (String × MountOutput) → BackupData → σ → Run (BackupData × σ)
  | [], backup, s => .done (backup, s)
  | (path, mount) :: rest, backup, s =>
    if isSystemMount path then backupMounts V fuel filterEngines rest backup s
    else if filteredOut filterEngines path then backupMounts V fuel filterEngines rest backup s
    else
      let engineBackup : SecretEngineBackup :=
        ⟨path, mount.Typ, mount.Description, convertToMap (Value.other "api.MountConfigOutput"),
          convertStringMapToInterface mount.Options, []⟩
      if mount.Typ = "kv" ∨ mount.Typ = "generic" then
        if mapGet mount.Options "version" = some "2" then
          (backupKVv2Secrets V fuel path s).bind fun r =>
            match r with
            | (.error _, s1) =>
              backupMounts V fuel filterEngines rest (backup.addEngine engineBackup) s1
            | (.ok secrets, s1) =>
              backupMounts V fuel filterEngines rest
                (backup.addEngine { engineBackup with Secrets := secrets }) s1
        else
          (backupKVv1Secrets V fuel path s).bind fun r =>
            match r with
            | (.error _, s1) =>
              backupMounts V fuel filterEngines rest (backup.addEngine engineBackup) s1
            | (.ok secrets, s1) =>
              backupMounts V fuel filterEngines rest
                (backup.addEngine { engineBackup with Secrets := secrets }) s1
      else backupMounts V fuel filterEngines rest (backup.addEngine engineBackup) s

/-- The function `backupSecretEngines` of client.go; the updated `backup`
is returned when the error is nil. -/
def backupSecretEngines {σ : Type} (V : API σ) (fuel : Nat) (backup : BackupData)
    (filterEngines : List String) (s : σ) : Run (Except Err BackupData × σ) :=
  match V.listMounts s with
  | (.error err, s1) => .done (.error err, s1)
  | (.ok mounts, s1) =>
    (backupMounts V fuel filterEngines mounts backup s1).bind fun r => .done (.ok r.1, r.2)

/-- The loop over the policy names in `backupPolicies`. -/
def backupPolicyNames {σ : Type} (V : API σ) :
    List String → BackupData → σ → BackupData × σ
  | [], backup, s => (backup, s)
  | policyName :: rest, backup, s =>
    if policyName = "root" ∨ policyName = "default" then backupPolicyNames V rest backup s
    else
      match V.getPolicy policyName s with
      | (.error _, s1) => backupPolicyNames V rest backup s1
      | (.ok policy, s1) =>
        backupPolicyNames V rest
          { backup with Policies := backup.Policies ++ [⟨policyName, policy⟩] } s1

/-- The function `backupPolicies` of client.go. -/
def backupPolicies {σ : Type} (V : API σ) (backup : BackupData) (s : σ) :
    Except Err BackupData × σ :=
  match V.listPolicies s with
  | (.error err, s1) => (.error err, s1)
  | (.ok policies, s1) =>
    let r := backupPolicyNames V policies backup s1
    (.ok r.1, r.2)

/-- The loop over the listed user names in `backupUserpassUsers` and
`backupLDAPUsers`. -/
def backupUserKeys {σ : Type} (V : API σ) (listPath : String) :
    List Value → List UserBackup → σ → Run (List UserBackup × σ)
  | [], users, s => .done (users, s)
  | key :: rest, users, s =>
    match key with
    | .str username =>
      match V.read (listPath ++ "/" ++ username) s with
      | (.ok (some userResp), s1) =>
        backupUserKeys V listPath rest (users ++ [⟨username, userResp.Data.getD []⟩]) s1
      | (_, s1) => backupUserKeys V listPath rest users s1
    | _ => .panicked

/-- The function `backupUserpassUsers` of client.go. -/
def backupUserpassUsers {σ : Type} (V : API σ) (authPath : String) (s : σ) :
    Run (Except Err (List UserBackup) × σ) :=
  let listPath := "auth/" ++ TrimSuffix authPath "/" ++ "/users"
  match V.list listPath s with
  | (.ok (some resp), s1) =>
    match index (resp.Data.getD []) "keys" with
    | .arr keys => (backupUserKeys V listPath keys [] s1).bind fun r => .done (.ok r.1, r.2)
    | _ => .done (.ok [], s1)
  | (_, s1) => .done (.ok [], s1)

/-- The loop over the listed role names in `backupAppRoles`. -/
def backupRoleKeys {σ : Type} (V : API σ) (listPath : String) :
    List Value → List RoleBackup → σ → Run (List RoleBackup × σ)
  | [], roles, s => .done (roles, s)
  | key :: rest, roles, s =>
    match key with
    | .str roleName =>
      match V.read (listPath ++ "/" ++ roleName) s with
      | (.ok (some roleResp), s1) =>
        backupRoleKeys V listPath rest (roles ++ [⟨roleName, roleResp.Data.getD []⟩]) s1
      | (_, s1) => backupRoleKeys V listPath rest roles s1
    | _ => .panicked

/-- The function `backupAppRoles` of client.go. -/
def backupAppRoles {σ : Type} (V : API σ) (authPath : String) (s : σ) :
    Run (Except Err (List RoleBackup) × σ) :=
  let listPath := "auth/" ++ TrimSuffix authPath "/" ++ "/role"
  match V.list listPath s with
  | (.ok (some resp), s1) =>
    match index (resp.Data.getD []) "keys" with
    | .arr keys => (backupRoleKeys V listPath keys [] s1).bind fun r => .done (.ok r.1, r.2)
    | _ => .done (.ok [], s1)
  | (_, s1) => .done (.ok [], s1)

/-- The function `backupLDAPUsers` of client.go. -/
def backupLDAPUsers {σ : Type} (V : API σ) (authPath : String) (s : σ) :
    Run (Except Err (List UserBackup) × σ) :=
  let listPath := "auth/" ++ TrimSuffix authPath "/" ++ "/users"
  match V.list listPath s with
  | (.ok (some resp), s1) =>
    match index (resp.Data.getD []) "keys" with
    | .arr keys => (backupUserKeys V listPath keys [] s1).bind fun r => .done (.ok r.1, r.2)
    | _ => .done (.ok [], s1)
  | (_, s1) => .done (.ok [], s1)

/-- Go `backup.AuthMethods = append(backup.AuthMethods, a)`. -/
def BackupData.addAuth (backup : BackupData) (a : AuthMethodBackup) : BackupData :=
  { backup with AuthMethods := backup.AuthMethods ++ [a] }

/-- The loop over the auth mounts in `backupAuthMethods`. -/
def backupAuthMounts {σ : Type} (V : API σ) :
    List (String × AuthMount) → BackupData → σ → Run (BackupData × σ)
  | [], backup, s => .done (backup, s)
  | (path, auth) :: rest, backup, s =>
    if path = "token/" then backupAuthMounts V rest backup s
    else
      let authBackup : AuthMethodBackup :=
        ⟨path, auth.Typ, auth.Description, convertToMap (Value.other "api.AuthConfigOutput"),
          convertStringMapToInterface auth.Options, [], []⟩
      if auth.Typ = "userpass" then
        (backupUserpassUsers V path s).bind fun r =>
          match r with
          | (.ok users, s1) =>
            backupAuthMounts V rest (backup.addAuth { authBackup with Users := users }) s1
          | (.error _, s1) => backupAuthMounts V rest (backup.addAuth authBackup) s1
      else if auth.Typ = "approle" then
        (backupAppRoles V path s).bind fun r =>
          match r with
          | (.ok roles, s1) =>
            backupAuthMounts V rest (backup.addAuth { authBackup with Roles := roles }) s1
          | (.error _, s1) => backupAuthMounts V rest (backup.addAuth authBackup) s1
      else if auth.Typ = "ldap" then
        (backupLDAPUsers V path s).bind fun r =>
          match r with
          | (.ok users, s1) =>
            backupAuthMounts V rest (backup.addAuth { authBackup with Users := users }) s1
          | (.error _, s1) => backupAuthMounts V rest (backup.addAuth authBackup) s1
      else backupAuthMounts V rest (backup.addAuth authBackup) s

/-- The function `backupAuthMethods` of client.go. -/
def backupAuthMethods {σ : Type} (V : API σ) (backup : BackupData) (s : σ) :
    Run (Except Err BackupData × σ) :=
  match V.listAuth s with
  | (.error err, s1) => .done (.error err, s1)
  | (.ok auths, s1) => (backupAuthMounts V auths backup s1).bind fun r => .done (.ok r.1, r.2)

/-- The function `Backup` of client.go. -/
def Backup {σ : Type} (V : API σ) (fuel : Nat) (engines : List String) (s : σ) :
    Run (Except Err BackupData × σ) :=
  let t := V.now s
  let backup : BackupData := ⟨t.1, "", [], [], []⟩
  let h := V.health t.2
  let backup := match h.1 with
    | .ok version => { backup with VaultVersion := version }
    | .error _ => backup
  (backupSecretEngines V fuel backup engines h.2).bind fun r1 =>
    match r1 with
    | (.error err, s1) => .done (.error ("failed to backup secret engines: " ++ err), s1)
    | (.ok backup, s1) =>
      match backupPolicies V backup s1 with
      | (.error err, s2) => .done (.error ("failed to backup policies: " ++ err), s2)
      | (.ok backup, s2) =>
        (backupAuthMethods V backup s2).bind fun r3 =>
          match r3 with
          | (.error err, s3) => .done (.error ("failed to backup auth methods: " ++ err), s3)
          | (.ok backup, s3) => .done (.ok backup, s3)

/-! ## restore.go -/

/-- The string `convertInterfaceMapToString` stores for a value: the value
itself when it is a string, `fmt.Sprintf("%v", v)` otherwise. -/
def optionString (sprint : Value → String) : Value → String
  | .str str => str
  | v => sprint v

/-- The function `convertInterfaceMapToString` of restore.go; `sprint` is
`fmt.Sprintf("%v", ·)`. -/
def convertInterfaceMapToString (sprint : Value → String) (m : Data) : StrMap :=
  m.foldl (fun result kv => mapSet result kv.1 (optionString sprint kv.2)) []

/-- The data writes of `restoreKVv2Secrets` for the versions of one secret. -/
def restoreVersions {σ : Type} (V : API σ) (mountPath secretPath : String) :
    List SecretVersion → σ → σ
  | [], s => s
  | version :: rest, s =>
    if version.Destroyed then restoreVersions V mountPath secretPath rest s
    else
      let r := V.write (mountPath ++ "data/" ++ secretPath) [("data", Value.obj version.Data)] s
      restoreVersions V mountPath secretPath rest r.2

/-- The map `metadataData` that `restoreKVv2Secrets` builds for a secret. -/
def metadataData (m : SecretMetadata) : Data :=
  let d : Data := []
  let d := if m.MaxVersions > 0 then mapSet d "max_versions" (Value.int m.MaxVersions) else d
  let d := if m.CasRequired then mapSet d "cas_required" (Value.bool true) else d
  let d := if m.CustomMetadata.length > 0 then
    mapSet d "custom_metadata" (Value.strMap m.CustomMetadata) else d
  let d := if m.DeleteVersionAfter ≠ "" then
    mapSet d "delete_version_after" (Value.str m.DeleteVersionAfter) else d
  d

/-- The function `restoreKVv2Secrets` of restore.go; the error is always nil. -/
def restoreKVv2Secrets {σ : Type} (V : API σ) (mountPath : String) :
    List SecretBackup → σ → Option Err × σ
  | [], s => (none, s)
  | secret :: rest, s =>
    let s1 := restoreVersions V mountPath secret.Path secret.Versions s
    if secret.Metadata.MaxVersions > 0 ∨ secret.Metadata.CasRequired = true
        ∨ secret.Metadata.CustomMetadata.length > 0 then
      if (metadataData secret.Metadata).length > 0 then
        let r := V.write (mountPath ++ "metadata/" ++ secret.Path) (metadataData secret.Metadata) s1
        restoreKVv2Secrets V mountPath rest r.2
      else restoreKVv2Secrets V mountPath rest s1
    else restoreKVv2Secrets V mountPath rest s1

/-- The function `restoreKVv1Secrets` of restore.go; the error is always nil. -/
def restoreKVv1Secrets {σ : Type} (V : API σ) (mountPath : String) :
    List SecretBackup → σ → Option Err × σ
  | [], s => (none, s)
  | secret :: rest, s =>
    match secret.Versions.getLast? with
    | none => restoreKVv1Secrets V mountPath rest s
    | some version =>
      let r := V.write (mountPath ++ secret.Path) version.Data s
      restoreKVv1Secrets V mountPath rest r.2

/-- The test `engine.Options != nil && engine.Options["version"] == "2"`. -/
def isVersion2 (options : Data) : Bool :=
  match index options "version" with
  | .str v => decide (v = "2")
  | _ => false

/-- The block `// Restore secrets` of `restoreSecretEngines` for one engine. -/
def restoreEngineSecrets {σ : Type} (V : API σ) (engine : SecretEngineBackup) (s : σ) : σ :=
  if engine.Typ = "kv" ∨ engine.Typ = "generic" then
    if isVersion2 engine.Options then (restoreKVv2Secrets V engine.Path engine.Secrets s).2
    else (restoreKVv1Secrets V engine.Path engine.Secrets s).2
  else s

/-- The `api.MountInput` that `restoreSecretEngines` builds for an engine. -/
def mountInputOf (sprint : Value → String) (engine : SecretEngineBackup) : MountInput :=
  ⟨engine.Typ, engine.Description, convertInterfaceMapToString sprint engine.Options⟩

/-- The function `restoreSecretEngines` of restore.go, a loop over the
engines of the snapshot. -/
def restoreSecretEngines {σ : Type} (V : API σ) (filterEngines : List String) :
    List SecretEngineBackup → σ → Option Err × σ
  | [], s => (none, s)
  | engine :: rest, s =>
    if filteredOut filterEngines engine.Path then restoreSecretEngines V filterEngines rest s
    else
      match V.listMounts s with
      | (.error err, s1) => (some err, s1)
      | (.ok mounts, s1) =>
        if mounts.any (fun m => decide (m.1 = engine.Path)) then
          restoreSecretEngines V filterEngines rest (restoreEngineSecrets V engine s1)
        else
          match V.mount (TrimSuffix engine.Path "/") (mountInputOf V.sprint engine) s1 with
          | (some _, s2) => restoreSecretEngines V filterEngines rest s2
          | (none, s2) =>
            restoreSecretEngines V filterEngines rest (restoreEngineSecrets V engine s2)

/-- The function `restorePolicies` of restore.go; the error is always nil. -/
def restorePolicies {σ : Type} (V : API σ) : List PolicyBackup → σ → Option Err × σ
  | [], s => (none, s)
  | policy :: rest, s => restorePolicies V rest (V.putPolicy policy.Name policy.Policy s).2

/-- The map `userData` of `restoreUserpassUsers`: a copy of the user's data
with the password set. -/
def userData (data : Data) (defaultPassword : String) : Data :=
  mapSet (data.foldl (fun m kv => mapSet m kv.1 kv.2) []) "password" (Value.str defaultPassword)

/-- The function `restoreUserpassUsers` of restore.go; the error is always nil. -/
def restoreUserpassUsers {σ : Type} (V : API σ) (authPath : String) (defaultPassword : String) :
    List UserBackup → σ → Option Err × σ
  | [], s => (none, s)
  | user :: rest, s =>
    let r := V.write ("auth/" ++ TrimSuffix authPath "/" ++ "/users" ++ "/" ++ user.Name)
      (userData user.Data defaultPassword) s
    restoreUserpassUsers V authPath defaultPassword rest r.2

/-- The function `restoreAppRoles` of restore.go; the error is always nil. -/
def restoreAppRoles {σ : Type} (V : API σ) (authPath : String) :
    List RoleBackup → σ → Option Err × σ
  | [], s => (none, s)
  | role :: rest, s =>
    let r := V.write ("auth/" ++ TrimSuffix authPath "/" ++ "/role" ++ "/" ++ role.Name) role.Data s
    restoreAppRoles V authPath rest r.2

/-- The function `restoreLDAPUsers` of restore.go; the error is always nil. -/
def restoreLDAPUsers {σ : Type} (V : API σ) (authPath : String) :
    List UserBackup → σ → Option Err × σ
  | [], s => (none, s)
  | user :: rest, s =>
    let r := V.write ("auth/" ++ TrimSuffix authPath "/" ++ "/users" ++ "/" ++ user.Name) user.Data s
    restoreLDAPUsers V authPath rest r.2

/-- The `switch auth.Type` of `restoreAuthMethods` for one auth method. -/
def restoreAuthEntries {σ : Type} (V : API σ) (opts : RestoreOptions) (auth : AuthMethodBackup)
    (s : σ) : σ :=
  if auth.Typ = "userpass" then
    (restoreUserpassUsers V auth.Path opts.DefaultPassword auth.Users s).2
  else if auth.Typ = "approle" then (restoreAppRoles V auth.Path auth.Roles s).2
  else if auth.Typ = "ldap" then (restoreLDAPUsers V auth.Path auth.Users s).2
  else s

/-- The `api.EnableAuthOptions` that `restoreAuthMethods` builds. -/
def enableInputOf (sprint : Value → String) (auth : AuthMethodBackup) : EnableAuthOptions :=
  ⟨auth.Typ, auth.Description, convertInterfaceMapToString sprint auth.Options⟩

/-- The function `restoreAuthMethods` of restore.go, a loop over the auth
methods of the snapshot; of the options only `DefaultPassword` is read. -/
def restoreAuthMethods {σ : Type} (V : API σ) (opts : RestoreOptions) :
    List AuthMethodBackup → σ → Option Err × σ
  | [], s => (none, s)
  | auth :: rest, s =>
    match V.listAuth s with
    | (.error err, s1) => (some err, s1)
    | (.ok auths, s1) =>
      if auths.any (fun a => decide (a.1 = auth.Path)) then
        restoreAuthMethods V opts rest (restoreAuthEntries V opts auth s1)
      else
        match V.enableAuth (TrimSuffix auth.Path "/") (enableInputOf V.sprint auth) s1 with
        | (some _, s2) => restoreAuthMethods V opts rest s2
        | (none, s2) => restoreAuthMethods V opts rest (restoreAuthEntries V opts auth s2)

/-- The function `Restore` of restore.go. -/
def Restore {σ : Type} (V : API σ) (backup : BackupData) (opts : RestoreOptions) (s : σ) :
    Option Err × σ :=
  match restoreSecretEngines V opts.Engines backup.SecretEngines s with
  | (some err, s1) => (some ("failed to restore secret engines: " ++ err), s1)
  | (none, s1) =>
    let r2 : Option Err × σ :=
      if opts.SkipPolicies then (none, s1) else restorePolicies V backup.Policies s1
    match r2 with
    | (some err, s2) => (some ("failed to restore policies: " ++ err), s2)
    | (none, s2) =>
      let r3 : Option Err × σ :=
        if opts.SkipAuth then (none, s2) else restoreAuthMethods V opts backup.AuthMethods s2
      match r3 with
      | (some err, s3) => (some ("failed to restore auth methods: " ++ err), s3)
      | (none, s3) => (none, s3)

/-! ## The calls a run makes -/

/-- A call on the Vault API, with its arguments. -/
inductive Call where
  | health
  | listMounts
  | mount (path : String) (input : MountInput)
  | listAuth
  | enableAuth (path : String) (input : EnableAuthOptions)
  | listPolicies
  | getPolicy (name : String)
  | putPolicy (name rules : String)
  | read (path : String)
  | readWithData (path : String) (params : List (String × List String))
  | list (path : String)
  | write (path : String) (data : Data)
  deriving Repr

/-- A call together with whether it returned a non-nil error. -/
structure Event where
  call : Call
  failed : Bool
  deriving Repr

/-- Whether an answer of type `(T, error)` carries an error. -/
def failedE {α : Type} : Except Err α → Bool
  | .error _ => true
  | .ok _ => false

/-- The server `V` with a log: every call is appended to the log, with its
outcome, and answered as `V` answers it. -/
def traced {σ : Type} (V : API σ) : API (σ × List Event) where
  health w := let r := V.health w.1; (r.1, r.2, w.2 ++ [⟨.health, failedE r.1⟩])
  listMounts w := let r := V.listMounts w.1; (r.1, r.2, w.2 ++ [⟨.listMounts, failedE r.1⟩])
  mount p i w := let r := V.mount p i w.1; (r.1, r.2, w.2 ++ [⟨.mount p i, r.1.isSome⟩])
  listAuth w := let r := V.listAuth w.1; (r.1, r.2, w.2 ++ [⟨.listAuth, failedE r.1⟩])
  enableAuth p i w :=
    let r := V.enableAuth p i w.1; (r.1, r.2, w.2 ++ [⟨.enableAuth p i, r.1.isSome⟩])
  listPolicies w :=
    let r := V.listPolicies w.1; (r.1, r.2, w.2 ++ [⟨.listPolicies, failedE r.1⟩])
  getPolicy n w := let r := V.getPolicy n w.1; (r.1, r.2, w.2 ++ [⟨.getPolicy n, failedE r.1⟩])
  putPolicy n t w := let r := V.putPolicy n t w.1; (r.1, r.2, w.2 ++ [⟨.putPolicy n t, r.1.isSome⟩])
  read p w := let r := V.read p w.1; (r.1, r.2, w.2 ++ [⟨.read p, failedE r.1⟩])
  readWithData p q w :=
    let r := V.readWithData p q w.1; (r.1, r.2, w.2 ++ [⟨.readWithData p q, failedE r.1⟩])
  list p w := let r := V.list p w.1; (r.1, r.2, w.2 ++ [⟨.list p, failedE r.1⟩])
  write p d w := let r := V.write p d w.1; (r.1, r.2, w.2 ++ [⟨.write p d, failedE r.1⟩])
  now w := let r := V.now w.1; (r.1, r.2, w.2)
  parseTime := V.parseTime
  sprint := V.sprint

/-- The calls of a log, without their outcomes. -/
def callsOf (log : List Event) : List Call := log.map Event.call

/-! ## A concrete server

A store in which a mount or auth method, once created, is listed under its
path with a trailing `/`; a write at a path stores the payload, a read
returns it, and a listing returns the stored keys below a path, one level
at a time, a key with a `/` standing for the directory up to that `/`.
Calls on a denied path fail. -/

structure Store where
  mounts : List (String × MountOutput)
  auths : List (String × AuthMount)
  policies : List (String × String)
  kv : List (String × Data)
  denied : List String
  clock : Int
  deriving Repr

/-- The store of a server that holds nothing. -/
def Store.empty : Store := ⟨[], [], [], [], [], 0⟩

/-- The first path segment of a key: up to and including its first `/`. -/
def firstSegment : List Char → List Char
  | [] => []
  | c :: rest => if c = '/' then [c] else c :: firstSegment rest

/-- Add a key to a listing unless it is there. -/
def addKey (ks : List String) (k : String) : List String :=
  if contains ks k then ks else ks ++ [k]

/-- The keys listed at `path`: for every stored key strictly below `path`,
the first segment of the rest, each once. -/
def Store.childrenOf (kv : List (String × Data)) (path : String) : List String :=
  kv.foldl (fun ks e =>
    if HasPrefix e.1 path then
      match e.1.data.drop path.data.length with
      | [] => ks
      | c :: rest => addKey ks ⟨firstSegment (c :: rest)⟩
    else ks) []

/-- The query string of a read with parameters. -/
def encodeQuery : List (String × List String) → String
  | [] => ""
  | (k, vs) :: rest => "?" ++ k ++ "=" ++ String.join vs ++ encodeQuery rest

/-- The integer a `float64` holds, if it holds one. -/
def Float64.toInt (f : Float64) : Option Int :=
  if 0 ≤ f.exp then some (f.mant * 2 ^ f.exp.toNat)
  else if f.mant % 2 ^ (-f.exp).toNat = 0 then some (f.mant / 2 ^ (-f.exp).toNat)
  else none

/-- A numeral without its trailing zeros. -/
def stripZeros (digits : List Char) : List Char :=
  (digits.reverse.dropWhile fun c => c = '0').reverse

/-- The form `%v` gives an integral `float64` of seven digits or more: the
first digit, the other digits up to the last that is not zero after a `.`,
then `e+` and the exponent in two digits or more. -/
def sprintExp (n : Int) : String :=
  let digits := (toString n.natAbs).data
  let e := digits.length - 1
  match stripZeros digits with
  | [] => "0"
  | d :: rest =>
    (if n < 0 then "-" else "") ++ ⟨[d]⟩ ++ (if rest = [] then "" else "." ++ ⟨rest⟩)
      ++ "e+" ++ (if e < 10 then "0" else "") ++ toString e

/-- The `fmt.Sprintf("%v", ·)` of a `float64`, the format `%g` with the
shortest digits: an integer below `10 ^ 6` in size is printed in full, one
below `2 ^ 53` with an exponent.  The digits of the other numbers are not
computed; `?` stands for them, which is the output of no number. -/
def sprintFloat (f : Float64) : String :=
  match f.toInt with
  | some n =>
    if n.natAbs < 10 ^ 6 then toString n
    else if n.natAbs < 2 ^ 53 then sprintExp n
    else "?"
  | none => "?"

/-- The `fmt.Sprintf("%v", ·)` of the concrete server, exact on nil,
booleans, integers, the numbers that `sprintFloat` prints, JSON numbers and
strings; `?` stands for the output on the other values.  The statements
that read a converted option hold for every such function and rest on
`sprintValue` at the values of their concrete inputs alone. -/
def sprintValue : Value → String
  | .null => "<nil>"
  | .bool b => if b then "true" else "false"
  | .int i => toString i
  | .float f => sprintFloat f
  | .number n => n
  | .str t => t
  | _ => "?"

/-- The concrete server as an `API`. -/
def storeAPI : API Store where
  health s := (.ok "1.15.0", s)
  listMounts s :=
    if contains s.denied "sys/mounts" then (.error "permission denied", s) else (.ok s.mounts, s)
  mount p i s :=
    if contains s.denied p then (some "permission denied", s)
    else if contains (Keys s.mounts) (p ++ "/") then (some "path is already in use", s)
    else (none, { s with mounts := s.mounts ++ [(p ++ "/", ⟨i.Typ, i.Description, i.Options⟩)] })
  listAuth s :=
    if contains s.denied "sys/auth" then (.error "permission denied", s) else (.ok s.auths, s)
  enableAuth p i s :=
    if contains s.denied p then (some "permission denied", s)
    else if contains (Keys s.auths) (p ++ "/") then (some "path is already in use", s)
    else (none, { s with auths := s.auths ++ [(p ++ "/", ⟨i.Typ, i.Description, i.Options⟩)] })
  listPolicies s :=
    if contains s.denied "sys/policy" then (.error "permission denied", s)
    else (.ok (Keys s.policies), s)
  getPolicy n s :=
    if contains s.denied n then (.error "permission denied", s)
    else (.ok ((mapGet s.policies n).getD ""), s)
  putPolicy n t s :=
    if contains s.denied n then (some "permission denied", s)
    else (none, { s with policies := mapSet s.policies n t })
  read p s :=
    if contains s.denied p then (.error "permission denied", s)
    else (.ok ((mapGet s.kv p).map fun d => ⟨some d⟩), s)
  readWithData p q s :=
    if contains s.denied (p ++ encodeQuery q) then (.error "permission denied", s)
    else (.ok ((mapGet s.kv (p ++ encodeQuery q)).map fun d => ⟨some d⟩), s)
  list p s :=
    if contains s.denied p then (.error "permission denied", s)
    else
      match Store.childrenOf s.kv p with
      | [] => (.ok none, s)
      | k :: ks => (.ok (some ⟨some [("keys", Value.arr ((k :: ks).map Value.str))]⟩), s)
  write p d s :=
    if contains s.denied p then (.error "permission denied", s)
    else (.ok none, { s with kv := mapSet s.kv p d })
  now s := (⟨s.clock⟩, { s with clock := s.clock + 1 })
  parseTime _ := Time.zero
  sprint := sprintValue

/-- The concrete server for a client whose `fmt.Sprintf("%v", ·)` is `sprint`. -/
def storeAPIWith (sprint : Value → String) : API Store := { storeAPI with sprint := sprint }

/-! ## Vocabulary of the statements -/

/-- A path that begins with one of the three reserved prefixes. -/
def reservedPath (path : String) : Prop :=
  HasPrefix path "sys/" = true ∨ HasPrefix path "identity/" = true
    ∨ HasPrefix path "cubbyhole/" = true

instance (path : String) : Decidable (reservedPath path) := by
  unfold reservedPath; infer_instance

/-- A mount path in the scope of an export with allow-list `filterEngines`:
not reserved and, when the allow-list is not empty, named by it without its
trailing `/`. -/
def exported (filterEngines : List String) (path : String) : Prop :=
  ¬ reservedPath path ∧ (filterEngines ≠ [] → TrimSuffix path "/" ∈ filterEngines)

instance (filterEngines : List String) (path : String) :
    Decidable (exported filterEngines path) := by
  unfold exported; infer_instance

/-- What an exported engine takes from its mount. -/
def engineOf (m : String × MountOutput) (e : SecretEngineBackup) : Prop :=
  e.Path = m.1 ∧ e.Typ = m.2.Typ ∧ e.Description = m.2.Description
    ∧ e.Options = convertStringMapToInterface m.2.Options

/-- What an exported auth method takes from its auth mount. -/
def authOf (m : String × AuthMount) (a : AuthMethodBackup) : Prop :=
  a.Path = m.1 ∧ a.Typ = m.2.Typ ∧ a.Description = m.2.Description
    ∧ a.Options = convertStringMapToInterface m.2.Options

/-! ## Concrete inputs -/

/-- A snapshot that holds nothing. -/
def emptyBackup : BackupData := ⟨Time.zero, "", [], [], []⟩

/-- A server with a key-value mount, a system mount, the token auth mount
and an auth mount under `identity/`. -/
def reservedAuthStore : Store :=
  { Store.empty with
    mounts := [("sys/", ⟨"system", "", []⟩), ("secret/", ⟨"kv", "", []⟩)]
    auths := [("token/", ⟨"token", "", []⟩), ("identity/oidc/", ⟨"oidc", "", []⟩)]
    kv := [("secret/app", [("k", Value.str "v")])] }

/-- The snapshot `Backup` takes of `reservedAuthStore`. -/
def reservedAuthSnapshot : BackupData :=
  { Timestamp := ⟨0⟩
    VaultVersion := "1.15.0"
    SecretEngines := [⟨"secret/", "kv", "", [], [],
      [⟨"app", [⟨1, [("k", Value.str "v")], ⟨1⟩, "", false⟩],
        { SecretMetadata.zero with CurrentVersion := 1, MaxVersions := 1 }⟩]⟩]
    Policies := []
    AuthMethods := [⟨"identity/oidc/", "oidc", "", [], [], [], []⟩] }

/-- A server with three key-value mounts, two of them holding a secret. -/
def threeMountStore : Store :=
  { Store.empty with
    mounts := [("apps/", ⟨"kv", "", []⟩), ("secret/", ⟨"kv", "main", []⟩),
      ("team/", ⟨"generic", "", []⟩)]
    kv := [("apps/web", [("port", Value.str "80")]), ("secret/db", [("pw", Value.str "x")])] }

/-- The snapshot `backupSecretEngines` builds from `threeMountStore` with
the allow-list `["secret"]`. -/
def threeMountSnapshot : BackupData :=
  { emptyBackup with
    SecretEngines := [⟨"secret/", "kv", "main", [], [],
      [⟨"db", [⟨1, [("pw", Value.str "x")], ⟨0⟩, "", false⟩],
        { SecretMetadata.zero with CurrentVersion := 1, MaxVersions := 1 }⟩]⟩] }

/-- A secret without its destroyed versions. -/
def SecretBackup.live (secret : SecretBackup) : SecretBackup :=
  { secret with Versions := secret.Versions.filter fun v => !v.Destroyed }

/-- An engine that `restoreSecretEngines` treats as a v2-style key-value
engine, without the destroyed versions of its secrets; any other engine as it is. -/
def SecretEngineBackup.dropDestroyed (engine : SecretEngineBackup) : SecretEngineBackup :=
  if (engine.Typ = "kv" ∨ engine.Typ = "generic") ∧ isVersion2 engine.Options = true then
    { engine with Secrets := engine.Secrets.map SecretBackup.live }
  else engine

/-- A snapshot without the destroyed versions of its v2-style engines. -/
def BackupData.dropDestroyed (backup : BackupData) : BackupData :=
  { backup with SecretEngines := backup.SecretEngines.map SecretEngineBackup.dropDestroyed }

/-- The data writes for the versions of a secret of a v2-style engine:
one per version that is not destroyed. -/
def versionWrites (mountPath secretPath : String) (versions : List SecretVersion) : List Call :=
  (versions.filter fun v => !v.Destroyed).map fun v =>
    Call.write (mountPath ++ "data/" ++ secretPath) [("data", Value.obj v.Data)]

/-- The writes for the secrets of a v1-style engine: the last version of
each secret that has one. -/
def lastVersionWrites (mountPath : String) (secrets : List SecretBackup) : List Call :=
  secrets.filterMap fun secret =>
    secret.Versions.getLast?.map fun v => Call.write (mountPath ++ secret.Path) v.Data

/-- The default options of the `restore` command. -/
def defaultOptions : RestoreOptions := ⟨[], false, false, "ChangeMe123!"⟩

/-- A snapshot with one v1-style engine whose only version is marked destroyed. -/
def destroyedV1Snapshot : BackupData :=
  { emptyBackup with
    SecretEngines := [⟨"legacy/", "kv", "", [], [],
      [⟨"app", [⟨1, [("token", Value.str "t0p")], Time.zero, "", true⟩],
        { SecretMetadata.zero with CurrentVersion := 1, MaxVersions := 1 }⟩]⟩] }
/-- Two users of a userpass auth method, the first with a stored password field. -/
def twoUsers : List UserBackup :=
  [⟨"alice", [("password", Value.str "old-hash"), ("token_policies", Value.str "admin")]⟩,
    ⟨"bob", [("token_policies", Value.str "dev")]⟩]
/-- The conclusion of C5 without its claim on the first entry: at most
`CurrentVersion` versions, with strictly ascending numbers between 1 and
`CurrentVersion`. -/
def versionsWithinCount (secret : SecretBackup) : Prop :=
  (secret.Versions.length : Int) ≤ secret.Metadata.CurrentVersion
    ∧ (secret.Versions.map fun v => v.Version).Pairwise (· < ·)
    ∧ ∀ v ∈ secret.Versions, 1 ≤ v.Version ∧ v.Version ≤ secret.Metadata.CurrentVersion

/-- A server with a v2-style mount holding one secret with two versions, the
first of which cannot be read. -/
def gapStore : Store :=
  { Store.empty with
    mounts := [("secret/", ⟨"kv", "", [("version", "2")]⟩)]
    kv := [("secret/metadata/app", [("current_version", Value.number "2")]),
      ("secret/data/app?version=1", [("data", Value.obj [("k", Value.str "one")])]),
      ("secret/data/app?version=2", [("data", Value.obj [("k", Value.str "two")])])]
    denied := ["secret/data/app?version=1"] }

/-- The secret that `backupKVv2Secrets` returns from `gapStore`. -/
def gapSecret : SecretBackup :=
  ⟨"app", [⟨2, [("k", Value.str "two")], Time.zero, "", false⟩],
    { SecretMetadata.zero with CurrentVersion := 2 }⟩

/-- A target that keeps its mounts and auth methods.  `mounted s` and
`enabled s` are the mount paths and auth paths in place in state `s`: a
listing that succeeds shows all of them, a create-mount or enable-auth call
that succeeds at `p` puts `p/` in place, and no call that `Restore` makes
removes a path. -/
structure KeepsMounts {σ : Type} (V : API σ) (mounted enabled : σ → String → Prop) : Prop where
  listMounts_shows : ∀ s l s', V.listMounts s = (.ok l, s') → ∀ p, mounted s p → p ∈ Keys l
  listAuth_shows : ∀ s l s', V.listAuth s = (.ok l, s') → ∀ p, enabled s p → p ∈ Keys l
  mount_creates : ∀ p i s s', V.mount p i s = (none, s') → mounted s' (p ++ "/")
  enableAuth_creates : ∀ p i s s', V.enableAuth p i s = (none, s') → enabled s' (p ++ "/")
  listMounts_keeps : ∀ s p, (mounted s p → mounted (V.listMounts s).2 p)
    ∧ (enabled s p → enabled (V.listMounts s).2 p)
  mount_keeps : ∀ q i s p, (mounted s p → mounted (V.mount q i s).2 p)
    ∧ (enabled s p → enabled (V.mount q i s).2 p)
  listAuth_keeps : ∀ s p, (mounted s p → mounted (V.listAuth s).2 p)
    ∧ (enabled s p → enabled (V.listAuth s).2 p)
  enableAuth_keeps : ∀ q i s p, (mounted s p → mounted (V.enableAuth q i s).2 p)
    ∧ (enabled s p → enabled (V.enableAuth q i s).2 p)
  putPolicy_keeps : ∀ n t s p, (mounted s p → mounted (V.putPolicy n t s).2 p)
    ∧ (enabled s p → enabled (V.putPolicy n t s).2 p)
  write_keeps : ∀ q d s p, (mounted s p → mounted (V.write q d s).2 p)
    ∧ (enabled s p → enabled (V.write q d s).2 p)

/-- Every path in place in `s` is in place in `s'`. -/
def StillInPlace {σ : Type} (mounted enabled : σ → String → Prop) (s s' : σ) : Prop :=
  ∀ p, (mounted s p → mounted s' p) ∧ (enabled s p → enabled s' p)

/-- What a first run leaves: the paths in place at `s0` are in place, and so
is every path a logged successful creation made. -/
def CreatedInPlace {σ : Type} (mounted enabled : σ → String → Prop) (s0 : σ)
    (w : σ × List Event) : Prop :=
  StillInPlace mounted enabled s0 w.1
    ∧ (∀ p i, (⟨Call.mount p i, false⟩ : Event) ∈ w.2 → mounted w.1 (p ++ "/"))
    ∧ (∀ p i, (⟨Call.enableAuth p i, false⟩ : Event) ∈ w.2 → enabled w.1 (p ++ "/"))

/-- What a second run keeps: the paths in place at `s1` stay, and no logged
creation call is at a path in place at `s1`. -/
def NoneCreatedAgain {σ : Type} (mounted enabled : σ → String → Prop) (s1 : σ)
    (w : σ × List Event) : Prop :=
  StillInPlace mounted enabled s1 w.1
    ∧ (∀ p i, Call.mount p i ∈ callsOf w.2 → ¬ mounted s1 (p ++ "/"))
    ∧ (∀ p i, Call.enableAuth p i ∈ callsOf w.2 → ¬ enabled s1 (p ++ "/"))

/-- The mount paths in place in a store. -/
def Store.mounted (s : Store) (p : String) : Prop := p ∈ Keys s.mounts

/-- The auth paths in place in a store. -/
def Store.enabled (s : Store) (p : String) : Prop := p ∈ Keys s.auths

/-- A snapshot with one engine and one auth method, both paths ending in `/`. -/
def smallSnapshot : BackupData :=
  { emptyBackup with
    SecretEngines := [⟨"secret/", "kv", "", [], [],
      [⟨"db", [⟨1, [("pw", Value.str "x")], Time.zero, "", false⟩],
        { SecretMetadata.zero with CurrentVersion := 1, MaxVersions := 1 }⟩]⟩]
    Policies := [⟨"ops", "# operators: read-only"⟩]
    AuthMethods := [⟨"userpass/", "userpass", "", [], [], [], twoUsers⟩] }

/-- A snapshot whose engine path lacks the trailing `/`. -/
def noSlashSnapshot : BackupData :=
  { emptyBackup with SecretEngines := [⟨"secret", "kv", "", [], [], []⟩] }

/-- An engine operation: a mount listing, a mount creation, or a write below
the path of an engine of the snapshot. -/
def engineCall (engines : List SecretEngineBackup) : Call → Prop
  | .listMounts => True
  | .mount _ _ => True
  | .write path _ => ∃ e ∈ engines, HasPrefix path e.Path = true
  | _ => False

/-- A policy write. -/
def policyCall : Call → Prop
  | .putPolicy _ _ => True
  | _ => False

/-- An auth-method operation: an auth listing, an enable call, or a write
of a role or user below `auth/`. -/
def authCall : Call → Prop
  | .listAuth => True
  | .enableAuth _ _ => True
  | .write path _ => HasPrefix path "auth/" = true
  | _ => False

/-- The log `w` extends `log0` by events whose calls all satisfy `cat`. -/
def ExtendsBy (cat : Call → Prop) (log0 : List Event) (log : List Event) : Prop :=
  ∃ evs, log = log0 ++ evs ∧ ∀ e ∈ evs, cat e.call

/-- A server on which creating the mount `secret` is denied. -/
def mountDeniedStore : Store := { Store.empty with denied := ["secret"] }

/-- A top-level listing: of the mounts, of the policies or of the auth methods. -/
def topListing : Call → Bool
  | .listMounts => true
  | .listPolicies => true
  | .listAuth => true
  | _ => false

/-- No top-level listing of the log has failed. -/
def NoTopFailure (log : List Event) : Prop :=
  ∀ ev ∈ log, topListing ev.call = true → ev.failed = false

/-- The outcome of a phase of the export against its log: a returned
snapshot leaves no failed top-level listing, an error comes with one. -/
def PhaseOutcome {α : Type} (r : Except Err α) (log : List Event) : Prop :=
  match r with
  | .ok _ => NoTopFailure log
  | .error _ => ∃ ev ∈ log, ev.failed = true ∧ topListing ev.call = true


/-- A source server whose answers let the export run to its end from the
states in `Inv`: the calls of the export keep `Inv`; the keys of a listing
are strings, and a key ending in `/` leads to a path of smaller `rank` (the
key space below a path is a finite tree); the `data` of a version read is
nil or a map; the version count of a metadata record is below the largest
`int`. -/
structure ReadsWell {τ : Type} (W : API τ) (Inv : τ → Prop) (rank : String → Nat) : Prop where
  now_keeps : ∀ w, Inv w → Inv (W.now w).2
  health_keeps : ∀ w, Inv w → Inv (W.health w).2
  listMounts_keeps : ∀ w, Inv w → Inv (W.listMounts w).2
  list_keeps : ∀ p w, Inv w → Inv (W.list p w).2
  read_keeps : ∀ p w, Inv w → Inv (W.read p w).2
  readWithData_keeps : ∀ p q w, Inv w → Inv (W.readWithData p q w).2
  listPolicies_keeps : ∀ w, Inv w → Inv (W.listPolicies w).2
  getPolicy_keeps : ∀ n w, Inv w → Inv (W.getPolicy n w).2
  listAuth_keeps : ∀ w, Inv w → Inv (W.listAuth w).2
  keys_strings : ∀ p w resp w' keys, Inv w → W.list p w = (.ok (some resp), w') →
    index (resp.Data.getD []) "keys" = Value.arr keys → ∀ k ∈ keys, ∃ t, k = Value.str t
  rank_decreases : ∀ p w resp w' keys t, Inv w → W.list p w = (.ok (some resp), w') →
    index (resp.Data.getD []) "keys" = Value.arr keys → Value.str t ∈ keys →
    HasSuffix t "/" = true → rank (p ++ t) < rank p
  version_data : ∀ p q w resp w' d, Inv w → W.readWithData p q w = (.ok (some resp), w') →
    resp.Data = some d → index d "data" = Value.null ∨ ∃ o, index d "data" = Value.obj o
  version_count : ∀ p w resp w', Inv w → W.read p w = (.ok (some resp), w') →
    (metadataOf W.parseTime resp).CurrentVersion < maxInt

/-- The number of `/` in a path. -/
def slashes (s : String) : Nat := s.data.count '/'

/-- The largest number of `/` in a stored key. -/
def maxSlashes (kv : List (String × Data)) : Nat :=
  kv.foldr (fun e m => max (slashes e.1) m) 0

/-- A rank for the paths of a store: how many levels the stored keys can
still go down from a path. -/
def storeRank (kv : List (String × Data)) (path : String) : Nat :=
  maxSlashes kv + 1 - slashes path

/-- The policies whose fetch a log records as successful, in order. -/
def fetchedPolicies (log : List Event) : List String :=
  log.filterMap fun ev =>
    match ev.call, ev.failed with
    | .getPolicy n, false => some n
    | _, _ => none

/-- A server with two policies, one of which cannot be fetched, and a
key-value mount with a secret that cannot be read. -/
def itemFailureStore : Store :=
  { Store.empty with
    mounts := [("secret/", ⟨"kv", "", []⟩)]
    policies := [("default", "# default"), ("ops", "# ops"), ("dev", "# dev")]
    kv := [("secret/a", [("k", Value.str "1")]), ("secret/b", [("k", Value.str "2")])]
    denied := ["ops", "secret/b"] }

/-- The snapshot `Backup` takes of `itemFailureStore`. -/
def itemFailureSnapshot : BackupData :=
  { Timestamp := ⟨0⟩
    VaultVersion := "1.15.0"
    SecretEngines := [⟨"secret/", "kv", "", [], [],
      [⟨"a", [⟨1, [("k", Value.str "1")], ⟨1⟩, "", false⟩],
        { SecretMetadata.zero with CurrentVersion := 1, MaxVersions := 1 }⟩]⟩]
    Policies := [⟨"dev", "# dev"⟩]
    AuthMethods := [] }

/-- The log of the `Backup` of `itemFailureStore`: the read of `secret/b`
and the fetch of `ops` fail. -/
def itemFailureLog : List Event :=
  [⟨Call.health, false⟩, ⟨Call.listMounts, false⟩, ⟨Call.list "secret/", false⟩,
    ⟨Call.read "secret/a", false⟩, ⟨Call.read "secret/b", true⟩, ⟨Call.listPolicies, false⟩,
    ⟨Call.getPolicy "ops", true⟩, ⟨Call.getPolicy "dev", false⟩, ⟨Call.listAuth, false⟩]

/-- A store as `Restore` leaves it from the empty store after restoring one
v1-style engine with one secret: one mount, nothing denied, the clock at
rest, the secret stored first and every other stored key below `auth/`. -/
def RestoredOne (mountPath : String) (mount : MountOutput) (key : String) (payload : Data)
    (s : Store) : Prop :=
  s.mounts = [(mountPath, mount)] ∧ s.denied = [] ∧ s.clock = 0
    ∧ ∃ others, s.kv = (key, payload) :: others ∧ ∀ e ∈ others, HasPrefix e.1 "auth/" = true

/-- A snapshot with one key-value engine holding one secret with one
version, one policy and the auth methods `auths`. -/
def oneEngineSnapshot (mountPath : String) (options : Data) (secretPath : String)
    (auths : List AuthMethodBackup) : BackupData :=
  { emptyBackup with
    SecretEngines := [⟨mountPath, "kv", "legacy", [], options,
      [⟨secretPath, [⟨7, [("user", Value.str "u"), ("pw", Value.str "p")], ⟨99⟩, "", false⟩],
        { SecretMetadata.zero with CurrentVersion := 7 }⟩]⟩]
    Policies := [⟨"ops", "# operators"⟩]
    AuthMethods := auths }

/-- A userpass auth method with the user `alice`. -/
def aliceAuth : AuthMethodBackup :=
  ⟨"userpass/", "userpass", "", [], [], [], [⟨"alice", [("policies", Value.str "ops")]⟩]⟩

/-- A snapshot with one v1-style engine holding one secret with one version,
its version option the number 1, and a userpass auth method. -/
def oneSecretSnapshot : BackupData :=
  oneEngineSnapshot "kv/" [("version", Value.float ⟨1, 0⟩)] "team/app/db" [aliceAuth]

/-- A snapshot with one v1-style engine under a reserved prefix. -/
def reservedEngineSnapshot : BackupData :=
  { emptyBackup with
    SecretEngines := [⟨"sys/legacy/", "kv", "", [], [],
      [⟨"app", [⟨1, [("k", Value.str "v")], Time.zero, "", false⟩], SecretMetadata.zero⟩]⟩] }

/-- The engines of a snapshot in short: path, then path and payloads of
each secret. -/
def BackupData.payloads (b : BackupData) : List (String × List (String × List Data)) :=
  b.SecretEngines.map fun e =>
    (e.Path, e.Secrets.map fun x => (x.Path, x.Versions.map fun v => v.Data))

/-- The engines that `Restore` into the empty store and then `Backup` give
back, in short; `none` when the export does not return a snapshot. -/
def roundTrip (backup : BackupData) (opts : RestoreOptions) (fuel : Nat) :
    Option (List (String × List (String × List Data))) :=
  match Backup storeAPI fuel [] (Restore storeAPI backup opts Store.empty).2 with
  | .done (.ok b, _) => some b.payloads
  | _ => none

/-! ## The key space as a tree -/

/-- What the answer to a listing shows: its list of keys, or nothing when
the listing fails, returns no secret, or returns one without a list of keys. -/
def shownKeys : Except Err (Option Secret) → Option (List Value)
  | .ok (some resp) =>
    match index (resp.Data.getD []) "keys" with
    | .arr keys => some keys
    | _ => none
  | _ => none

/-- The key space beneath `root` is the finite tree `ls`, on the states in
`Inv`: `ls q` is what the listing of `root ++ q` shows, `none` when it shows
nothing.  The keys of a level are distinct path segments, a name without
`/` or such a name followed by `/`, and a key ending in `/` leads to a level
of smaller `rank`. -/
structure KeyTree {σ : Type} (V : API σ) (Inv : σ → Prop) (root : String)
    (ls : String → Option (List String)) (rank : String → Nat) : Prop where
  list_keeps : ∀ p s, Inv s → Inv (V.list p s).2
  list_shows : ∀ q s, Inv s →
    shownKeys (V.list (root ++ q) s).1 = (ls q).map (List.map Value.str)
  distinct : ∀ q keys, ls q = some keys → keys.Nodup
  segments : ∀ q keys, ls q = some keys → ∀ k ∈ keys, '/' ∉ k.data.dropLast
  finite : ∀ q keys, ls q = some keys → ∀ k ∈ keys, HasSuffix k "/" = true →
    rank (q ++ k) < rank q

/-- The path `rel` is a leaf key path beneath the level `q` of the tree
`ls`: the directory keys ending in `/` on the way down from `q`, followed
by a leaf key, one that does not end in `/`. -/
inductive LeafBelow (ls : String → Option (List String)) : String → String → Prop where
  | leaf (q k : String) (keys : List String) : ls q = some keys → k ∈ keys →
      HasSuffix k "/" = false → LeafBelow ls q k
  | dir (q k rel : String) (keys : List String) : ls q = some keys → k ∈ keys →
      HasSuffix k "/" = true → LeafBelow ls (q ++ k) rel → LeafBelow ls q (k ++ rel)

/-- The key tree of a store beneath `root`, as its listings show it. -/
def Store.keyTree (kv : List (String × Data)) (denied : List String) (root q : String) :
    Option (List String) :=
  if contains denied (root ++ q) then none
  else
    match Store.childrenOf kv (root ++ q) with
    | [] => none
    | k :: ks => some (k :: ks)

/-- A store with a secret at the top of a mount, two below directories and
one below a directory whose listing is denied. -/
def treeStore : Store :=
  { Store.empty with
    kv := [("secret/a", [("k", Value.str "1")]), ("secret/dir/b", [("k", Value.str "2")]),
      ("secret/locked/x", [("k", Value.str "3")]), ("secret/dir/sub/c", [("k", Value.str "4")])]
    denied := ["secret/locked/"] }

/-- A mount of a source server with two options. -/
def versionedMount : MountOutput := ⟨"kv", "team secrets", [("version", "2"), ("audit", "on")]⟩

/-- A snapshot whose one engine is the export of `versionedMount` at `team/`,
with one secret. -/
def versionedSnapshot : BackupData :=
  { emptyBackup with
    SecretEngines := [⟨"team/", "kv", "team secrets", [],
      [("version", Value.str "2"), ("audit", Value.str "on")],
      [⟨"db", [⟨1, [("pw", Value.str "x")], Time.zero, "", false⟩],
        { SecretMetadata.zero with CurrentVersion := 1 }⟩]⟩] }

/-- The metadata write of `restoreKVv2Secrets` for a secret, if it makes one. -/
def metadataWrites (mountPath : String) (secret : SecretBackup) : List Call :=
  if secret.Metadata.MaxVersions > 0 ∨ secret.Metadata.CasRequired = true
      ∨ secret.Metadata.CustomMetadata.length > 0 then
    if (metadataData secret.Metadata).length > 0 then
      [Call.write (mountPath ++ "metadata/" ++ secret.Path) (metadataData secret.Metadata)]
    else []
  else []

/-- A secret with the numbers of its versions replaced by those `f` gives. -/
def SecretBackup.renumber (f : SecretVersion → Int) (secret : SecretBackup) : SecretBackup :=
  { secret with Versions := secret.Versions.map fun v => { v with Version := f v } }

/-- A server that refuses the writes of version data below `secret/`. -/
def dataDeniedStore : Store := { Store.empty with denied := ["secret/data/app"] }

/-- Three versions of a secret, the second one destroyed. -/
def threeVersions : List SecretVersion :=
  [⟨4, [("k", Value.str "one")], Time.zero, "", false⟩,
    ⟨5, [("k", Value.str "gone")], Time.zero, "", true⟩,
    ⟨9, [("k", Value.str "three")], Time.zero, "", false⟩]

/-- A secret of a v2-style engine whose only metadata field that is not the
default is the auto-delete duration, as exported from a secret for which
only `delete_version_after` was configured. -/
def autoDeleteSecret : SecretBackup :=
  ⟨"app", [⟨1, [("k", Value.str "v")], Time.zero, "", false⟩],
    { SecretMetadata.zero with CurrentVersion := 1, DeleteVersionAfter := "72h0m0s" }⟩

/-- The same secret with a limit on the number of versions as well. -/
def autoDeleteLimitedSecret : SecretBackup :=
  { autoDeleteSecret with
    Metadata := { autoDeleteSecret.Metadata with MaxVersions := 5 } }

/-- Go `xs[i]` on a slice: a run-time panic when `i` is out of range. -/
def sliceIndex {α : Type} (xs : List α) (i : Int) : Run α :=
  if i < 0 then .panicked
  else
    match xs[i.toNat]? with
    | some x => .done x
    | none => .panicked

/-- The function `restoreKVv1Secrets` of restore.go with its index
expression `secret.Versions[len(secret.Versions)-1]` spelled out, to show
that the index is in range wherever it is evaluated. -/
def restoreKVv1SecretsIndexed {σ : Type} (V : API σ) (mountPath : String) :
    List SecretBackup → σ → Run (Option Err × σ)
  | [], s => .done (none, s)
  | secret :: rest, s =>
    if secret.Versions.length = 0 then restoreKVv1SecretsIndexed V mountPath rest s
    else
      (sliceIndex secret.Versions ((secret.Versions.length : Int) - 1)).bind fun version =>
        let r := V.write (mountPath ++ secret.Path) version.Data s
        restoreKVv1SecretsIndexed V mountPath rest r.2

/-- Secrets of a v1-style engine: one with three versions, one with none,
one with one version. -/
def v1Secrets : List SecretBackup :=
  [⟨"app", threeVersions, SecretMetadata.zero⟩, ⟨"empty", [], SecretMetadata.zero⟩,
    ⟨"team/db", [⟨1, [("pw", Value.str "x")], Time.zero, "", false⟩], SecretMetadata.zero⟩]

/-- The float `f` has the integer value `n`. -/
def Float64.isInteger (f : Float64) (n : Int) : Prop :=
  if 0 ≤ f.exp then n = f.mant * 2 ^ f.exp.toNat else f.mant = n * 2 ^ (-f.exp).toNat

/-- An integer of the 64-bit range. -/
def inInt64 (n : Int) : Prop := -(2 ^ 63 : Int) ≤ n ∧ n < 2 ^ 63

/-- A value holds the integer `n` as a counter: as a native integer, as a
float whose value is `n`, or as a JSON number written as the decimal numeral
of `n`, the latter two for `n` of the 64-bit range. -/
inductive HoldsInteger : Value → Int → Prop where
  | native (n : Int) : HoldsInteger (.int n) n
  | float (f : Float64) (n : Int) : f.isInteger n → inInt64 n → HoldsInteger (.float f) n
  | number (n : Int) : inInt64 n → HoldsInteger (.number (toString n)) n

/-- A value of another kind than the three numeric ones; the value of an
absent key, nil, is one. -/
def NotNumeric : Value → Prop
  | .int _ => False
  | .float _ => False
  | .number _ => False
  | _ => True

/-- A metadata record with its three counters held in the three numeric
kinds, beside a string. -/
def mixedRecord : Data :=
  [("current_version", Value.number "3"), ("max_versions", Value.float ⟨5, 1⟩),
    ("oldest_version", Value.int 2), ("created_time", Value.str "2024-01-01T00:00:00Z")]

/-- A metadata record as the JSON decoder gives it: the custom metadata is a
map from strings to generic values. -/
def decodedRecord : Data :=
  [("current_version", Value.number "2"), ("cas_required", Value.bool true),
    ("custom_metadata", Value.obj [("owner", Value.str "ops")]),
    ("delete_version_after", Value.str "0s")]

/-- The record `decodedRecord` without its custom metadata. -/
def decodedRecordWithout : Data :=
  [("current_version", Value.number "2"), ("cas_required", Value.bool true),
    ("delete_version_after", Value.str "0s")]

/-- Policy writes are out of sight of the auth-method operations of `V`:
`R s s'` holds of states that differ by policy writes at most, so a policy
write leads to a related state, and in related states the auth listing, the
enable call and a write answer alike and lead to related states. -/
structure PoliciesApart {σ : Type} (V : API σ) (R : σ → σ → Prop) : Prop where
  same : ∀ s, R s s
  putPolicy_apart : ∀ n t s s', R s s' → R s (V.putPolicy n t s').2
  listAuth_alike : ∀ s s', R s s' →
    (V.listAuth s).1 = (V.listAuth s').1 ∧ R (V.listAuth s).2 (V.listAuth s').2
  enableAuth_alike : ∀ p i s s', R s s' →
    (V.enableAuth p i s).1 = (V.enableAuth p i s').1
      ∧ R (V.enableAuth p i s).2 (V.enableAuth p i s').2
  write_alike : ∀ p d s s', R s s' →
    failedE (V.write p d s).1 = failedE (V.write p d s').1
      ∧ R (V.write p d s).2 (V.write p d s').2

/-- Two logging runs in step: their states are related and their logs have
grown by the same events since `base` and `base'`. -/
def InStep {σ : Type} (R : σ → σ → Prop) (base base' : List Event)
    (w w' : σ × List Event) : Prop :=
  R w.1 w'.1 ∧ ∃ evs, w.2 = base ++ evs ∧ w'.2 = base' ++ evs

/-- Two stores with the same content apart from the policies and the clock. -/
def Store.samePolicyFree (s s' : Store) : Prop :=
  s'.mounts = s.mounts ∧ s'.auths = s.auths ∧ s'.kv = s.kv ∧ s'.denied = s.denied

/-! ## Theorems -/

@[simp]
theorem Run.bind_done {α β : Type} (a : α) (f : α → Run β) : (Run.done a).bind f = f a := rfl

@[simp]
theorem Run.bind_panicked {α β : Type} (f : α → Run β) :
    (Run.panicked : Run α).bind f = .panicked := rfl

@[simp]
theorem Run.bind_outOfFuel {α β : Type} (f : α → Run β) :
    (Run.outOfFuel : Run α).bind f = .outOfFuel := rfl

theorem Run.bind_eq_done {α β : Type} {x : Run α} {f : α → Run β} {b : β}
    (h : x.bind f = .done b) : ∃ a, x = .done a ∧ f a = .done b := by
  cases x with
  | done a => exact ⟨a, rfl, h⟩
  | panicked => simp at h
  | outOfFuel => simp at h

theorem contains_iff (xs : List String) (x : String) : contains xs x = true ↔ x ∈ xs := by
  induction xs with
  | nil => simp [contains]
  | cons y ys ih =>
    simp only [contains, List.mem_cons]
    by_cases h : y = x
    · simp [h]
    · simp only [h, if_false, ih]
      constructor
      · intro hm; exact Or.inr hm
      · rintro (h1 | h1)
        · exact absurd h1.symm h
        · exact h1

theorem exported_iff (F : List String) (p : String) :
    exported F p ↔ (isSystemMount p = false ∧ filteredOut F p = false) := by
  unfold exported reservedPath isSystemMount filteredOut
  cases F with
  | nil => simp [contains, and_assoc]
  | cons a as =>
    simp only [ne_eq, reduceCtorEq, not_false_eq_true, forall_const, List.length_cons,
      gt_iff_lt, Nat.zero_lt_succ, decide_True, Bool.true_and, Bool.not_eq_false,
      Bool.or_eq_false_iff, contains_iff, not_or, Bool.not_eq_true, and_assoc]
    rw [← contains_iff]
    cases contains (a :: as) (TrimSuffix p "/") <;> simp

theorem backupMounts_spec {σ : Type} (V : API σ) (fuel : Nat) (F : List String) :
    ∀ (mounts : List (String × MountOutput)) (backup : BackupData) (s : σ) (b' : BackupData) (s' : σ),
      backupMounts V fuel F mounts backup s = .done (b', s') →
      ∃ new, b'.SecretEngines = backup.SecretEngines ++ new
        ∧ List.Forall₂ engineOf (mounts.filter fun m => decide (exported F m.1)) new
        ∧ b'.Policies = backup.Policies ∧ b'.AuthMethods = backup.AuthMethods
        ∧ b'.Timestamp = backup.Timestamp ∧ b'.VaultVersion = backup.VaultVersion := by
  intro mounts
  induction mounts with
  | nil =>
    intro backup s b' s' h
    simp only [backupMounts, Run.done.injEq, Prod.mk.injEq] at h
    obtain ⟨rfl, rfl⟩ := h
    exact ⟨[], by simp, by simp, rfl, rfl, rfl, rfl⟩
  | cons m rest ih =>
    obtain ⟨path, mount⟩ := m
    intro backup s b' s' h
    have hstep : ∀ (e : SecretEngineBackup) (s1 : σ), engineOf (path, mount) e →
        exported F path →
        backupMounts V fuel F rest (backup.addEngine e) s1 = .done (b', s') →
        ∃ new, b'.SecretEngines = backup.SecretEngines ++ new
        ∧ List.Forall₂ engineOf (((path, mount) :: rest).filter fun m => decide (exported F m.1)) new
        ∧ b'.Policies = backup.Policies ∧ b'.AuthMethods = backup.AuthMethods
        ∧ b'.Timestamp = backup.Timestamp ∧ b'.VaultVersion = backup.VaultVersion := by
      intro e s1 he hex hrun
      obtain ⟨new, h1, h2, h3, h4, h5, h6⟩ := ih _ _ _ _ hrun
      refine ⟨e :: new, ?_, ?_, h3, h4, h5, h6⟩
      · simp [h1, BackupData.addEngine]
      · simp only [List.filter_cons, hex, decide_True, if_true]
        exact List.Forall₂.cons he h2
    have hskip : ¬ exported F path →
        backupMounts V fuel F rest backup s = .done (b', s') →
        ∃ new, b'.SecretEngines = backup.SecretEngines ++ new
        ∧ List.Forall₂ engineOf (((path, mount) :: rest).filter fun m => decide (exported F m.1)) new
        ∧ b'.Policies = backup.Policies ∧ b'.AuthMethods = backup.AuthMethods
        ∧ b'.Timestamp = backup.Timestamp ∧ b'.VaultVersion = backup.VaultVersion := by
      intro hex hrun
      obtain ⟨new, h1, h2, h3⟩ := ih _ _ _ _ hrun
      refine ⟨new, h1, ?_, h3⟩
      simpa only [List.filter_cons, hex, decide_False, Bool.false_eq_true, if_false] using h2
    unfold backupMounts at h
    cases hsys : isSystemMount path with
    | true =>
      simp only [hsys, if_true] at h
      exact hskip (by rw [exported_iff]; simp [hsys]) h
    | false =>
    cases hf : filteredOut F path with
    | true =>
        simp only [hsys, hf, if_true, Bool.false_eq_true, if_false] at h
        exact hskip (by rw [exported_iff]; simp [hf]) h
    | false =>
        have hex : exported F path := by
          rw [exported_iff]; exact ⟨hsys, hf⟩
        simp only [hsys, hf, Bool.false_eq_true, if_false] at h
        split at h
        · split at h
          · obtain ⟨r, _, hr⟩ := Run.bind_eq_done h
            split at hr
            · exact hstep _ _ ⟨rfl, rfl, rfl, rfl⟩ hex hr
            · exact hstep _ _ ⟨rfl, rfl, rfl, rfl⟩ hex hr
          · obtain ⟨r, _, hr⟩ := Run.bind_eq_done h
            split at hr
            · exact hstep _ _ ⟨rfl, rfl, rfl, rfl⟩ hex hr
            · exact hstep _ _ ⟨rfl, rfl, rfl, rfl⟩ hex hr
        · exact hstep _ _ ⟨rfl, rfl, rfl, rfl⟩ hex h

theorem backupSecretEngines_spec {σ : Type} (V : API σ) (fuel : Nat) (backup : BackupData)
    (F : List String) (s : σ) (b' : BackupData) (s' : σ)
    (h : backupSecretEngines V fuel backup F s = .done (.ok b', s')) :
    ∃ mounts s1 new, V.listMounts s = (.ok mounts, s1)
      ∧ b'.SecretEngines = backup.SecretEngines ++ new
      ∧ List.Forall₂ engineOf (mounts.filter fun m => decide (exported F m.1)) new
      ∧ b'.Policies = backup.Policies ∧ b'.AuthMethods = backup.AuthMethods
      ∧ b'.Timestamp = backup.Timestamp ∧ b'.VaultVersion = backup.VaultVersion := by
  unfold backupSecretEngines at h
  split at h
  · simp at h
  · rename_i mounts s1 hl
    obtain ⟨r, hr, hd⟩ := Run.bind_eq_done h
    simp only [Run.done.injEq, Prod.mk.injEq, Except.ok.injEq] at hd
    obtain ⟨rfl, rfl⟩ := hd
    obtain ⟨new, hn⟩ := backupMounts_spec V fuel F mounts backup s1 r.1 r.2 hr
    exact ⟨mounts, s1, new, hl, hn⟩

theorem backupPolicyNames_spec {σ : Type} (V : API σ) :
    ∀ (names : List String) (backup : BackupData) (s : σ),
      (backupPolicyNames V names backup s).1.SecretEngines = backup.SecretEngines
      ∧ (backupPolicyNames V names backup s).1.AuthMethods = backup.AuthMethods := by
  intro names
  induction names with
  | nil => intro backup s; simp [backupPolicyNames]
  | cons n rest ih =>
    intro backup s
    unfold backupPolicyNames
    split
    · exact ih backup s
    · split
      · exact ih backup _
      · rw [(ih _ _).1, (ih _ _).2]; exact ⟨rfl, rfl⟩

theorem backupPolicies_spec {σ : Type} (V : API σ) (backup : BackupData) (s : σ)
    (b' : BackupData) (s' : σ) (h : backupPolicies V backup s = (.ok b', s')) :
    b'.SecretEngines = backup.SecretEngines ∧ b'.AuthMethods = backup.AuthMethods := by
  unfold backupPolicies at h
  split at h
  · simp at h
  · simp only [Prod.mk.injEq, Except.ok.injEq] at h
    obtain ⟨rfl, rfl⟩ := h
    exact backupPolicyNames_spec V _ _ _

theorem backupAuthMounts_spec {σ : Type} (V : API σ) :
    ∀ (auths : List (String × AuthMount)) (backup : BackupData) (s : σ) (b' : BackupData) (s' : σ),
      backupAuthMounts V auths backup s = .done (b', s') →
      ∃ new, b'.AuthMethods = backup.AuthMethods ++ new
        ∧ List.Forall₂ authOf (auths.filter fun m => decide (m.1 ≠ "token/")) new
        ∧ b'.SecretEngines = backup.SecretEngines ∧ b'.Policies = backup.Policies := by
  intro auths
  induction auths with
  | nil =>
    intro backup s b' s' h
    simp only [backupAuthMounts, Run.done.injEq, Prod.mk.injEq] at h
    obtain ⟨rfl, rfl⟩ := h
    exact ⟨[], by simp, by simp, rfl, rfl⟩
  | cons m rest ih =>
    obtain ⟨path, auth⟩ := m
    intro backup s b' s' h
    unfold backupAuthMounts at h
    by_cases htok : path = "token/"
    · simp only [htok, if_true] at h
      obtain ⟨new, h1, h2, h3⟩ := ih _ _ _ _ h
      refine ⟨new, h1, ?_, h3⟩
      simpa [List.filter_cons, htok] using h2
    · have hstep : ∀ (a : AuthMethodBackup) (s1 : σ), authOf (path, auth) a →
          backupAuthMounts V rest (backup.addAuth a) s1 = .done (b', s') →
          ∃ new, b'.AuthMethods = backup.AuthMethods ++ new
          ∧ List.Forall₂ authOf (((path, auth) :: rest).filter fun m => decide (m.1 ≠ "token/")) new
          ∧ b'.SecretEngines = backup.SecretEngines ∧ b'.Policies = backup.Policies := by
        intro a s1 ha hrun
        obtain ⟨new, h1, h2, h3, h4⟩ := ih _ _ _ _ hrun
        refine ⟨a :: new, ?_, ?_, h3, h4⟩
        · simp [h1, BackupData.addAuth]
        · simp only [List.filter_cons, ne_eq, htok, not_false_eq_true, decide_True, if_true]
          exact List.Forall₂.cons ha h2
      simp only [htok, if_false] at h
      split at h
      · obtain ⟨r, _, hr⟩ := Run.bind_eq_done h
        split at hr
        · exact hstep _ _ ⟨rfl, rfl, rfl, rfl⟩ hr
        · exact hstep _ _ ⟨rfl, rfl, rfl, rfl⟩ hr
      · split at h
        · obtain ⟨r, _, hr⟩ := Run.bind_eq_done h
          split at hr
          · exact hstep _ _ ⟨rfl, rfl, rfl, rfl⟩ hr
          · exact hstep _ _ ⟨rfl, rfl, rfl, rfl⟩ hr
        · split at h
          · obtain ⟨r, _, hr⟩ := Run.bind_eq_done h
            split at hr
            · exact hstep _ _ ⟨rfl, rfl, rfl, rfl⟩ hr
            · exact hstep _ _ ⟨rfl, rfl, rfl, rfl⟩ hr
          · exact hstep _ _ ⟨rfl, rfl, rfl, rfl⟩ h

theorem backupAuthMethods_spec {σ : Type} (V : API σ) (backup : BackupData)
    (s : σ) (b' : BackupData) (s' : σ)
    (h : backupAuthMethods V backup s = .done (.ok b', s')) :
    ∃ auths s1 new, V.listAuth s = (.ok auths, s1)
      ∧ b'.AuthMethods = backup.AuthMethods ++ new
      ∧ List.Forall₂ authOf (auths.filter fun m => decide (m.1 ≠ "token/")) new
      ∧ b'.SecretEngines = backup.SecretEngines ∧ b'.Policies = backup.Policies := by
  unfold backupAuthMethods at h
  split at h
  · simp at h
  · rename_i auths s1 hl
    obtain ⟨r, hr, hd⟩ := Run.bind_eq_done h
    simp only [Run.done.injEq, Prod.mk.injEq, Except.ok.injEq] at hd
    obtain ⟨rfl, rfl⟩ := hd
    obtain ⟨new, hn⟩ := backupAuthMounts_spec V auths backup s1 r.1 r.2 hr
    exact ⟨auths, s1, new, hl, hn⟩

/-- The three phases of a `Backup` that returned a snapshot. -/
theorem Backup_phases {σ : Type} (V : API σ) (fuel : Nat) (engines : List String) (s : σ)
    (b : BackupData) (s' : σ) (h : Backup V fuel engines s = .done (.ok b, s')) :
    ∃ b0 b1 b2 s0 s1 s2, b0.SecretEngines = [] ∧ b0.Policies = [] ∧ b0.AuthMethods = []
      ∧ backupSecretEngines V fuel b0 engines s0 = .done (.ok b1, s1)
      ∧ backupPolicies V b1 s1 = (.ok b2, s2)
      ∧ backupAuthMethods V b2 s2 = .done (.ok b, s') := by
  unfold Backup at h
  simp only at h
  obtain ⟨r1, hr1, h⟩ := Run.bind_eq_done h
  split at h
  · simp at h
  · rename_i b1 s1
    split at h
    · simp at h
    · rename_i b2 s2 hp
      obtain ⟨r3, hr3, h⟩ := Run.bind_eq_done h
      split at h
      · simp at h
      · rename_i b3 s3
        simp only [Run.done.injEq, Prod.mk.injEq, Except.ok.injEq] at h
        obtain ⟨rfl, rfl⟩ := h
        refine ⟨_, b1, b2, _, s1, s2, ?_, ?_, ?_, hr1, hp, hr3⟩
        · split <;> rfl
        · split <;> rfl
        · split <;> rfl

theorem Forall₂_engineOf_paths {ms : List (String × MountOutput)} {es : List SecretEngineBackup}
    (h : List.Forall₂ engineOf ms es) : es.map (fun e => e.Path) = Keys ms := by
  induction h with
  | nil => rfl
  | cons hx _ ih => simp only [List.map_cons, Keys] at ih ⊢; rw [ih, hx.1]

theorem Forall₂_authOf_paths {ms : List (String × AuthMount)} {es : List AuthMethodBackup}
    (h : List.Forall₂ authOf ms es) : es.map (fun e => e.Path) = Keys ms := by
  induction h with
  | nil => rfl
  | cons hx _ ih => simp only [List.map_cons, Keys] at ih ⊢; rw [ih, hx.1]


/-- C1 (amended): a snapshot returned by `Backup` has no engine under a reserved
prefix, and its auth methods are exactly the listed auth mounts other than
`token/`, one entry for each, in whatever order: the paths of the auth
methods are the listed paths other than `token/` up to a permutation. -/
theorem Backup_skips_reserved_mounts_and_token_auth {σ : Type} (V : API σ) (fuel : Nat)
    (engines : List String) (s : σ) (b : BackupData) (s' : σ)
    (h : Backup V fuel engines s = .done (.ok b, s')) :
    (∀ e ∈ b.SecretEngines, ¬ reservedPath e.Path)
    ∧ ∃ t auths t', V.listAuth t = (.ok auths, t')
        ∧ (b.AuthMethods.map fun a => a.Path).Perm
            ((Keys auths).filter fun p => decide (p ≠ "token/"))
        ∧ (∀ p, p ∈ b.AuthMethods.map (fun a => a.Path) ↔ p ∈ Keys auths ∧ p ≠ "token/") := by
  obtain ⟨b0, b1, b2, s0, s1, s2, he0, _, ha0, h1, h2, h3⟩ := Backup_phases V fuel engines s b s' h
  obtain ⟨mounts, _, new, _, hn, hf, _, ha1, _⟩ := backupSecretEngines_spec V fuel b0 engines s0 b1 s1 h1
  obtain ⟨he2, ha2⟩ := backupPolicies_spec V b1 s1 b2 s2 h2
  obtain ⟨auths, t', newA, hl, hna, hfa, he3, _⟩ := backupAuthMethods_spec V b2 s2 b s' h3
  constructor
  · intro e he
    rw [he3, he2, hn, he0, List.nil_append] at he
    have hp : e.Path ∈ new.map (fun e => e.Path) := List.mem_map_of_mem _ he
    rw [Forall₂_engineOf_paths hf] at hp
    simp only [Keys, List.mem_map, List.mem_filter, decide_eq_true_eq] at hp
    obtain ⟨m, ⟨_, hm⟩, hme⟩ := hp
    rw [← hme]
    exact hm.1
  · have heq : b.AuthMethods.map (fun a => a.Path)
        = (Keys auths).filter fun p => decide (p ≠ "token/") := by
      rw [hna, ha2, ha1, ha0, List.nil_append, Forall₂_authOf_paths hfa]
      simp only [Keys, List.filter_map]
      rfl
    refine ⟨s2, auths, t', hl, ?_, ?_⟩
    · rw [heq]
    · intro p
      rw [heq]
      simp only [List.mem_filter, decide_eq_true_eq]

/-- C1 as stated fails: an auth mount listed under `identity/` is exported. -/
theorem Backup_keeps_reserved_auth_path :
    Backup storeAPI 2 [] reservedAuthStore
        = .done (.ok reservedAuthSnapshot, { reservedAuthStore with clock := 2 })
      ∧ reservedAuthSnapshot.AuthMethods.map (fun a => a.Path) = ["identity/oidc/"]
      ∧ reservedPath "identity/oidc/" :=
  ⟨rfl, rfl, Or.inr (Or.inl rfl)⟩

/-- C1 (amended) on `reservedAuthStore`. -/
theorem Backup_skips_reserved_witness :
    Backup storeAPI 2 [] reservedAuthStore
        = .done (.ok reservedAuthSnapshot, { reservedAuthStore with clock := 2 })
      ∧ ((∀ e ∈ reservedAuthSnapshot.SecretEngines,
          ¬ reservedPath e.Path)
        ∧ ∃ t auths t', storeAPI.listAuth t = (.ok auths, t')
          ∧ (reservedAuthSnapshot.AuthMethods.map fun a => a.Path).Perm
              ((Keys auths).filter fun p => decide (p ≠ "token/"))
          ∧ (∀ p, p ∈ reservedAuthSnapshot.AuthMethods.map (fun a => a.Path)
              ↔ p ∈ Keys auths ∧ p ≠ "token/")) :=
  ⟨rfl, Backup_skips_reserved_mounts_and_token_auth storeAPI 2 [] reservedAuthStore _ _ rfl⟩

theorem filter_exported_single (mounts : List (String × MountOutput)) (p : String) (m : MountOutput)
    (hmem : (p, m) ∈ mounts) (hnd : (Keys mounts).Nodup)
    (hsys : ¬ reservedPath p)
    (hother : ∀ q ∈ Keys mounts, q ≠ p → TrimSuffix q "/" ≠ TrimSuffix p "/") :
    mounts.filter (fun x => decide (exported [TrimSuffix p "/"] x.1)) = [(p, m)] := by
  have hP : ∀ q, exported [TrimSuffix p "/"] q → q ∈ Keys mounts → q = p := by
    intro q hq hqm
    by_contra hne
    have := hq.2 (by simp)
    simp only [List.mem_singleton] at this
    exact hother q hqm hne this
  have hp : exported [TrimSuffix p "/"] p := ⟨hsys, fun _ => by simp⟩
  clear hother
  induction mounts with
  | nil => simp at hmem
  | cons x rest ih =>
    simp only [Keys, List.map_cons, List.nodup_cons] at hnd
    have hrestnil : ∀ (l : List (String × MountOutput)), (∀ y ∈ l, y.1 ≠ p) → (∀ y ∈ l, y.1 ∈ Keys (x :: rest)) →
        l.filter (fun x => decide (exported [TrimSuffix p "/"] x.1)) = [] := by
      intro l hl hk
      rw [List.filter_eq_nil_iff]
      intro y hy
      simp only [decide_eq_true_eq]
      intro hex
      exact hl y hy (hP y.1 hex (hk y hy))
    rcases List.mem_cons.mp hmem with hx | hx
    · subst hx
      rw [List.filter_cons, if_pos (by simpa using hp)]
      rw [hrestnil rest]
      · intro y hy heq
        exact hnd.1 (List.mem_map.mpr ⟨y, hy, heq⟩)
      · intro y hy
        simp only [Keys, List.map_cons, List.mem_cons]
        exact Or.inr (List.mem_map_of_mem _ hy)
    · have hxp : x.1 ≠ p := by
        intro heq
        exact hnd.1 (List.mem_map.mpr ⟨(p, m), hx, heq.symm⟩)
      have hnx : ¬ exported [TrimSuffix p "/"] x.1 := by
        intro hex
        exact hxp (hP x.1 hex (by simp [Keys]))
      rw [List.filter_cons, if_neg (by simpa using hnx)]
      apply ih hx hnd.2
      intro q hq hqm
      exact hP q hq (by simp only [Keys, List.map_cons, List.mem_cons]; exact Or.inr hqm)

/-- C2: the engines `backupSecretEngines` appends are, one for one and in the
order of the listing, the listed mounts that are not reserved and, when the
allow-list is not empty, are named by it without their trailing `/`; with an
empty allow-list these are all mounts that are not reserved; and when the
allow-list names one mount of the listing and no other mount has that name,
exactly the engine of that mount is appended. -/
theorem backupSecretEngines_exports_the_allowed_mounts {σ : Type} (V : API σ) (fuel : Nat)
    (backup : BackupData) (F : List String) (s : σ) (b' : BackupData) (s' : σ)
    (h : backupSecretEngines V fuel backup F s = .done (.ok b', s')) :
    ∃ mounts s1 new, V.listMounts s = (.ok mounts, s1)
      ∧ b'.SecretEngines = backup.SecretEngines ++ new
      ∧ List.Forall₂ engineOf (mounts.filter fun m => decide (exported F m.1)) new
      ∧ (F = [] → List.Forall₂ engineOf
          (mounts.filter fun m => decide (¬ reservedPath m.1)) new)
      ∧ (∀ p m, (p, m) ∈ mounts → (Keys mounts).Nodup
          → ¬ reservedPath p
          → (∀ q ∈ Keys mounts, q ≠ p → TrimSuffix q "/" ≠ TrimSuffix p "/")
          → F = [TrimSuffix p "/"] → ∃ e, new = [e] ∧ engineOf (p, m) e) := by
  obtain ⟨mounts, s1, new, hl, hn, hf, _⟩ := backupSecretEngines_spec V fuel backup F s b' s' h
  refine ⟨mounts, s1, new, hl, hn, hf, ?_, ?_⟩
  · intro hF
    subst hF
    have : (fun m : String × MountOutput => decide (exported [] m.1))
        = fun m => decide (¬ reservedPath m.1) := by
      funext m
      simp [exported]
    rw [← this]
    exact hf
  · intro p m hmem hnd hsys hother hF
    subst hF
    rw [filter_exported_single mounts p m hmem hnd hsys hother] at hf
    cases hf with
    | cons he hrest =>
      cases hrest
      exact ⟨_, rfl, he⟩

/-- C2 on `threeMountStore`: of three mounts, the allow-list `["secret"]`
exports `secret/` alone. -/
theorem backupSecretEngines_exports_witness :
    backupSecretEngines storeAPI 2 emptyBackup ["secret"] threeMountStore
        = .done (.ok threeMountSnapshot, { threeMountStore with clock := 1 })
      ∧ threeMountSnapshot.SecretEngines.map (fun e => e.Path) = ["secret/"]
      ∧ ∃ mounts s1 new, storeAPI.listMounts threeMountStore = (.ok mounts, s1)
        ∧ threeMountSnapshot.SecretEngines = emptyBackup.SecretEngines ++ new
        ∧ List.Forall₂ engineOf (mounts.filter fun m => decide (exported ["secret"] m.1)) new
        ∧ (["secret"] = [] → List.Forall₂ engineOf
            (mounts.filter fun m => decide (¬ reservedPath m.1)) new)
        ∧ (∀ p m, (p, m) ∈ mounts → (Keys mounts).Nodup → ¬ reservedPath p
            → (∀ q ∈ Keys mounts, q ≠ p → TrimSuffix q "/" ≠ TrimSuffix p "/")
            → ["secret"] = [TrimSuffix p "/"] → ∃ e, new = [e] ∧ engineOf (p, m) e) :=
  ⟨rfl, rfl, backupSecretEngines_exports_the_allowed_mounts storeAPI 2 emptyBackup ["secret"]
    threeMountStore threeMountSnapshot _ rfl⟩

theorem restoreVersions_filter {σ : Type} (W : API σ) (mountPath secretPath : String) :
    ∀ (versions : List SecretVersion) (s : σ),
      restoreVersions W mountPath secretPath (versions.filter fun v => !v.Destroyed) s
        = restoreVersions W mountPath secretPath versions s := by
  intro versions
  induction versions with
  | nil => intro s; rfl
  | cons v rest ih =>
    intro s
    cases hd : v.Destroyed with
    | true => simp [List.filter_cons, hd, restoreVersions, ih]
    | false => simp [List.filter_cons, hd, restoreVersions, ih]

theorem restoreKVv2Secrets_live {σ : Type} (W : API σ) (mountPath : String) :
    ∀ (secrets : List SecretBackup) (s : σ),
      restoreKVv2Secrets W mountPath (secrets.map SecretBackup.live) s
        = restoreKVv2Secrets W mountPath secrets s := by
  intro secrets
  induction secrets with
  | nil => intro s; rfl
  | cons secret rest ih =>
    intro s
    simp only [List.map_cons, restoreKVv2Secrets, SecretBackup.live, restoreVersions_filter, ih]

theorem restoreEngineSecrets_dropDestroyed {σ : Type} (W : API σ) (engine : SecretEngineBackup)
    (s : σ) : restoreEngineSecrets W engine.dropDestroyed s = restoreEngineSecrets W engine s := by
  unfold SecretEngineBackup.dropDestroyed
  split
  · rename_i h
    simp only [restoreEngineSecrets, h.1, h.2, if_true, restoreKVv2Secrets_live]
  · rfl

theorem dropDestroyed_fields (engine : SecretEngineBackup) :
    engine.dropDestroyed.Path = engine.Path ∧ engine.dropDestroyed.Typ = engine.Typ
      ∧ engine.dropDestroyed.Description = engine.Description
      ∧ engine.dropDestroyed.Options = engine.Options := by
  unfold SecretEngineBackup.dropDestroyed
  split <;> exact ⟨rfl, rfl, rfl, rfl⟩

theorem restoreSecretEngines_dropDestroyed {σ : Type} (W : API σ) (F : List String) :
    ∀ (engines : List SecretEngineBackup) (s : σ),
      restoreSecretEngines W F (engines.map SecretEngineBackup.dropDestroyed) s
        = restoreSecretEngines W F engines s := by
  intro engines
  induction engines with
  | nil => intro s; rfl
  | cons engine rest ih =>
    intro s
    obtain ⟨hp, ht, hd, ho⟩ := dropDestroyed_fields engine
    simp only [List.map_cons, restoreSecretEngines, mountInputOf, hp, ht, hd, ho, ih,
      restoreEngineSecrets_dropDestroyed]

theorem Restore_dropDestroyed {σ : Type} (W : API σ) (backup : BackupData) (opts : RestoreOptions)
    (s : σ) : Restore W backup.dropDestroyed opts s = Restore W backup opts s := by
  simp only [Restore, BackupData.dropDestroyed, restoreSecretEngines_dropDestroyed]

theorem callsOf_append (l₁ l₂ : List Event) : callsOf (l₁ ++ l₂) = callsOf l₁ ++ callsOf l₂ := by
  simp [callsOf]

theorem traced_listMounts {σ : Type} (V : API σ) (w : σ × List Event) :
    (traced V).listMounts w
      = ((V.listMounts w.1).1, (V.listMounts w.1).2,
          w.2 ++ [⟨Call.listMounts, failedE (V.listMounts w.1).1⟩]) := rfl

theorem traced_mount {σ : Type} (V : API σ) (p : String) (i : MountInput) (w : σ × List Event) :
    (traced V).mount p i w
      = ((V.mount p i w.1).1, (V.mount p i w.1).2,
          w.2 ++ [⟨Call.mount p i, (V.mount p i w.1).1.isSome⟩]) := rfl

theorem traced_listAuth {σ : Type} (V : API σ) (w : σ × List Event) :
    (traced V).listAuth w
      = ((V.listAuth w.1).1, (V.listAuth w.1).2,
          w.2 ++ [⟨Call.listAuth, failedE (V.listAuth w.1).1⟩]) := rfl

theorem traced_enableAuth {σ : Type} (V : API σ) (p : String) (i : EnableAuthOptions)
    (w : σ × List Event) :
    (traced V).enableAuth p i w
      = ((V.enableAuth p i w.1).1, (V.enableAuth p i w.1).2,
          w.2 ++ [⟨Call.enableAuth p i, (V.enableAuth p i w.1).1.isSome⟩]) := rfl

theorem traced_putPolicy {σ : Type} (V : API σ) (n t : String) (w : σ × List Event) :
    (traced V).putPolicy n t w
      = ((V.putPolicy n t w.1).1, (V.putPolicy n t w.1).2,
          w.2 ++ [⟨Call.putPolicy n t, (V.putPolicy n t w.1).1.isSome⟩]) := rfl

theorem traced_write {σ : Type} (V : API σ) (p : String) (d : Data) (w : σ × List Event) :
    (traced V).write p d w
      = ((V.write p d w.1).1, (V.write p d w.1).2,
          w.2 ++ [⟨Call.write p d, failedE (V.write p d w.1).1⟩]) := rfl

theorem traced_sprint {σ : Type} (V : API σ) : (traced V).sprint = V.sprint := rfl

theorem restoreVersions_calls {σ : Type} (V : API σ) (mountPath secretPath : String) :
    ∀ (versions : List SecretVersion) (s : σ) (log : List Event),
      callsOf (restoreVersions (traced V) mountPath secretPath versions (s, log)).2
        = callsOf log ++ versionWrites mountPath secretPath versions := by
  intro versions
  induction versions with
  | nil => intro s log; simp [restoreVersions, versionWrites]
  | cons v rest ih =>
    intro s log
    cases hd : v.Destroyed with
    | true =>
      simp only [restoreVersions, hd, if_true, ih]
      simp [versionWrites, List.filter_cons, hd]
    | false =>
      simp only [restoreVersions, hd, Bool.false_eq_true, if_false, traced_write, ih]
      simp [versionWrites, List.filter_cons, hd, callsOf]

theorem restoreKVv1Secrets_calls {σ : Type} (V : API σ) (mountPath : String) :
    ∀ (secrets : List SecretBackup) (s : σ) (log : List Event),
      callsOf (restoreKVv1Secrets (traced V) mountPath secrets (s, log)).2.2
        = callsOf log ++ lastVersionWrites mountPath secrets := by
  intro secrets
  induction secrets with
  | nil => intro s log; simp [restoreKVv1Secrets, lastVersionWrites]
  | cons secret rest ih =>
    intro s log
    unfold restoreKVv1Secrets
    cases hl : secret.Versions.getLast? with
    | none =>
      simp only [ih]
      simp [lastVersionWrites, List.filterMap_cons, hl]
    | some v =>
      simp only [traced_write, ih]
      simp [lastVersionWrites, List.filterMap_cons, hl, callsOf]

/-- C3 (amended): `Restore` makes the same calls, with the same answers, on a
snapshot and on that snapshot without the destroyed versions of its v2-style
engines, so a destroyed version of such an engine causes no call at all; the
data writes for a secret of a v2-style engine are one per version that is
not destroyed; and for a v1-style engine the write is the payload of the
last version, whatever its flag. -/
theorem Restore_skips_destroyed_v2_versions {σ : Type} (V : API σ) (backup : BackupData)
    (opts : RestoreOptions) (mountPath secretPath : String) (versions : List SecretVersion)
    (secrets : List SecretBackup) (s : σ) (log : List Event) :
    Restore (traced V) backup opts (s, log) = Restore (traced V) backup.dropDestroyed opts (s, log)
      ∧ callsOf (restoreVersions (traced V) mountPath secretPath versions (s, log)).2
          = callsOf log ++ (versions.filter fun v => !v.Destroyed).map (fun v =>
              Call.write (mountPath ++ "data/" ++ secretPath) [("data", Value.obj v.Data)])
      ∧ callsOf (restoreKVv1Secrets (traced V) mountPath secrets (s, log)).2.2
          = callsOf log ++ lastVersionWrites mountPath secrets :=
  ⟨(Restore_dropDestroyed (traced V) backup opts (s, log)).symm,
    restoreVersions_calls V mountPath secretPath versions s log,
    restoreKVv1Secrets_calls V mountPath secrets s log⟩

/-- C3 as stated fails for a v1-style engine: the payload of a version marked
destroyed is written. -/
theorem Restore_writes_destroyed_v1_version :
    (destroyedV1Snapshot.SecretEngines.map fun e =>
        e.Secrets.map fun x => x.Versions.map fun v => v.Destroyed) = [[[true]]]
      ∧ callsOf (Restore (traced storeAPI) destroyedV1Snapshot defaultOptions (Store.empty, [])).2.2
        = [Call.listMounts, Call.mount "legacy" ⟨"kv", "", []⟩,
            Call.write "legacy/app" [("token", Value.str "t0p")]] :=
  ⟨rfl, rfl⟩

theorem mapGet_mapSet_same {α : Type} (m : List (String × α)) (k : String) (v : α) :
    mapGet (mapSet m k v) k = some v := by
  induction m with
  | nil => simp [mapSet, mapGet]
  | cons e rest ih =>
    obtain ⟨k', v'⟩ := e
    by_cases h : k' = k
    · simp [mapSet, mapGet, h]
    · simp [mapSet, mapGet, h, ih]

theorem mapGet_mapSet_other {α : Type} (m : List (String × α)) (k k' : String) (v : α)
    (h : k' ≠ k) : mapGet (mapSet m k v) k' = mapGet m k' := by
  induction m with
  | nil => simp [mapSet, mapGet, Ne.symm h]
  | cons e rest ih =>
    obtain ⟨k1, v1⟩ := e
    by_cases h1 : k1 = k
    · have h2 : ¬ k1 = k' := fun h2 => h (h2.symm.trans h1)
      have h3 : ¬ k = k' := fun h3 => h h3.symm
      simp [mapSet, mapGet, h1, h2, h3]
    · by_cases h2 : k1 = k'
      · subst h2
        simp [mapSet, mapGet, h1]
      · simp [mapSet, mapGet, h1, h2, ih]

theorem mapSet_of_not_mem {α : Type} (m : List (String × α)) (k : String) (v : α)
    (h : k ∉ Keys m) : mapSet m k v = m ++ [(k, v)] := by
  induction m with
  | nil => rfl
  | cons e rest ih =>
    obtain ⟨k1, v1⟩ := e
    simp only [Keys, List.map_cons, List.mem_cons, not_or] at h
    have h1 : ¬ k1 = k := fun h1 => h.1 h1.symm
    simp only [mapSet, h1, if_false, List.cons_append, List.cons.injEq, true_and]
    exact ih h.2

/-- Copying a map with distinct keys entry by entry into a map that has none
of its keys appends it. -/
theorem foldl_mapSet_append {α β : Type} (f : β → α) :
    ∀ (m : List (String × β)) (init : List (String × α)), (Keys m).Nodup →
      (∀ k ∈ Keys m, k ∉ Keys init) →
      m.foldl (fun acc kv => mapSet acc kv.1 (f kv.2)) init
        = init ++ m.map fun kv => (kv.1, f kv.2) := by
  intro m
  induction m with
  | nil => intro init _ _; simp
  | cons e rest ih =>
    intro init hnd hdisj
    obtain ⟨k1, v1⟩ := e
    simp only [Keys, List.map_cons, List.nodup_cons] at hnd
    have hk1 : k1 ∉ Keys init := hdisj k1 (by simp [Keys])
    simp only [List.foldl_cons, mapSet_of_not_mem init k1 (f v1) hk1]
    rw [ih _ hnd.2]
    · simp
    · intro k hk
      simp only [Keys, List.map_append, List.map_cons, List.map_nil, List.mem_append,
        List.mem_singleton, not_or]
      constructor
      · exact hdisj k (by simp only [Keys, List.map_cons, List.mem_cons]; exact Or.inr hk)
      · intro heq
        exact hnd.1 (heq ▸ hk)

theorem userData_eq (data : Data) (pw : String) (h : (Keys data).Nodup) :
    userData data pw = mapSet data "password" (Value.str pw) := by
  unfold userData
  have := foldl_mapSet_append (fun v : Value => v) data [] h (by simp [Keys])
  simp only [List.nil_append, Prod.mk.eta, List.map_id'] at this
  rw [this]

theorem restoreUserpassUsers_calls {σ : Type} (V : API σ) (authPath pw : String) :
    ∀ (users : List UserBackup) (s : σ) (log : List Event),
      callsOf (restoreUserpassUsers (traced V) authPath pw users (s, log)).2.2
        = callsOf log ++ users.map fun u =>
            Call.write ("auth/" ++ TrimSuffix authPath "/" ++ "/users/" ++ u.Name)
              (userData u.Data pw) := by
  intro users
  induction users with
  | nil => intro s log; simp [restoreUserpassUsers]
  | cons u rest ih =>
    intro s log
    have hp : "auth/" ++ TrimSuffix authPath "/" ++ "/users" ++ "/" ++ u.Name
        = "auth/" ++ TrimSuffix authPath "/" ++ "/users/" ++ u.Name := by
      rw [String.append_assoc ("auth/" ++ TrimSuffix authPath "/") "/users" "/"]
      rfl
    simp only [restoreUserpassUsers, traced_write, ih, hp]
    simp [callsOf]

/-- C4: `restoreUserpassUsers` makes exactly one write per user, in order, to
`auth/` + the auth path without its trailing `/` + `/users/` + the user
name; the body holds the default password under `password` and, under every
other key, what the user's data holds (nothing where it holds nothing).  The
body is built from the user's data, which is an argument and is not changed. -/
theorem restoreUserpassUsers_writes_data_with_default_password {σ : Type} (V : API σ)
    (authPath defaultPassword : String) (users : List UserBackup) (s : σ) (log : List Event)
    (hkeys : ∀ u ∈ users, (Keys u.Data).Nodup) :
    callsOf (restoreUserpassUsers (traced V) authPath defaultPassword users (s, log)).2.2
        = callsOf log ++ users.map (fun u =>
            Call.write ("auth/" ++ TrimSuffix authPath "/" ++ "/users/" ++ u.Name)
              (userData u.Data defaultPassword))
      ∧ ∀ u ∈ users,
          mapGet (userData u.Data defaultPassword) "password" = some (Value.str defaultPassword)
          ∧ ∀ k, k ≠ "password" → mapGet (userData u.Data defaultPassword) k = mapGet u.Data k := by
  refine ⟨restoreUserpassUsers_calls V authPath defaultPassword users s log, ?_⟩
  intro u hu
  rw [userData_eq u.Data defaultPassword (hkeys u hu)]
  exact ⟨mapGet_mapSet_same _ _ _, fun k hk => mapGet_mapSet_other _ _ _ _ hk⟩

/-- C4 on two users, the first with a stored password field that is overwritten. -/
theorem restoreUserpassUsers_witness :
    (∀ u ∈ twoUsers, (Keys u.Data).Nodup)
      ∧ callsOf (restoreUserpassUsers (traced storeAPI) "userpass/" "ChangeMe123!" twoUsers
          (Store.empty, [])).2.2
        = [Call.write "auth/userpass/users/alice"
            [("password", Value.str "ChangeMe123!"), ("token_policies", Value.str "admin")],
          Call.write "auth/userpass/users/bob"
            [("token_policies", Value.str "dev"), ("password", Value.str "ChangeMe123!")]]
      ∧ (callsOf (restoreUserpassUsers (traced storeAPI) "userpass/" "ChangeMe123!" twoUsers
            (Store.empty, [])).2.2
          = callsOf [] ++ twoUsers.map (fun u =>
              Call.write ("auth/" ++ TrimSuffix "userpass/" "/" ++ "/users/" ++ u.Name)
                (userData u.Data "ChangeMe123!"))
        ∧ ∀ u ∈ twoUsers,
            mapGet (userData u.Data "ChangeMe123!") "password" = some (Value.str "ChangeMe123!")
            ∧ ∀ k, k ≠ "password" → mapGet (userData u.Data "ChangeMe123!") k = mapGet u.Data k) :=
  ⟨by decide, rfl,
    restoreUserpassUsers_writes_data_with_default_password storeAPI "userpass/" "ChangeMe123!"
      twoUsers Store.empty [] (by decide)⟩

theorem mkVersion_Version (parseTime : String → Time) (v : Int) (d respData : Data) :
    (mkVersion parseTime v d respData).Version = v := by
  unfold mkVersion
  split
  · simp only
    split <;> split <;> split <;> rfl
  · rfl

/-- At the largest `int` the version loop does not return: the counter
wraps before it can exceed the count. -/
theorem versionLoop_at_maxInt {σ : Type} (V : API σ) (mountPath path : String) (s : σ) :
    versionLoop V mountPath path maxInt s = .outOfFuel := by
  unfold versionLoop
  simp

/-- A version loop that ends is `readVersions` for a count below the largest
`int`. -/
theorem versionLoop_done {σ : Type} (V : API σ) (mountPath path : String) (versions : Int)
    (s : σ) (r : List SecretVersion × σ) (h : versionLoop V mountPath path versions s = .done r) :
    versions < maxInt ∧ readVersions V mountPath path versions.toNat 1 [] s = .done r := by
  unfold versionLoop at h
  split at h
  · simp at h
  · rename_i hlt
    exact ⟨by omega, h⟩

/-- The versions the loop appends: at most `n`, ascending, numbered from `v`
to below `v + n`. -/
theorem readVersions_spec {σ : Type} (V : API σ) (mountPath path : String) :
    ∀ (n : Nat) (v : Int) (acc : List SecretVersion) (s : σ) (vs : List SecretVersion) (s' : σ),
      readVersions V mountPath path n v acc s = .done (vs, s') →
      ∃ new, vs = acc ++ new ∧ new.length ≤ n
        ∧ (new.map fun x => x.Version).Pairwise (· < ·)
        ∧ ∀ x ∈ new, v ≤ x.Version ∧ x.Version < v + n := by
  intro n
  induction n with
  | zero =>
    intro v acc s vs s' h
    simp only [readVersions, Run.done.injEq, Prod.mk.injEq] at h
    exact ⟨[], by simp [h.1], by simp, by simp, by simp⟩
  | succ n ih =>
    intro v acc s vs s' h
    have hskip : ∀ s1, readVersions V mountPath path n (v + 1) acc s1 = .done (vs, s') →
        ∃ new, vs = acc ++ new ∧ new.length ≤ n + 1
          ∧ (new.map fun x => x.Version).Pairwise (· < ·)
          ∧ ∀ x ∈ new, v ≤ x.Version ∧ x.Version < v + (n + 1 : Nat) := by
      intro s1 h1
      obtain ⟨new, e, hl, hp, hr⟩ := ih _ _ _ _ _ h1
      refine ⟨new, e, by omega, hp, ?_⟩
      intro x hx
      have := hr x hx
      push_cast
      omega
    unfold readVersions at h
    split at h
    · exact hskip _ h
    · exact hskip _ h
    · split at h
      · exact hskip _ h
      · split at h
        · exact hskip _ h
        · rename_i d _
          obtain ⟨new, e, hl, hp, hr⟩ := ih _ _ _ _ _ h
          refine ⟨_ :: new, by rw [e, List.append_assoc]; rfl, by simp [hl], ?_, ?_⟩
          · simp only [List.map_cons, List.pairwise_cons, mkVersion_Version]
            refine ⟨?_, hp⟩
            intro a ha
            obtain ⟨x, hx, rfl⟩ := List.mem_map.mp ha
            have := hr x hx
            omega
          · intro x hx
            rcases List.mem_cons.mp hx with rfl | hx
            · rw [mkVersion_Version]
              push_cast
              omega
            · have := hr x hx
              push_cast
              omega
        · simp at h

theorem backupKVv2Paths_spec {σ : Type} (V : API σ) (mountPath : String) :
    ∀ (paths : List String) (acc : List SecretBackup) (s : σ) (secrets : List SecretBackup)
      (s' : σ), backupKVv2Paths V mountPath paths acc s = .done (secrets, s') →
      ∃ new, secrets = acc ++ new ∧ ∀ x ∈ new, versionsWithinCount x ∧ x.Versions ≠ [] := by
  intro paths
  induction paths with
  | nil =>
    intro acc s secrets s' h
    simp only [backupKVv2Paths, Run.done.injEq, Prod.mk.injEq] at h
    exact ⟨[], by simp [h.1], by simp⟩
  | cons path rest ih =>
    intro acc s secrets s' h
    unfold backupKVv2Paths at h
    split at h
    · exact ih _ _ _ _ h
    · exact ih _ _ _ _ h
    · rename_i metadataResp s1 _
      simp only at h
      generalize metadataOf V.parseTime metadataResp = metadata at h
      split at h
      · exact ih _ _ _ _ h
      · obtain ⟨r, hr, h⟩ := Run.bind_eq_done h
        obtain ⟨vs, s2⟩ := r
        obtain ⟨new, e, hl, hp, hrange⟩ := readVersions_spec V mountPath path _ _ _ _ _ _
          (versionLoop_done V mountPath path _ _ _ hr).2
        simp only [List.nil_append] at e
        subst e
        simp only at h
        split at h
        · rename_i hpos
          obtain ⟨new', e', hall⟩ := ih _ _ _ _ h
          refine ⟨_ :: new', by rw [e', List.append_assoc]; rfl, ?_⟩
          intro x hx
          rcases List.mem_cons.mp hx with rfl | hx
          · have hcv : ((metadata.CurrentVersion.toNat : Nat) : Int) = metadata.CurrentVersion :=
              Int.toNat_of_nonneg (by omega)
            refine ⟨⟨?_, hp, ?_⟩, ?_⟩
            · simp only
              omega
            · intro v hv
              have := hrange v hv
              simp only
              omega
            · simp only
              intro hnil
              simp [hnil] at hpos
          · exact hall x hx
        · exact ih _ _ _ _ h

theorem mkVersion_Data (parseTime : String → Time) (v : Int) (d respData : Data) :
    (mkVersion parseTime v d respData).Data = d := by
  unfold mkVersion
  split
  · simp only
    split <;> split <;> split <;> rfl
  · rfl

/-- Every version the loop appends comes from a read of that version that
succeeded with data: a response whose `data` is the payload. -/
theorem readVersions_reads {σ : Type} (V : API σ) (mountPath path : String) :
    ∀ (n : Nat) (v : Int) (acc : List SecretVersion) (s : σ) (vs : List SecretVersion) (s' : σ),
      readVersions V mountPath path n v acc s = .done (vs, s') →
      ∃ new, vs = acc ++ new
        ∧ ∀ x ∈ new, ∃ t resp t' d,
            V.readWithData (mountPath ++ "data/" ++ path) [("version", [toString x.Version])] t
                = (.ok (some resp), t')
              ∧ resp.Data = some d ∧ index d "data" = Value.obj x.Data := by
  intro n
  induction n with
  | zero =>
    intro v acc s vs s' h
    simp only [readVersions, Run.done.injEq, Prod.mk.injEq] at h
    exact ⟨[], by simp [h.1], by simp⟩
  | succ n ih =>
    intro v acc s vs s' h
    unfold readVersions at h
    split at h
    · exact ih _ _ _ _ _ h
    · exact ih _ _ _ _ _ h
    · rename_i versionResp s1 heq
      split at h
      · exact ih _ _ _ _ _ h
      · rename_i respData hdata
        split at h
        · exact ih _ _ _ _ _ h
        · rename_i d hd
          obtain ⟨new, e, hall⟩ := ih _ _ _ _ _ h
          refine ⟨_ :: new, by rw [e, List.append_assoc]; rfl, ?_⟩
          intro x hx
          rcases List.mem_cons.mp hx with rfl | hx
          · refine ⟨s, versionResp, s1, respData, ?_, hdata, ?_⟩
            · rw [mkVersion_Version]; exact heq
            · rw [mkVersion_Data]; exact hd
          · exact hall x hx
        · simp at h

theorem backupKVv2Paths_reads {σ : Type} (V : API σ) (mountPath : String) :
    ∀ (paths : List String) (acc : List SecretBackup) (s : σ) (secrets : List SecretBackup)
      (s' : σ), backupKVv2Paths V mountPath paths acc s = .done (secrets, s') →
      ∃ new, secrets = acc ++ new
        ∧ ∀ x ∈ new, ∀ v ∈ x.Versions, ∃ t resp t' d,
            V.readWithData (mountPath ++ "data/" ++ x.Path) [("version", [toString v.Version])] t
                = (.ok (some resp), t')
              ∧ resp.Data = some d ∧ index d "data" = Value.obj v.Data := by
  intro paths
  induction paths with
  | nil =>
    intro acc s secrets s' h
    simp only [backupKVv2Paths, Run.done.injEq, Prod.mk.injEq] at h
    exact ⟨[], by simp [h.1], by simp⟩
  | cons path rest ih =>
    intro acc s secrets s' h
    unfold backupKVv2Paths at h
    split at h
    · exact ih _ _ _ _ h
    · exact ih _ _ _ _ h
    · rename_i metadataResp s1 _
      simp only at h
      generalize metadataOf V.parseTime metadataResp = metadata at h
      split at h
      · exact ih _ _ _ _ h
      · obtain ⟨r, hr, h⟩ := Run.bind_eq_done h
        obtain ⟨vs, s2⟩ := r
        obtain ⟨new, e, hall⟩ := readVersions_reads V mountPath path _ _ _ _ _ _
          (versionLoop_done V mountPath path _ _ _ hr).2
        simp only [List.nil_append] at e
        subst e
        simp only at h
        split at h
        · obtain ⟨new', e', hall'⟩ := ih _ _ _ _ h
          refine ⟨_ :: new', by rw [e', List.append_assoc]; rfl, ?_⟩
          intro x hx
          rcases List.mem_cons.mp hx with rfl | hx
          · exact hall
          · exact hall' x hx
        · exact ih _ _ _ _ h

/-- C5 (amended): every secret `backupKVv2Secrets` returns, whatever reads
fail, has at most `Metadata.CurrentVersion` versions, and their numbers are
strictly ascending and lie between 1 and `CurrentVersion`.  Every version of
the list comes from a read of that version that succeeded with data (a
response whose `data` field is the payload of the version), so the first
entry has number 1 only when the read of version 1 succeeded with data. -/
theorem backupKVv2Secrets_versions_within_count {σ : Type} (V : API σ) (fuel : Nat)
    (mountPath : String) (s : σ) (secrets : List SecretBackup) (s' : σ)
    (h : backupKVv2Secrets V fuel mountPath s = .done (.ok secrets, s')) :
    ∀ secret ∈ secrets,
      (secret.Versions.length : Int) ≤ secret.Metadata.CurrentVersion
        ∧ (secret.Versions.map fun v => v.Version).Pairwise (· < ·)
        ∧ (∀ v ∈ secret.Versions, 1 ≤ v.Version ∧ v.Version ≤ secret.Metadata.CurrentVersion)
        ∧ (∀ v ∈ secret.Versions, ∃ t resp t' d,
            V.readWithData (mountPath ++ "data/" ++ secret.Path)
                [("version", [toString v.Version])] t = (.ok (some resp), t')
              ∧ resp.Data = some d ∧ index d "data" = Value.obj v.Data)
        ∧ (∀ first rest, secret.Versions = first :: rest → first.Version = 1 →
            ∃ t resp t' d,
              V.readWithData (mountPath ++ "data/" ++ secret.Path) [("version", ["1"])] t
                  = (.ok (some resp), t')
                ∧ resp.Data = some d ∧ index d "data" = Value.obj first.Data) := by
  unfold backupKVv2Secrets at h
  obtain ⟨r, _, h⟩ := Run.bind_eq_done h
  split at h
  · simp at h
  · split at h
    · simp only [Run.done.injEq, Prod.mk.injEq, Except.ok.injEq] at h
      intro x hx
      simp [← h.1] at hx
    · obtain ⟨r2, hr2, h⟩ := Run.bind_eq_done h
      simp only [Run.done.injEq, Prod.mk.injEq, Except.ok.injEq] at h
      obtain ⟨new, e, hall⟩ := backupKVv2Paths_spec V mountPath _ _ _ _ _ hr2
      obtain ⟨new', e', hreads⟩ := backupKVv2Paths_reads V mountPath _ _ _ _ _ hr2
      intro x hx
      have hx' := hx
      rw [← h.1, e, List.nil_append] at hx
      rw [← h.1, e', List.nil_append] at hx'
      obtain ⟨h1, h2, h3⟩ := (hall x hx).1
      refine ⟨h1, h2, h3, hreads x hx', ?_⟩
      intro first rest hv hone
      have hmem : first ∈ x.Versions := by rw [hv]; exact List.mem_cons_self _ _
      obtain ⟨t, resp, t', d, hread, hd, hdata⟩ := hreads x hx' first hmem
      rw [hone] at hread
      exact ⟨t, resp, t', d, hread, hd, hdata⟩

/-- C5 as stated fails: when the read of version 1 fails, the first entry of
the version list has number 2. -/
theorem backupKVv2Secrets_first_version_not_one :
    backupKVv2Secrets storeAPI 2 "secret/" gapStore = .done (.ok [gapSecret], gapStore)
      ∧ gapSecret.Versions.map (fun v => v.Version) = [2] :=
  ⟨rfl, rfl⟩

/-- C5 (amended) on `gapStore`. -/
theorem backupKVv2Secrets_versions_witness :
    backupKVv2Secrets storeAPI 2 "secret/" gapStore = .done (.ok [gapSecret], gapStore)
      ∧ ∀ secret ∈ [gapSecret],
        (secret.Versions.length : Int) ≤ secret.Metadata.CurrentVersion
          ∧ (secret.Versions.map fun v => v.Version).Pairwise (· < ·)
          ∧ (∀ v ∈ secret.Versions,
              1 ≤ v.Version ∧ v.Version ≤ secret.Metadata.CurrentVersion)
          ∧ (∀ v ∈ secret.Versions, ∃ t resp t' d,
              storeAPI.readWithData ("secret/" ++ "data/" ++ secret.Path)
                  [("version", [toString v.Version])] t = (.ok (some resp), t')
                ∧ resp.Data = some d ∧ index d "data" = Value.obj v.Data)
          ∧ (∀ first rest, secret.Versions = first :: rest → first.Version = 1 →
              ∃ t resp t' d,
                storeAPI.readWithData ("secret/" ++ "data/" ++ secret.Path)
                    [("version", ["1"])] t = (.ok (some resp), t')
                  ∧ resp.Data = some d ∧ index d "data" = Value.obj first.Data) :=
  ⟨rfl, backupKVv2Secrets_versions_within_count storeAPI 2 "secret/" gapStore [gapSecret]
    gapStore rfl⟩

/-! ### Strings -/

theorem HasPrefix_iff (s p : String) : HasPrefix s p = true ↔ p.data <+: s.data := by
  unfold HasPrefix
  exact List.isPrefixOf_iff_prefix

theorem HasPrefix_append_self (p t : String) : HasPrefix (p ++ t) p = true := by
  rw [HasPrefix_iff, String.data_append]
  exact List.prefix_append _ _

theorem HasPrefix_append_of (s p t : String) (h : HasPrefix s p = true) :
    HasPrefix (s ++ t) p = true := by
  rw [HasPrefix_iff] at h ⊢
  rw [String.data_append]
  exact h.trans (List.prefix_append _ _)

theorem HasSuffix_iff (s suf : String) : HasSuffix s suf = true ↔ suf.data <:+ s.data := by
  unfold HasSuffix
  exact List.isSuffixOf_iff_suffix

theorem TrimSuffix_append (s suf : String) (h : HasSuffix s suf = true) :
    TrimSuffix s suf ++ suf = s := by
  unfold TrimSuffix
  rw [if_pos h]
  obtain ⟨t, ht⟩ := (HasSuffix_iff s suf).mp h
  apply String.ext
  rw [String.data_append, ← ht]
  simp

/-! ### Invariants of a restore

A property of the server state that every call of a procedure keeps is kept
by the procedure. -/

theorem any_key_eq_false {α : Type} (l : List (String × α)) (p : String) :
    (l.any fun m => decide (m.1 = p)) = false ↔ p ∉ Keys l := by
  simp only [Keys, List.any_eq_false, decide_eq_true_eq, List.mem_map, not_exists, not_and]

theorem restoreVersions_inv {τ : Type} (W : API τ) (I : τ → Prop) (mountPath secretPath : String)
    (hw : ∀ d w, I w → I (W.write (mountPath ++ "data/" ++ secretPath) d w).2) :
    ∀ (versions : List SecretVersion) (w : τ), I w →
      I (restoreVersions W mountPath secretPath versions w) := by
  intro versions
  induction versions with
  | nil => intro w h; exact h
  | cons v rest ih =>
    intro w h
    unfold restoreVersions
    split
    · exact ih w h
    · exact ih _ (hw _ w h)

theorem restoreKVv2Secrets_inv {τ : Type} (W : API τ) (I : τ → Prop) (mountPath : String)
    (hw : ∀ path d w, HasPrefix path mountPath = true → I w → I (W.write path d w).2) :
    ∀ (secrets : List SecretBackup) (w : τ), I w →
      I (restoreKVv2Secrets W mountPath secrets w).2 := by
  intro secrets
  induction secrets with
  | nil => intro w h; exact h
  | cons secret rest ih =>
    intro w h
    have h1 : I (restoreVersions W mountPath secret.Path secret.Versions w) :=
      restoreVersions_inv W I mountPath secret.Path
        (fun d w hI => hw _ d w
          (HasPrefix_append_of _ _ _ (HasPrefix_append_self mountPath "data/")) hI) _ w h
    unfold restoreKVv2Secrets
    simp only
    split
    · split
      · exact ih _ (hw _ _ _
          (HasPrefix_append_of _ _ _ (HasPrefix_append_self mountPath "metadata/")) h1)
      · exact ih _ h1
    · exact ih _ h1

theorem restoreKVv1Secrets_inv {τ : Type} (W : API τ) (I : τ → Prop) (mountPath : String)
    (hw : ∀ path d w, HasPrefix path mountPath = true → I w → I (W.write path d w).2) :
    ∀ (secrets : List SecretBackup) (w : τ), I w →
      I (restoreKVv1Secrets W mountPath secrets w).2 := by
  intro secrets
  induction secrets with
  | nil => intro w h; exact h
  | cons secret rest ih =>
    intro w h
    unfold restoreKVv1Secrets
    split
    · exact ih w h
    · exact ih _ (hw _ _ _ (HasPrefix_append_self mountPath secret.Path) h)

theorem restoreEngineSecrets_inv {τ : Type} (W : API τ) (I : τ → Prop)
    (engine : SecretEngineBackup)
    (hw : ∀ path d w, HasPrefix path engine.Path = true → I w → I (W.write path d w).2)
    (w : τ) (h : I w) : I (restoreEngineSecrets W engine w) := by
  unfold restoreEngineSecrets
  split
  · split
    · exact restoreKVv2Secrets_inv W I engine.Path hw _ w h
    · exact restoreKVv1Secrets_inv W I engine.Path hw _ w h
  · exact h

theorem restoreSecretEngines_inv {τ : Type} (W : API τ) (I : τ → Prop) (F : List String) :
    ∀ (engines : List SecretEngineBackup),
      (∀ w, I w → I (W.listMounts w).2) →
      (∀ e ∈ engines, ∀ w l w1, I w → W.listMounts w = (.ok l, w1) → e.Path ∉ Keys l →
        I (W.mount (TrimSuffix e.Path "/") (mountInputOf W.sprint e) w1).2) →
      (∀ e ∈ engines, ∀ path d w, HasPrefix path e.Path = true → I w → I (W.write path d w).2) →
      ∀ w, I w → I (restoreSecretEngines W F engines w).2 := by
  intro engines
  induction engines with
  | nil => intro _ _ _ w h; exact h
  | cons engine rest ih =>
    intro hl hm hw w h
    have ih' := ih hl (fun e he => hm e (List.mem_cons_of_mem _ he))
      (fun e he => hw e (List.mem_cons_of_mem _ he))
    have hsec := restoreEngineSecrets_inv W I engine (hw engine (List.mem_cons_self _ _))
    unfold restoreSecretEngines
    split
    · exact ih' w h
    · split
      · rename_i err w1 heq
        have := hl w h
        rw [heq] at this
        exact this
      · rename_i l w1 heq
        have h1 : I w1 := by
          have := hl w h
          rw [heq] at this
          exact this
        split
        · exact ih' _ (hsec w1 h1)
        · rename_i hany
          have hnot : engine.Path ∉ Keys l :=
            (any_key_eq_false l engine.Path).mp (Bool.eq_false_iff.mpr hany)
          have h2 := hm engine (List.mem_cons_self _ _) w l w1 h heq hnot
          split
          · rename_i e2 w2 heq2
            rw [heq2] at h2
            exact ih' _ h2
          · rename_i w2 heq2
            rw [heq2] at h2
            exact ih' _ (hsec _ h2)

theorem restorePolicies_inv {τ : Type} (W : API τ) (I : τ → Prop)
    (hp : ∀ n t w, I w → I (W.putPolicy n t w).2) :
    ∀ (policies : List PolicyBackup) (w : τ), I w → I (restorePolicies W policies w).2 := by
  intro policies
  induction policies with
  | nil => intro w h; exact h
  | cons p rest ih => intro w h; exact ih _ (hp _ _ w h)

theorem restoreUserpassUsers_inv {τ : Type} (W : API τ) (I : τ → Prop) (authPath pw : String)
    (hw : ∀ path d w, HasPrefix path "auth/" = true → I w → I (W.write path d w).2) :
    ∀ (users : List UserBackup) (w : τ), I w →
      I (restoreUserpassUsers W authPath pw users w).2 := by
  intro users
  induction users with
  | nil => intro w h; exact h
  | cons u rest ih =>
    intro w h
    exact ih _ (hw _ _ w (by
      repeat first
        | exact HasPrefix_append_self _ _
        | apply HasPrefix_append_of) h)

theorem restoreAppRoles_inv {τ : Type} (W : API τ) (I : τ → Prop) (authPath : String)
    (hw : ∀ path d w, HasPrefix path "auth/" = true → I w → I (W.write path d w).2) :
    ∀ (roles : List RoleBackup) (w : τ), I w → I (restoreAppRoles W authPath roles w).2 := by
  intro roles
  induction roles with
  | nil => intro w h; exact h
  | cons u rest ih =>
    intro w h
    exact ih _ (hw _ _ w (by
      repeat first
        | exact HasPrefix_append_self _ _
        | apply HasPrefix_append_of) h)

theorem restoreLDAPUsers_inv {τ : Type} (W : API τ) (I : τ → Prop) (authPath : String)
    (hw : ∀ path d w, HasPrefix path "auth/" = true → I w → I (W.write path d w).2) :
    ∀ (users : List UserBackup) (w : τ), I w → I (restoreLDAPUsers W authPath users w).2 := by
  intro users
  induction users with
  | nil => intro w h; exact h
  | cons u rest ih =>
    intro w h
    exact ih _ (hw _ _ w (by
      repeat first
        | exact HasPrefix_append_self _ _
        | apply HasPrefix_append_of) h)

theorem restoreAuthEntries_inv {τ : Type} (W : API τ) (I : τ → Prop) (opts : RestoreOptions)
    (auth : AuthMethodBackup)
    (hw : ∀ path d w, HasPrefix path "auth/" = true → I w → I (W.write path d w).2)
    (w : τ) (h : I w) : I (restoreAuthEntries W opts auth w) := by
  unfold restoreAuthEntries
  split
  · exact restoreUserpassUsers_inv W I _ _ hw _ w h
  · split
    · exact restoreAppRoles_inv W I _ hw _ w h
    · split
      · exact restoreLDAPUsers_inv W I _ hw _ w h
      · exact h

theorem restoreAuthMethods_inv {τ : Type} (W : API τ) (I : τ → Prop) (opts : RestoreOptions) :
    ∀ (auths : List AuthMethodBackup),
      (∀ w, I w → I (W.listAuth w).2) →
      (∀ a ∈ auths, ∀ w l w1, I w → W.listAuth w = (.ok l, w1) → a.Path ∉ Keys l →
        I (W.enableAuth (TrimSuffix a.Path "/") (enableInputOf W.sprint a) w1).2) →
      (∀ path d w, HasPrefix path "auth/" = true → I w → I (W.write path d w).2) →
      ∀ w, I w → I (restoreAuthMethods W opts auths w).2 := by
  intro auths
  induction auths with
  | nil => intro _ _ _ w h; exact h
  | cons auth rest ih =>
    intro hl hm hw w h
    have ih' := ih hl (fun e he => hm e (List.mem_cons_of_mem _ he)) hw
    have hsec := restoreAuthEntries_inv W I opts auth hw
    unfold restoreAuthMethods
    split
    · rename_i err w1 heq
      have := hl w h
      rw [heq] at this
      exact this
    · rename_i l w1 heq
      have h1 : I w1 := by
        have := hl w h
        rw [heq] at this
        exact this
      split
      · exact ih' _ (hsec w1 h1)
      · rename_i hany
        have hnot : auth.Path ∉ Keys l :=
          (any_key_eq_false l auth.Path).mp (Bool.eq_false_iff.mpr hany)
        have h2 := hm auth (List.mem_cons_self _ _) w l w1 h heq hnot
        split
        · rename_i e2 w2 heq2
          rw [heq2] at h2
          exact ih' _ h2
        · rename_i w2 heq2
          rw [heq2] at h2
          exact ih' _ (hsec _ h2)

/-- A property kept by every call that `Restore` can make is kept by `Restore`. -/
theorem Restore_inv {τ : Type} (W : API τ) (I : τ → Prop) (backup : BackupData)
    (opts : RestoreOptions)
    (hlm : ∀ w, I w → I (W.listMounts w).2)
    (hm : ∀ e ∈ backup.SecretEngines, ∀ w l w1, I w → W.listMounts w = (.ok l, w1) →
      e.Path ∉ Keys l → I (W.mount (TrimSuffix e.Path "/") (mountInputOf W.sprint e) w1).2)
    (hw : ∀ path d w, I w → I (W.write path d w).2)
    (hp : ∀ n t w, I w → I (W.putPolicy n t w).2)
    (hla : ∀ w, I w → I (W.listAuth w).2)
    (he : ∀ a ∈ backup.AuthMethods, ∀ w l w1, I w → W.listAuth w = (.ok l, w1) →
      a.Path ∉ Keys l → I (W.enableAuth (TrimSuffix a.Path "/") (enableInputOf W.sprint a) w1).2)
    (w : τ) (h : I w) : I (Restore W backup opts w).2 := by
  have h1 := restoreSecretEngines_inv W I opts.Engines backup.SecretEngines hlm hm
    (fun _ _ path d w _ hI => hw path d w hI) w h
  unfold Restore
  split
  · rename_i heq; rw [heq] at h1; exact h1
  · rename_i w1 heq
    rw [heq] at h1
    have h2 : I (if opts.SkipPolicies = true then ((none : Option Err), w1)
        else restorePolicies W backup.Policies w1).2 := by
      split
      · exact h1
      · exact restorePolicies_inv W I hp _ w1 h1
    simp only
    split
    · rename_i heq2; rw [heq2] at h2; exact h2
    · rename_i w2 heq2
      rw [heq2] at h2
      have h3 : I (if opts.SkipAuth = true then ((none : Option Err), w2)
          else restoreAuthMethods W opts backup.AuthMethods w2).2 := by
        split
        · exact h2
        · exact restoreAuthMethods_inv W I opts _ hla he
            (fun path d w _ hI => hw path d w hI) w2 h2
      split
      · rename_i heq3; rw [heq3] at h3; exact h3
      · rename_i heq3; rw [heq3] at h3; exact h3

theorem isSome_eq_false {α : Type} {o : Option α} (h : o.isSome = false) : o = none := by
  cases o with
  | none => rfl
  | some a => simp at h

theorem StillInPlace_refl {σ : Type} (mounted enabled : σ → String → Prop) (s : σ) :
    StillInPlace mounted enabled s s := fun _ => ⟨id, id⟩

theorem StillInPlace_trans {σ : Type} {mounted enabled : σ → String → Prop} {s t u : σ}
    (h1 : StillInPlace mounted enabled s t) (h2 : StillInPlace mounted enabled t u) :
    StillInPlace mounted enabled s u :=
  fun p => ⟨fun h => (h2 p).1 ((h1 p).1 h), fun h => (h2 p).2 ((h1 p).2 h)⟩

theorem CreatedInPlace_step {σ : Type} {mounted enabled : σ → String → Prop} {s0 : σ}
    {w : σ × List Event} (h : CreatedInPlace mounted enabled s0 w) (s' : σ) (ev : Event)
    (hk : StillInPlace mounted enabled w.1 s')
    (hm : ∀ p i, ev = ⟨Call.mount p i, false⟩ → mounted s' (p ++ "/"))
    (ha : ∀ p i, ev = ⟨Call.enableAuth p i, false⟩ → enabled s' (p ++ "/")) :
    CreatedInPlace mounted enabled s0 (s', w.2 ++ [ev]) := by
  refine ⟨StillInPlace_trans h.1 hk, ?_, ?_⟩
  · intro p i hmem
    rcases List.mem_append.mp hmem with h1 | h1
    · exact (hk _).1 (h.2.1 p i h1)
    · exact hm p i (List.mem_singleton.mp h1).symm
  · intro p i hmem
    rcases List.mem_append.mp hmem with h1 | h1
    · exact (hk _).2 (h.2.2 p i h1)
    · exact ha p i (List.mem_singleton.mp h1).symm

theorem NoneCreatedAgain_step {σ : Type} {mounted enabled : σ → String → Prop} {s1 : σ}
    {w : σ × List Event} (h : NoneCreatedAgain mounted enabled s1 w) (s' : σ) (ev : Event)
    (hk : StillInPlace mounted enabled w.1 s')
    (hm : ∀ p i, ev.call = Call.mount p i → ¬ mounted s1 (p ++ "/"))
    (ha : ∀ p i, ev.call = Call.enableAuth p i → ¬ enabled s1 (p ++ "/")) :
    NoneCreatedAgain mounted enabled s1 (s', w.2 ++ [ev]) := by
  refine ⟨StillInPlace_trans h.1 hk, ?_, ?_⟩
  · intro p i hmem
    simp only [callsOf, List.map_append, List.map_cons, List.map_nil, List.mem_append,
      List.mem_singleton] at hmem
    rcases hmem with h1 | h1
    · exact h.2.1 p i h1
    · exact hm p i h1.symm
  · intro p i hmem
    simp only [callsOf, List.map_append, List.map_cons, List.map_nil, List.mem_append,
      List.mem_singleton] at hmem
    rcases hmem with h1 | h1
    · exact h.2.2 p i h1
    · exact ha p i h1.symm

theorem Restore_first_run {σ : Type} (V : API σ) (mounted enabled : σ → String → Prop)
    (hV : KeepsMounts V mounted enabled) (backup : BackupData) (opts : RestoreOptions)
    (s0 : σ) (w : σ × List Event) (h : CreatedInPlace mounted enabled s0 w) :
    CreatedInPlace mounted enabled s0 (Restore (traced V) backup opts w).2 := by
  apply Restore_inv (traced V) (CreatedInPlace mounted enabled s0) backup opts
  · intro w hI
    exact CreatedInPlace_step hI _ _ (hV.listMounts_keeps _) (by simp) (by simp)
  · intro e _ w l w1 _ heq _
    have hI1 : CreatedInPlace mounted enabled s0 w1 := by
      have := CreatedInPlace_step ‹CreatedInPlace mounted enabled s0 w› (V.listMounts w.1).2
        ⟨Call.listMounts, failedE (V.listMounts w.1).1⟩ (hV.listMounts_keeps w.1)
        (by simp) (by simp)
      rw [traced_listMounts] at heq
      simp only [Prod.mk.injEq] at heq
      rw [← heq.2]
      exact this
    rw [traced_mount]
    refine CreatedInPlace_step hI1 _ _ (hV.mount_keeps _ _ _) ?_ (by simp)
    intro p i hev
    simp only [Event.mk.injEq, Call.mount.injEq] at hev
    obtain ⟨⟨hp, hi⟩, hnone⟩ := hev
    rw [← hp]
    exact hV.mount_creates _ _ _ _ (Prod.ext (isSome_eq_false hnone) rfl)
  · intro path d w hI
    exact CreatedInPlace_step hI _ _ (hV.write_keeps _ _ _) (by simp) (by simp)
  · intro n t w hI
    exact CreatedInPlace_step hI _ _ (hV.putPolicy_keeps _ _ _) (by simp) (by simp)
  · intro w hI
    exact CreatedInPlace_step hI _ _ (hV.listAuth_keeps _) (by simp) (by simp)
  · intro a _ w l w1 _ heq _
    have hI1 : CreatedInPlace mounted enabled s0 w1 := by
      have := CreatedInPlace_step ‹CreatedInPlace mounted enabled s0 w› (V.listAuth w.1).2
        ⟨Call.listAuth, failedE (V.listAuth w.1).1⟩ (hV.listAuth_keeps w.1)
        (by simp) (by simp)
      rw [traced_listAuth] at heq
      simp only [Prod.mk.injEq] at heq
      rw [← heq.2]
      exact this
    rw [traced_enableAuth]
    refine CreatedInPlace_step hI1 _ _ (hV.enableAuth_keeps _ _ _) (by simp) ?_
    intro p i hev
    simp only [Event.mk.injEq, Call.enableAuth.injEq] at hev
    obtain ⟨⟨hp, hi⟩, hnone⟩ := hev
    rw [← hp]
    exact hV.enableAuth_creates _ _ _ _ (Prod.ext (isSome_eq_false hnone) rfl)
  · exact h

theorem Restore_second_run {σ : Type} (V : API σ) (mounted enabled : σ → String → Prop)
    (hV : KeepsMounts V mounted enabled) (backup : BackupData) (opts : RestoreOptions)
    (hE : ∀ e ∈ backup.SecretEngines, HasSuffix e.Path "/" = true)
    (hA : ∀ a ∈ backup.AuthMethods, HasSuffix a.Path "/" = true)
    (s1 : σ) (w : σ × List Event) (h : NoneCreatedAgain mounted enabled s1 w) :
    NoneCreatedAgain mounted enabled s1 (Restore (traced V) backup opts w).2 := by
  apply Restore_inv (traced V) (NoneCreatedAgain mounted enabled s1) backup opts
  · intro w hI
    exact NoneCreatedAgain_step hI _ _ (hV.listMounts_keeps _) (by simp) (by simp)
  · intro e he w l w1 hI heq hnot
    rw [traced_listMounts] at heq
    simp only [Prod.mk.injEq] at heq
    have hI1 : NoneCreatedAgain mounted enabled s1 w1 := by
      have := NoneCreatedAgain_step hI (V.listMounts w.1).2 ⟨Call.listMounts, failedE (V.listMounts w.1).1⟩
        (hV.listMounts_keeps w.1) (by simp) (by simp)
      rw [← heq.2]
      exact this
    rw [traced_mount]
    refine NoneCreatedAgain_step hI1 _ _ (hV.mount_keeps _ _ _) ?_ (by simp)
    intro p i hev
    simp only [Call.mount.injEq] at hev
    rw [← hev.1, TrimSuffix_append _ _ (hE e he)]
    intro hmount
    exact hnot (hV.listMounts_shows w.1 l (V.listMounts w.1).2 (Prod.ext heq.1 rfl) _
      ((hI.1 _).1 hmount))
  · intro path d w hI
    exact NoneCreatedAgain_step hI _ _ (hV.write_keeps _ _ _) (by simp) (by simp)
  · intro n t w hI
    exact NoneCreatedAgain_step hI _ _ (hV.putPolicy_keeps _ _ _) (by simp) (by simp)
  · intro w hI
    exact NoneCreatedAgain_step hI _ _ (hV.listAuth_keeps _) (by simp) (by simp)
  · intro a ha w l w1 hI heq hnot
    rw [traced_listAuth] at heq
    simp only [Prod.mk.injEq] at heq
    have hI1 : NoneCreatedAgain mounted enabled s1 w1 := by
      have := NoneCreatedAgain_step hI (V.listAuth w.1).2 ⟨Call.listAuth, failedE (V.listAuth w.1).1⟩
        (hV.listAuth_keeps w.1) (by simp) (by simp)
      rw [← heq.2]
      exact this
    rw [traced_enableAuth]
    refine NoneCreatedAgain_step hI1 _ _ (hV.enableAuth_keeps _ _ _) (by simp) ?_
    intro p i hev
    simp only [Call.enableAuth.injEq] at hev
    rw [← hev.1, TrimSuffix_append _ _ (hA a ha)]
    intro hen
    exact hnot (hV.listAuth_shows w.1 l (V.listAuth w.1).2 (Prod.ext heq.1 rfl) _
      ((hI.1 _).2 hen))
  · exact h

/-- C6 (amended): on a target that keeps its mounts and auth methods, for a
snapshot whose engine and auth paths end in `/`, after a first `Restore`
every path in place before it and every path it created is in place, and a
second `Restore` makes no create-mount and no enable-auth call at a path in
place after the first. -/
theorem Restore_twice_creates_nothing_again {σ : Type} (V : API σ)
    (mounted enabled : σ → String → Prop) (hV : KeepsMounts V mounted enabled)
    (backup : BackupData) (opts opts2 : RestoreOptions) (s0 : σ)
    (hE : ∀ e ∈ backup.SecretEngines, HasSuffix e.Path "/" = true)
    (hA : ∀ a ∈ backup.AuthMethods, HasSuffix a.Path "/" = true) :
    (∀ p, (mounted s0 p → mounted (Restore (traced V) backup opts (s0, [])).2.1 p)
        ∧ (enabled s0 p → enabled (Restore (traced V) backup opts (s0, [])).2.1 p))
      ∧ (∀ p i, (⟨Call.mount p i, false⟩ : Event) ∈ (Restore (traced V) backup opts (s0, [])).2.2
          → mounted (Restore (traced V) backup opts (s0, [])).2.1 (p ++ "/"))
      ∧ (∀ p i,
          (⟨Call.enableAuth p i, false⟩ : Event) ∈ (Restore (traced V) backup opts (s0, [])).2.2
          → enabled (Restore (traced V) backup opts (s0, [])).2.1 (p ++ "/"))
      ∧ (∀ p i, Call.mount p i ∈ callsOf (Restore (traced V) backup opts2
            ((Restore (traced V) backup opts (s0, [])).2.1, [])).2.2
          → ¬ mounted (Restore (traced V) backup opts (s0, [])).2.1 (p ++ "/"))
      ∧ (∀ p i, Call.enableAuth p i ∈ callsOf (Restore (traced V) backup opts2
            ((Restore (traced V) backup opts (s0, [])).2.1, [])).2.2
          → ¬ enabled (Restore (traced V) backup opts (s0, [])).2.1 (p ++ "/")) := by
  have h1 := Restore_first_run V mounted enabled hV backup opts s0 (s0, [])
    ⟨StillInPlace_refl _ _ _, by simp, by simp⟩
  have h2 := Restore_second_run V mounted enabled hV backup opts2 hE hA
    (Restore (traced V) backup opts (s0, [])).2.1
    ((Restore (traced V) backup opts (s0, [])).2.1, [])
    ⟨StillInPlace_refl _ _ _, by simp [callsOf], by simp [callsOf]⟩
  exact ⟨h1.1, h1.2.1, h1.2.2, h2.2.1, h2.2.2⟩

theorem mem_Keys_append {α : Type} (l : List (String × α)) (k p : String) (v : α)
    (h : p ∈ Keys l) : p ∈ Keys (l ++ [(k, v)]) := by
  simp only [Keys, List.map_append, List.mem_append]
  exact Or.inl h

/-- The concrete server keeps its mounts and auth methods. -/
theorem storeAPI_keepsMounts : KeepsMounts storeAPI Store.mounted Store.enabled where
  listMounts_shows := by
    intro s l s' h p hp
    simp only [storeAPI] at h
    split at h
    · simp at h
    · simp only [Prod.mk.injEq, Except.ok.injEq] at h
      rw [← h.1]; exact hp
  listAuth_shows := by
    intro s l s' h p hp
    simp only [storeAPI] at h
    split at h
    · simp at h
    · simp only [Prod.mk.injEq, Except.ok.injEq] at h
      rw [← h.1]; exact hp
  mount_creates := by
    intro p i s s' h
    simp only [storeAPI] at h
    split at h
    · simp at h
    · split at h
      · simp at h
      · simp only [Prod.mk.injEq, true_and] at h
        rw [← h]
        simp [Store.mounted, Keys]
  enableAuth_creates := by
    intro p i s s' h
    simp only [storeAPI] at h
    split at h
    · simp at h
    · split at h
      · simp at h
      · simp only [Prod.mk.injEq, true_and] at h
        rw [← h]
        simp [Store.enabled, Keys]
  listMounts_keeps := by
    intro s p
    simp only [storeAPI]
    split <;> exact ⟨id, id⟩
  mount_keeps := by
    intro q i s p
    simp only [storeAPI]
    split
    · exact ⟨id, id⟩
    · split
      · exact ⟨id, id⟩
      · exact ⟨fun h => mem_Keys_append _ _ _ _ h, id⟩
  listAuth_keeps := by
    intro s p
    simp only [storeAPI]
    split <;> exact ⟨id, id⟩
  enableAuth_keeps := by
    intro q i s p
    simp only [storeAPI]
    split
    · exact ⟨id, id⟩
    · split
      · exact ⟨id, id⟩
      · exact ⟨id, fun h => mem_Keys_append _ _ _ _ h⟩
  putPolicy_keeps := by
    intro n t s p
    simp only [storeAPI]
    split <;> exact ⟨id, id⟩
  write_keeps := by
    intro q d s p
    simp only [storeAPI]
    split <;> exact ⟨id, id⟩

/-- C6 as stated fails for an engine path without the trailing `/`: the first
run creates the mount `secret`, listed as `secret/`, and the second run
calls create-mount at `secret` again. -/
theorem Restore_twice_mounts_again_without_slash :
    (Restore (traced storeAPI) noSlashSnapshot defaultOptions (Store.empty, [])).2.2
        = [⟨Call.listMounts, false⟩, ⟨Call.mount "secret" ⟨"kv", "", []⟩, false⟩]
      ∧ Keys (Restore (traced storeAPI) noSlashSnapshot defaultOptions (Store.empty, [])).2.1.mounts
        = ["secret/"]
      ∧ (Restore (traced storeAPI) noSlashSnapshot defaultOptions
          ((Restore (traced storeAPI) noSlashSnapshot defaultOptions (Store.empty, [])).2.1, [])).2.2
        = [⟨Call.listMounts, false⟩, ⟨Call.mount "secret" ⟨"kv", "", []⟩, true⟩] :=
  ⟨rfl, rfl, rfl⟩

/-- C6 (amended) on `smallSnapshot` and the empty store: the second run
lists, writes and makes no creation call. -/
theorem Restore_twice_witness :
    (∀ e ∈ smallSnapshot.SecretEngines, HasSuffix e.Path "/" = true)
      ∧ (∀ a ∈ smallSnapshot.AuthMethods, HasSuffix a.Path "/" = true)
      ∧ callsOf (Restore (traced storeAPI) smallSnapshot defaultOptions
          ((Restore (traced storeAPI) smallSnapshot defaultOptions (Store.empty, [])).2.1, [])).2.2
        = [Call.listMounts, Call.write "secret/db" [("pw", Value.str "x")],
            Call.putPolicy "ops" "# operators: read-only",
            Call.listAuth,
            Call.write "auth/userpass/users/alice"
              [("password", Value.str "ChangeMe123!"), ("token_policies", Value.str "admin")],
            Call.write "auth/userpass/users/bob"
              [("token_policies", Value.str "dev"), ("password", Value.str "ChangeMe123!")]]
      ∧ (∀ p i, Call.mount p i ∈ callsOf (Restore (traced storeAPI) smallSnapshot defaultOptions
            ((Restore (traced storeAPI) smallSnapshot defaultOptions (Store.empty, [])).2.1, [])).2.2
          → ¬ Store.mounted
            (Restore (traced storeAPI) smallSnapshot defaultOptions (Store.empty, [])).2.1
            (p ++ "/")) :=
  ⟨by decide, by decide, rfl,
    (Restore_twice_creates_nothing_again storeAPI Store.mounted Store.enabled
      storeAPI_keepsMounts smallSnapshot defaultOptions defaultOptions Store.empty
      (by decide) (by decide)).2.2.2.1⟩

theorem ExtendsBy_refl (cat : Call → Prop) (log0 : List Event) : ExtendsBy cat log0 log0 :=
  ⟨[], by simp, by simp⟩

theorem ExtendsBy_snoc {cat : Call → Prop} {log0 log : List Event} (h : ExtendsBy cat log0 log)
    (ev : Event) (hev : cat ev.call) : ExtendsBy cat log0 (log ++ [ev]) := by
  obtain ⟨evs, he, hall⟩ := h
  refine ⟨evs ++ [ev], by rw [he, List.append_assoc], ?_⟩
  intro e hmem
  rcases List.mem_append.mp hmem with h1 | h1
  · exact hall e h1
  · rw [List.mem_singleton.mp h1]; exact hev

/-- The engine phase appends only engine operations. -/
theorem restoreSecretEngines_log {σ : Type} (V : API σ) (F : List String)
    (engines : List SecretEngineBackup) (w : σ × List Event) :
    ExtendsBy (engineCall engines) w.2 (restoreSecretEngines (traced V) F engines w).2.2 := by
  apply restoreSecretEngines_inv (traced V)
    (fun w' : σ × List Event => ExtendsBy (engineCall engines) w.2 w'.2) F engines
  · intro w' h
    rw [traced_listMounts]
    exact ExtendsBy_snoc h _ trivial
  · intro e _ w' l w1 h heq _
    rw [traced_listMounts] at heq
    simp only [Prod.mk.injEq] at heq
    rw [traced_mount, ← heq.2]
    exact ExtendsBy_snoc (ExtendsBy_snoc h ⟨Call.listMounts, _⟩ trivial) ⟨Call.mount _ _, _⟩ trivial
  · intro e he path d w' hp h
    rw [traced_write]
    exact ExtendsBy_snoc h _ ⟨e, he, hp⟩
  · exact ExtendsBy_refl _ _

/-- The policy phase appends only policy writes. -/
theorem restorePolicies_log {σ : Type} (V : API σ) (policies : List PolicyBackup)
    (w : σ × List Event) :
    ExtendsBy policyCall w.2 (restorePolicies (traced V) policies w).2.2 := by
  apply restorePolicies_inv (traced V)
    (fun w' : σ × List Event => ExtendsBy policyCall w.2 w'.2)
  · intro n t w' h
    rw [traced_putPolicy]
    exact ExtendsBy_snoc h _ trivial
  · exact ExtendsBy_refl _ _

/-- The auth phase appends only auth-method operations. -/
theorem restoreAuthMethods_log {σ : Type} (V : API σ) (opts : RestoreOptions)
    (auths : List AuthMethodBackup) (w : σ × List Event) :
    ExtendsBy authCall w.2 (restoreAuthMethods (traced V) opts auths w).2.2 := by
  apply restoreAuthMethods_inv (traced V)
    (fun w' : σ × List Event => ExtendsBy authCall w.2 w'.2) opts auths
  · intro w' h
    rw [traced_listAuth]
    exact ExtendsBy_snoc h _ trivial
  · intro a _ w' l w1 h heq _
    rw [traced_listAuth] at heq
    simp only [Prod.mk.injEq] at heq
    rw [traced_enableAuth, ← heq.2]
    exact ExtendsBy_snoc (ExtendsBy_snoc h ⟨Call.listAuth, _⟩ trivial) ⟨Call.enableAuth _ _, _⟩
      trivial
  · intro path d w' hp h
    rw [traced_write]
    exact ExtendsBy_snoc h _ hp
  · exact ExtendsBy_refl _ _

theorem restorePolicies_error {τ : Type} (W : API τ) :
    ∀ (policies : List PolicyBackup) (w : τ), (restorePolicies W policies w).1 = none := by
  intro policies
  induction policies with
  | nil => intro w; rfl
  | cons p rest ih => intro w; exact ih _

/-- Of the options, the auth phase reads the default password alone. -/
theorem restoreAuthMethods_options {τ : Type} (W : API τ) (opts opts' : RestoreOptions)
    (h : opts.DefaultPassword = opts'.DefaultPassword) :
    ∀ (auths : List AuthMethodBackup) (w : τ),
      restoreAuthMethods W opts auths w = restoreAuthMethods W opts' auths w := by
  intro auths
  induction auths with
  | nil => intro w; rfl
  | cons a rest ih =>
    intro w
    simp only [restoreAuthMethods, restoreAuthEntries, h, ih]

/-- The state `Restore` ends in, phase by phase. -/
theorem Restore_state {τ : Type} (W : API τ) (backup : BackupData) (opts : RestoreOptions)
    (w : τ) :
    (Restore W backup opts w).2
      = match restoreSecretEngines W opts.Engines backup.SecretEngines w with
        | (some _, w1) => w1
        | (none, w1) =>
          (if opts.SkipAuth = true then
              (if opts.SkipPolicies = true then w1 else (restorePolicies W backup.Policies w1).2)
            else (restoreAuthMethods W opts backup.AuthMethods
              (if opts.SkipPolicies = true then w1
                else (restorePolicies W backup.Policies w1).2)).2) := by
  unfold Restore
  split
  · rename_i heq; simp only [heq]
  · rename_i w1 heq
    simp only [heq]
    have hpe := restorePolicies_error W backup.Policies w1
    generalize restorePolicies W backup.Policies w1 = r2 at hpe ⊢
    obtain ⟨e2, w2⟩ := r2
    simp only at hpe
    subst hpe
    cases hp : opts.SkipPolicies <;> cases ha : opts.SkipAuth
    all_goals simp only [Bool.false_eq_true, if_false, if_true]
    · generalize restoreAuthMethods W opts backup.AuthMethods w2 = r3
      obtain ⟨e3, w3⟩ := r3
      cases e3 <;> rfl
    · generalize restoreAuthMethods W opts backup.AuthMethods w1 = r3
      obtain ⟨e3, w3⟩ := r3
      cases e3 <;> rfl

/-! ### The auth phase after skipped policies -/

theorem InStep_write {σ : Type} {V : API σ} {R : σ → σ → Prop} (hA : PoliciesApart V R)
    {base base' : List Event} (p : String) (d : Data) {w w' : σ × List Event}
    (h : InStep R base base' w w') :
    InStep R base base' ((traced V).write p d w).2 ((traced V).write p d w').2 := by
  obtain ⟨hR, evs, e1, e2⟩ := h
  obtain ⟨hf, hR'⟩ := hA.write_alike p d w.1 w'.1 hR
  refine ⟨hR', evs ++ [⟨Call.write p d, failedE (V.write p d w.1).1⟩], ?_, ?_⟩
  · rw [traced_write, e1, List.append_assoc]
  · rw [traced_write, e2, List.append_assoc, hf]

theorem restoreUserpassUsers_inStep {σ : Type} {V : API σ} {R : σ → σ → Prop}
    (hA : PoliciesApart V R) (base base' : List Event) (authPath pw : String) :
    ∀ (users : List UserBackup) (w w' : σ × List Event), InStep R base base' w w' →
      InStep R base base' (restoreUserpassUsers (traced V) authPath pw users w).2
        (restoreUserpassUsers (traced V) authPath pw users w').2 := by
  intro users
  induction users with
  | nil => intro w w' h; exact h
  | cons u rest ih =>
    intro w w' h
    simp only [restoreUserpassUsers]
    exact ih _ _ (InStep_write hA _ _ h)

theorem restoreAppRoles_inStep {σ : Type} {V : API σ} {R : σ → σ → Prop}
    (hA : PoliciesApart V R) (base base' : List Event) (authPath : String) :
    ∀ (roles : List RoleBackup) (w w' : σ × List Event), InStep R base base' w w' →
      InStep R base base' (restoreAppRoles (traced V) authPath roles w).2
        (restoreAppRoles (traced V) authPath roles w').2 := by
  intro roles
  induction roles with
  | nil => intro w w' h; exact h
  | cons u rest ih =>
    intro w w' h
    simp only [restoreAppRoles]
    exact ih _ _ (InStep_write hA _ _ h)

theorem restoreLDAPUsers_inStep {σ : Type} {V : API σ} {R : σ → σ → Prop}
    (hA : PoliciesApart V R) (base base' : List Event) (authPath : String) :
    ∀ (users : List UserBackup) (w w' : σ × List Event), InStep R base base' w w' →
      InStep R base base' (restoreLDAPUsers (traced V) authPath users w).2
        (restoreLDAPUsers (traced V) authPath users w').2 := by
  intro users
  induction users with
  | nil => intro w w' h; exact h
  | cons u rest ih =>
    intro w w' h
    simp only [restoreLDAPUsers]
    exact ih _ _ (InStep_write hA _ _ h)

theorem restoreAuthEntries_inStep {σ : Type} {V : API σ} {R : σ → σ → Prop}
    (hA : PoliciesApart V R) (base base' : List Event) (opts : RestoreOptions)
    (auth : AuthMethodBackup) (w w' : σ × List Event) (h : InStep R base base' w w') :
    InStep R base base' (restoreAuthEntries (traced V) opts auth w)
      (restoreAuthEntries (traced V) opts auth w') := by
  unfold restoreAuthEntries
  split
  · exact restoreUserpassUsers_inStep hA base base' _ _ _ w w' h
  · split
    · exact restoreAppRoles_inStep hA base base' _ _ w w' h
    · split
      · exact restoreLDAPUsers_inStep hA base base' _ _ w w' h
      · exact h

/-- From states that differ by policy writes at most, the auth phase logs
the same events. -/
theorem restoreAuthMethods_inStep {σ : Type} {V : API σ} {R : σ → σ → Prop}
    (hA : PoliciesApart V R) (base base' : List Event) (opts : RestoreOptions) :
    ∀ (auths : List AuthMethodBackup) (w w' : σ × List Event), InStep R base base' w w' →
      InStep R base base' (restoreAuthMethods (traced V) opts auths w).2
        (restoreAuthMethods (traced V) opts auths w').2 := by
  intro auths
  induction auths with
  | nil => intro w w' h; exact h
  | cons auth rest ih =>
    intro w w' h
    obtain ⟨hR, evs, e1, e2⟩ := h
    obtain ⟨hl, hRl⟩ := hA.listAuth_alike w.1 w'.1 hR
    rcases hl1 : V.listAuth w.1 with ⟨r, s1⟩
    rcases hl2 : V.listAuth w'.1 with ⟨r', s1'⟩
    rw [hl1, hl2] at hl hRl
    simp only at hl hRl
    subst hl
    have hstep1 : InStep R base base' (s1, w.2 ++ [⟨Call.listAuth, failedE r⟩])
        (s1', w'.2 ++ [⟨Call.listAuth, failedE r⟩]) :=
      ⟨hRl, evs ++ [⟨Call.listAuth, failedE r⟩],
        by rw [e1, List.append_assoc], by rw [e2, List.append_assoc]⟩
    simp only [restoreAuthMethods, traced_listAuth, traced_enableAuth, traced_sprint, hl1, hl2]
    cases r with
    | error err => exact hstep1
    | ok l =>
      simp only
      split
      · exact ih _ _ (restoreAuthEntries_inStep hA base base' opts auth _ _ hstep1)
      · obtain ⟨he, hRe⟩ := hA.enableAuth_alike (TrimSuffix auth.Path "/")
          (enableInputOf V.sprint auth) s1 s1' hRl
        rcases hn1 : V.enableAuth (TrimSuffix auth.Path "/") (enableInputOf V.sprint auth) s1
          with ⟨o, s2⟩
        rcases hn2 : V.enableAuth (TrimSuffix auth.Path "/") (enableInputOf V.sprint auth) s1'
          with ⟨o', s2'⟩
        rw [hn1, hn2] at he hRe
        simp only at he hRe
        subst he
        obtain ⟨_, evs1, e1', e2'⟩ := hstep1
        simp only at e1' e2'
        have hstep2 : InStep R base base'
            (s2, w.2 ++ [⟨Call.listAuth, failedE (Except.ok l : Except Err _)⟩] ++
                [⟨Call.enableAuth (TrimSuffix auth.Path "/") (enableInputOf V.sprint auth),
                  o.isSome⟩])
            (s2', w'.2 ++ [⟨Call.listAuth, failedE (Except.ok l : Except Err _)⟩] ++
                [⟨Call.enableAuth (TrimSuffix auth.Path "/") (enableInputOf V.sprint auth),
                  o.isSome⟩]) :=
          ⟨hRe, evs1 ++ [⟨Call.enableAuth (TrimSuffix auth.Path "/")
              (enableInputOf V.sprint auth), o.isSome⟩],
            by simp only [e1', List.append_assoc], by simp only [e2', List.append_assoc]⟩
        cases o with
        | some err => exact ih _ _ hstep2
        | none => exact ih _ _ (restoreAuthEntries_inStep hA base base' opts auth _ _ hstep2)

theorem restorePolicies_apart {σ : Type} {V : API σ} {R : σ → σ → Prop}
    (hA : PoliciesApart V R) (s : σ) :
    ∀ (policies : List PolicyBackup) (w : σ × List Event), R s w.1 →
      R s (restorePolicies (traced V) policies w).2.1 := by
  intro policies
  induction policies with
  | nil => intro w h; exact h
  | cons p rest ih =>
    intro w h
    simp only [restorePolicies]
    apply ih
    rw [traced_putPolicy]
    exact hA.putPolicy_apart _ _ _ _ h

/-- The concrete server keeps its policies apart from its auth methods. -/
theorem storeAPI_policiesApart : PoliciesApart storeAPI Store.samePolicyFree := by
  refine ⟨fun s => ⟨rfl, rfl, rfl, rfl⟩, ?_, ?_, ?_, ?_⟩
  · intro n t s s' h
    obtain ⟨h1, h2, h3, h4⟩ := h
    simp only [storeAPI]
    split
    · exact ⟨h1, h2, h3, h4⟩
    · exact ⟨h1, h2, h3, h4⟩
  · intro s s' h
    obtain ⟨h1, h2, h3, h4⟩ := h
    simp only [storeAPI, h4, h2]
    split
    · exact ⟨rfl, h1, h2, h3, h4⟩
    · exact ⟨rfl, h1, h2, h3, h4⟩
  · intro p i s s' h
    obtain ⟨h1, h2, h3, h4⟩ := h
    simp only [storeAPI, h4, h2]
    split
    · exact ⟨rfl, h1, h2, h3, h4⟩
    · split
      · exact ⟨rfl, h1, h2, h3, h4⟩
      · exact ⟨rfl, h1, rfl, h3, rfl⟩
  · intro p d s s' h
    obtain ⟨h1, h2, h3, h4⟩ := h
    simp only [storeAPI, h4, h3]
    split
    · exact ⟨rfl, h1, h2, h3, h4⟩
    · exact ⟨rfl, h1, h2, rfl, rfl⟩

/-- C8: the events `Restore` logs are engine operations, then policy writes,
then auth-method operations; `SkipPolicies` leaves no policy write and
`SkipAuth` no auth-method operation; the engine operations are those of
`restoreSecretEngines`, whatever the flags; setting `SkipAuth` leaves the
engine operations and policy writes as they are, and setting `SkipPolicies`
leaves the engine operations as they are and is followed by auth-method
operations unless `SkipAuth` is set. A flag skips its own phase alone: after
an engine phase that ends without error in `w1`, the run with `SkipAuth` set
ends where the policy phase from `w1` ends, or in `w1` when `SkipPolicies`
is set too, and the run with `SkipPolicies` set ends where the auth phase
from `w1` ends, or in `w1` when `SkipAuth` is set too. On a server that
keeps its policies apart from its auth methods, the run with `SkipPolicies`
set logs the engine operations and then the very auth-method events of the
run without it. -/
theorem Restore_runs_engines_then_policies_then_auth {σ : Type} (V : API σ)
    (backup : BackupData) (opts : RestoreOptions) (s : σ) (log0 : List Event) :
    ∃ A B C : List Event,
      (Restore (traced V) backup opts (s, log0)).2.2 = log0 ++ A ++ B ++ C
      ∧ (restoreSecretEngines (traced V) opts.Engines backup.SecretEngines (s, log0)).2.2
          = log0 ++ A
      ∧ (∀ e ∈ A, engineCall backup.SecretEngines e.call)
      ∧ (∀ e ∈ B, policyCall e.call)
      ∧ (∀ e ∈ C, authCall e.call)
      ∧ (opts.SkipPolicies = true → B = [])
      ∧ (opts.SkipAuth = true → C = [])
      ∧ (Restore (traced V) backup { opts with SkipAuth := true } (s, log0)).2.2 = log0 ++ A ++ B
      ∧ (∃ C', (Restore (traced V) backup { opts with SkipPolicies := true } (s, log0)).2.2
            = log0 ++ A ++ C'
          ∧ (∀ e ∈ C', authCall e.call) ∧ (opts.SkipAuth = true → C' = []))
      ∧ (Restore (traced V) backup { opts with SkipPolicies := true, SkipAuth := true }
          (s, log0)).2.2 = log0 ++ A
      ∧ (∀ w1, restoreSecretEngines (traced V) opts.Engines backup.SecretEngines (s, log0)
            = (none, w1) →
          (Restore (traced V) backup { opts with SkipAuth := true } (s, log0)).2
              = (if opts.SkipPolicies = true then w1
                  else (restorePolicies (traced V) backup.Policies w1).2)
            ∧ (Restore (traced V) backup { opts with SkipPolicies := true } (s, log0)).2
              = (if opts.SkipAuth = true then w1
                  else (restoreAuthMethods (traced V) opts backup.AuthMethods w1).2))
      ∧ (∀ R : σ → σ → Prop, PoliciesApart V R →
          (Restore (traced V) backup { opts with SkipPolicies := true } (s, log0)).2.2
            = log0 ++ A ++ C) := by
  obtain ⟨A, hA, hAcat⟩ := restoreSecretEngines_log V opts.Engines backup.SecretEngines (s, log0)
  simp only [Restore_state]
  generalize restoreSecretEngines (traced V) opts.Engines backup.SecretEngines (s, log0) = E at hA
  obtain ⟨e1, w1⟩ := E
  simp only at hA
  cases e1 with
  | some err =>
    exact ⟨A, [], [], by simp [hA], hA, hAcat, by simp, by simp, fun _ => rfl, fun _ => rfl,
      by simp [hA], ⟨[], by simp [hA], by simp, fun _ => rfl⟩, by simp [hA],
      fun w1' h => by simp at h, fun _ _ => by simp [hA]⟩
  | none =>
    simp only [if_true]
    have hB : ExtendsBy policyCall w1.2
        (if opts.SkipPolicies = true then w1
          else (restorePolicies (traced V) backup.Policies w1).2).2 := by
      split
      · exact ExtendsBy_refl _ _
      · exact restorePolicies_log V backup.Policies w1
    obtain ⟨B, hB, hBcat⟩ := hB
    have hpol : ∀ w1', ((none : Option Err), w1) = (none, w1') →
        (if opts.SkipPolicies = true then w1
            else (restorePolicies (traced V) backup.Policies w1).2)
          = (if opts.SkipPolicies = true then w1'
              else (restorePolicies (traced V) backup.Policies w1').2) := by
      intro w1' h
      simp only [Prod.mk.injEq, true_and] at h
      rw [h]
    have hBnil : opts.SkipPolicies = true → B = [] := by
      intro hp
      rw [if_pos hp] at hB
      exact (List.self_eq_append_right.mp hB)
    have hopt : restoreAuthMethods (traced V) { opts with SkipPolicies := true }
        backup.AuthMethods w1 = restoreAuthMethods (traced V) opts backup.AuthMethods w1 :=
      restoreAuthMethods_options (traced V) { opts with SkipPolicies := true } opts rfl _ _
    have hends : ∀ w1', ((none : Option Err), w1) = (none, w1') →
        w1 = w1' := by
      intro w1' h
      simp only [Prod.mk.injEq, true_and] at h
      exact h
    have hRw : ∀ R : σ → σ → Prop, PoliciesApart V R →
        R w1.1 (if opts.SkipPolicies = true then w1
          else (restorePolicies (traced V) backup.Policies w1).2).1 := by
      intro R hR
      split
      · exact hR.same _
      · exact restorePolicies_apart hR w1.1 backup.Policies w1 (hR.same _)
    generalize (if opts.SkipPolicies = true then w1
      else (restorePolicies (traced V) backup.Policies w1).2) = w2 at hB hRw hpol
    have hC : ExtendsBy authCall w2.2
        (if opts.SkipAuth = true then w2
          else (restoreAuthMethods (traced V) opts backup.AuthMethods w2).2).2 := by
      split
      · exact ExtendsBy_refl _ _
      · exact restoreAuthMethods_log V opts backup.AuthMethods w2
    obtain ⟨C, hC, hCcat⟩ := hC
    have hCnil : opts.SkipAuth = true → C = [] := by
      intro hp
      rw [if_pos hp] at hC
      exact (List.self_eq_append_right.mp hC)
    have hC' : ExtendsBy authCall w1.2
        (if opts.SkipAuth = true then w1
          else (restoreAuthMethods (traced V) opts backup.AuthMethods w1).2).2 := by
      split
      · exact ExtendsBy_refl _ _
      · exact restoreAuthMethods_log V opts backup.AuthMethods w1
    obtain ⟨C', hC', hC'cat⟩ := hC'
    have hC'nil : opts.SkipAuth = true → C' = [] := by
      intro hp
      rw [if_pos hp] at hC'
      exact (List.self_eq_append_right.mp hC')
    have hsame : ∀ R : σ → σ → Prop, PoliciesApart V R → C' = C := by
      intro R hR
      by_cases ha : opts.SkipAuth = true
      · rw [hC'nil ha, hCnil ha]
      · rw [if_neg ha] at hC hC'
        obtain ⟨_, evs, h1, h2⟩ := restoreAuthMethods_inStep hR w1.2 w2.2 opts
          backup.AuthMethods w1 w2 ⟨hRw R hR, [], by simp, by simp⟩
        rw [hC'] at h1
        rw [hC] at h2
        rw [List.append_cancel_left h1, List.append_cancel_left h2]
    refine ⟨A, B, C, ?_, hA, hAcat, hBcat, hCcat, hBnil, hCnil, ?_, ⟨C', ?_, hC'cat, hC'nil⟩, hA,
      ?_, ?_⟩
    · rw [hC, hB, hA]
    · rw [hB, hA]
    · rw [hopt, hC', hA]
    · intro w1' h
      refine ⟨hpol w1' h, ?_⟩
      rw [hopt, hends w1' h]
    · intro R hR
      rw [hopt, hC', hA, hsame R hR]

/-- The run of `smallSnapshot` on the empty concrete server, which keeps its
policies apart from its auth methods: with `SkipPolicies` set the log is
that of the full run without its policy write, auth-method operations
included, and with `SkipAuth` set it is that of the full run without its
auth-method operations. -/
theorem Restore_skip_policies_witness :
    PoliciesApart storeAPI Store.samePolicyFree
      ∧ (∃ A B C : List Event,
          (Restore (traced storeAPI) smallSnapshot defaultOptions (Store.empty, [])).2.2
              = [] ++ A ++ B ++ C
            ∧ (Restore (traced storeAPI) smallSnapshot
                { defaultOptions with SkipPolicies := true } (Store.empty, [])).2.2
              = [] ++ A ++ C
            ∧ (Restore (traced storeAPI) smallSnapshot
                { defaultOptions with SkipAuth := true } (Store.empty, [])).2.2
              = [] ++ A ++ B)
      ∧ callsOf (Restore (traced storeAPI) smallSnapshot defaultOptions (Store.empty, [])).2.2
          = [Call.listMounts, Call.mount "secret" ⟨"kv", "", []⟩,
              Call.write "secret/db" [("pw", Value.str "x")],
              Call.putPolicy "ops" "# operators: read-only",
              Call.listAuth, Call.enableAuth "userpass" ⟨"userpass", "", []⟩,
              Call.write "auth/userpass/users/alice"
                [("password", Value.str "ChangeMe123!"), ("token_policies", Value.str "admin")],
              Call.write "auth/userpass/users/bob"
                [("token_policies", Value.str "dev"), ("password", Value.str "ChangeMe123!")]]
      ∧ callsOf (Restore (traced storeAPI) smallSnapshot
            { defaultOptions with SkipPolicies := true } (Store.empty, [])).2.2
          = [Call.listMounts, Call.mount "secret" ⟨"kv", "", []⟩,
              Call.write "secret/db" [("pw", Value.str "x")],
              Call.listAuth, Call.enableAuth "userpass" ⟨"userpass", "", []⟩,
              Call.write "auth/userpass/users/alice"
                [("password", Value.str "ChangeMe123!"), ("token_policies", Value.str "admin")],
              Call.write "auth/userpass/users/bob"
                [("token_policies", Value.str "dev"), ("password", Value.str "ChangeMe123!")]]
      ∧ callsOf (Restore (traced storeAPI) smallSnapshot
            { defaultOptions with SkipAuth := true } (Store.empty, [])).2.2
          = [Call.listMounts, Call.mount "secret" ⟨"kv", "", []⟩,
              Call.write "secret/db" [("pw", Value.str "x")],
              Call.putPolicy "ops" "# operators: read-only"] :=
  ⟨storeAPI_policiesApart, by
    obtain ⟨A, B, C, h1, _, _, _, _, _, _, h8, _, _, _, h12⟩ :=
      Restore_runs_engines_then_policies_then_auth storeAPI smallSnapshot defaultOptions
        Store.empty []
    exact ⟨A, B, C, h1, h12 _ storeAPI_policiesApart, h8⟩, rfl, rfl, rfl⟩

/-! ### Invariants of a backup

A property of the server state that every item-level call keeps is kept by
every procedure of the export that returns. -/

theorem listKeys_inv {τ : Type} (I : τ → Prop)
    (recurse : String → τ → Run (Except Err (List String) × τ)) (pfx : String)
    (hrec : ∀ p w r w', I w → recurse p w = .done (r, w') → I w') :
    ∀ (keys : List Value) (acc : List String) (w : τ) (r : Except Err (List String)) (w' : τ),
      I w → listKeys recurse pfx keys acc w = .done (r, w') → I w' := by
  intro keys
  induction keys with
  | nil =>
    intro acc w r w' hI h
    simp only [listKeys, Run.done.injEq, Prod.mk.injEq] at h
    rw [← h.2]; exact hI
  | cons key rest ih =>
    intro acc w r w' hI h
    unfold listKeys at h
    split at h
    · split at h
      · obtain ⟨x, hx, h⟩ := Run.bind_eq_done h
        obtain ⟨x1, x2⟩ := x
        have hI2 := hrec _ _ _ _ hI hx
        split at h
        · rename_i heq
          simp only [Prod.mk.injEq] at heq
          rw [← heq.2] at h
          exact ih _ _ _ _ hI2 h
        · rename_i heq
          simp only [Prod.mk.injEq] at heq
          rw [← heq.2] at h
          exact ih _ _ _ _ hI2 h
      · exact ih _ _ _ _ hI h
    · simp at h

theorem listAllPaths_inv {τ : Type} (W : API τ) (I : τ → Prop)
    (hlist : ∀ p w, I w → I (W.list p w).2) (mountPath : String) :
    ∀ (fuel : Nat) (pfx : String) (w : τ) (r : Except Err (List String)) (w' : τ),
      I w → listAllPaths W fuel mountPath pfx w = .done (r, w') → I w' := by
  intro fuel
  induction fuel with
  | zero => intro pfx w r w' _ h; simp [listAllPaths] at h
  | succ fuel ih =>
    intro pfx w r w' hI h
    have h1 := hlist (mountPath ++ pfx) w hI
    unfold listAllPaths at h
    split at h
    · rename_i heq
      rw [heq] at h1
      simp only [Run.done.injEq, Prod.mk.injEq] at h
      rw [← h.2]; exact h1
    · rename_i heq
      rw [heq] at h1
      simp only [Run.done.injEq, Prod.mk.injEq] at h
      rw [← h.2]; exact h1
    · rename_i heq
      rw [heq] at h1
      split at h
      · exact listKeys_inv I _ pfx (fun p w r w' hIw hr => ih p w r w' hIw hr) _ _ _ _ _ h1 h
      · simp only [Run.done.injEq, Prod.mk.injEq] at h
        rw [← h.2]; exact h1

theorem readVersions_inv {τ : Type} (W : API τ) (I : τ → Prop)
    (hrwd : ∀ p q w, I w → I (W.readWithData p q w).2) (mountPath path : String) :
    ∀ (n : Nat) (v : Int) (acc : List SecretVersion) (w : τ) (vs : List SecretVersion) (w' : τ),
      I w → readVersions W mountPath path n v acc w = .done (vs, w') → I w' := by
  intro n
  induction n with
  | zero =>
    intro v acc w vs w' hI h
    simp only [readVersions, Run.done.injEq, Prod.mk.injEq] at h
    rw [← h.2]; exact hI
  | succ n ih =>
    intro v acc w vs w' hI h
    have h1 := hrwd (mountPath ++ "data/" ++ path) [("version", [toString v])] w hI
    unfold readVersions at h
    split at h
    · rename_i heq; rw [heq] at h1; exact ih _ _ _ _ _ h1 h
    · rename_i heq; rw [heq] at h1; exact ih _ _ _ _ _ h1 h
    · rename_i heq
      rw [heq] at h1
      split at h
      · exact ih _ _ _ _ _ h1 h
      · split at h
        · exact ih _ _ _ _ _ h1 h
        · exact ih _ _ _ _ _ h1 h
        · simp at h

theorem backupKVv2Paths_inv {τ : Type} (W : API τ) (I : τ → Prop)
    (hread : ∀ p w, I w → I (W.read p w).2)
    (hrwd : ∀ p q w, I w → I (W.readWithData p q w).2) (mountPath : String) :
    ∀ (paths : List String) (acc : List SecretBackup) (w : τ) (r : List SecretBackup) (w' : τ),
      I w → backupKVv2Paths W mountPath paths acc w = .done (r, w') → I w' := by
  intro paths
  induction paths with
  | nil =>
    intro acc w r w' hI h
    simp only [backupKVv2Paths, Run.done.injEq, Prod.mk.injEq] at h
    rw [← h.2]; exact hI
  | cons path rest ih =>
    intro acc w r w' hI h
    have h1 := hread (mountPath ++ "metadata/" ++ path) w hI
    unfold backupKVv2Paths at h
    split at h
    · rename_i heq; rw [heq] at h1; exact ih _ _ _ _ h1 h
    · rename_i heq; rw [heq] at h1; exact ih _ _ _ _ h1 h
    · rename_i heq
      rw [heq] at h1
      simp only at h
      split at h
      · exact ih _ _ _ _ h1 h
      · obtain ⟨x, hx, h⟩ := Run.bind_eq_done h
        obtain ⟨vs, w2⟩ := x
        have h2 := readVersions_inv W I hrwd mountPath path _ _ _ _ _ _ h1
          (versionLoop_done W mountPath path _ _ _ hx).2
        split at h
        · exact ih _ _ _ _ h2 h
        · exact ih _ _ _ _ h2 h

theorem backupKVv2Secrets_inv {τ : Type} (W : API τ) (I : τ → Prop)
    (hlist : ∀ p w, I w → I (W.list p w).2)
    (hread : ∀ p w, I w → I (W.read p w).2)
    (hrwd : ∀ p q w, I w → I (W.readWithData p q w).2) (fuel : Nat) (mountPath : String)
    (w : τ) (r : Except Err (List SecretBackup)) (w' : τ) (hI : I w)
    (h : backupKVv2Secrets W fuel mountPath w = .done (r, w')) : I w' := by
  unfold backupKVv2Secrets at h
  obtain ⟨x, hx, h⟩ := Run.bind_eq_done h
  obtain ⟨x1, w1⟩ := x
  have h1 := listAllPaths_inv W I hlist mountPath fuel _ w _ _ hI hx
  cases x1 with
  | error e =>
    simp only [Run.done.injEq, Prod.mk.injEq] at h
    rw [← h.2]; exact h1
  | ok paths =>
    simp only at h
    split at h
    · simp only [Run.done.injEq, Prod.mk.injEq] at h
      rw [← h.2]; exact h1
    · obtain ⟨y, hy, h⟩ := Run.bind_eq_done h
      obtain ⟨y1, w2⟩ := y
      simp only [Run.done.injEq, Prod.mk.injEq] at h
      rw [← h.2]
      exact backupKVv2Paths_inv W I hread hrwd mountPath _ _ _ _ _ h1 hy

theorem backupKVv1Paths_inv {τ : Type} (W : API τ) (I : τ → Prop)
    (hread : ∀ p w, I w → I (W.read p w).2) (hnow : ∀ w, I w → I (W.now w).2)
    (mountPath : String) :
    ∀ (paths : List String) (acc : List SecretBackup) (w : τ),
      I w → I (backupKVv1Paths W mountPath paths acc w).2 := by
  intro paths
  induction paths with
  | nil => intro acc w hI; exact hI
  | cons path rest ih =>
    intro acc w hI
    have h1 := hread (mountPath ++ path) w hI
    unfold backupKVv1Paths
    split
    · rename_i heq; rw [heq] at h1; exact ih _ _ h1
    · rename_i heq; rw [heq] at h1; exact ih _ _ h1
    · rename_i heq
      rw [heq] at h1
      split
      · exact ih _ _ h1
      · exact ih _ _ (hnow _ h1)

theorem backupKVv1Secrets_inv {τ : Type} (W : API τ) (I : τ → Prop)
    (hlist : ∀ p w, I w → I (W.list p w).2)
    (hread : ∀ p w, I w → I (W.read p w).2) (hnow : ∀ w, I w → I (W.now w).2)
    (fuel : Nat) (mountPath : String)
    (w : τ) (r : Except Err (List SecretBackup)) (w' : τ) (hI : I w)
    (h : backupKVv1Secrets W fuel mountPath w = .done (r, w')) : I w' := by
  unfold backupKVv1Secrets at h
  obtain ⟨x, hx, h⟩ := Run.bind_eq_done h
  obtain ⟨x1, w1⟩ := x
  have h1 := listAllPaths_inv W I hlist mountPath fuel _ w _ _ hI hx
  cases x1 with
  | error e =>
    simp only [Run.done.injEq, Prod.mk.injEq] at h
    rw [← h.2]; exact h1
  | ok paths =>
    simp only [Run.done.injEq, Prod.mk.injEq] at h
    rw [← h.2]
    exact backupKVv1Paths_inv W I hread hnow mountPath _ _ _ h1

theorem backupMounts_inv {τ : Type} (W : API τ) (I : τ → Prop)
    (hlist : ∀ p w, I w → I (W.list p w).2)
    (hread : ∀ p w, I w → I (W.read p w).2)
    (hrwd : ∀ p q w, I w → I (W.readWithData p q w).2)
    (hnow : ∀ w, I w → I (W.now w).2) (fuel : Nat) (F : List String) :
    ∀ (mounts : List (String × MountOutput)) (backup : BackupData) (w : τ) (b' : BackupData)
      (w' : τ), I w → backupMounts W fuel F mounts backup w = .done (b', w') → I w' := by
  intro mounts
  induction mounts with
  | nil =>
    intro backup w b' w' hI h
    simp only [backupMounts, Run.done.injEq, Prod.mk.injEq] at h
    rw [← h.2]; exact hI
  | cons m rest ih =>
    obtain ⟨path, mount⟩ := m
    intro backup w b' w' hI h
    unfold backupMounts at h
    split at h
    · exact ih _ _ _ _ hI h
    · split at h
      · exact ih _ _ _ _ hI h
      · split at h
        · split at h
          · obtain ⟨x, hx, h⟩ := Run.bind_eq_done h
            obtain ⟨x1, w1⟩ := x
            have h1 := backupKVv2Secrets_inv W I hlist hread hrwd fuel path w _ _ hI hx
            cases x1 <;> exact ih _ _ _ _ h1 h
          · obtain ⟨x, hx, h⟩ := Run.bind_eq_done h
            obtain ⟨x1, w1⟩ := x
            have h1 := backupKVv1Secrets_inv W I hlist hread hnow fuel path w _ _ hI hx
            cases x1 <;> exact ih _ _ _ _ h1 h
        · exact ih _ _ _ _ hI h

theorem backupPolicyNames_inv {τ : Type} (W : API τ) (I : τ → Prop)
    (hget : ∀ n w, I w → I (W.getPolicy n w).2) :
    ∀ (names : List String) (backup : BackupData) (w : τ),
      I w → I (backupPolicyNames W names backup w).2 := by
  intro names
  induction names with
  | nil => intro backup w hI; exact hI
  | cons n rest ih =>
    intro backup w hI
    unfold backupPolicyNames
    split
    · exact ih _ _ hI
    · have h1 := hget n w hI
      split
      · rename_i heq; rw [heq] at h1; exact ih _ _ h1
      · rename_i heq; rw [heq] at h1; exact ih _ _ h1

theorem backupUserKeys_inv {τ : Type} (W : API τ) (I : τ → Prop)
    (hread : ∀ p w, I w → I (W.read p w).2) (listPath : String) :
    ∀ (keys : List Value) (acc : List UserBackup) (w : τ) (r : List UserBackup) (w' : τ),
      I w → backupUserKeys W listPath keys acc w = .done (r, w') → I w' := by
  intro keys
  induction keys with
  | nil =>
    intro acc w r w' hI h
    simp only [backupUserKeys, Run.done.injEq, Prod.mk.injEq] at h
    rw [← h.2]; exact hI
  | cons key rest ih =>
    intro acc w r w' hI h
    unfold backupUserKeys at h
    split at h
    · rename_i username
      have h1 := hread (listPath ++ "/" ++ username) w hI
      split at h
      · rename_i heq; rw [heq] at h1; exact ih _ _ _ _ h1 h
      · rename_i x1 w1 _ heq
        rw [heq] at h1
        exact ih _ _ _ _ h1 h
    · simp at h

theorem backupRoleKeys_inv {τ : Type} (W : API τ) (I : τ → Prop)
    (hread : ∀ p w, I w → I (W.read p w).2) (listPath : String) :
    ∀ (keys : List Value) (acc : List RoleBackup) (w : τ) (r : List RoleBackup) (w' : τ),
      I w → backupRoleKeys W listPath keys acc w = .done (r, w') → I w' := by
  intro keys
  induction keys with
  | nil =>
    intro acc w r w' hI h
    simp only [backupRoleKeys, Run.done.injEq, Prod.mk.injEq] at h
    rw [← h.2]; exact hI
  | cons key rest ih =>
    intro acc w r w' hI h
    unfold backupRoleKeys at h
    split at h
    · rename_i roleName
      have h1 := hread (listPath ++ "/" ++ roleName) w hI
      split at h
      · rename_i heq; rw [heq] at h1; exact ih _ _ _ _ h1 h
      · rename_i x1 w1 _ heq
        rw [heq] at h1
        exact ih _ _ _ _ h1 h
    · simp at h

theorem backupUserpassUsers_inv {τ : Type} (W : API τ) (I : τ → Prop)
    (hlist : ∀ p w, I w → I (W.list p w).2)
    (hread : ∀ p w, I w → I (W.read p w).2) (authPath : String)
    (w : τ) (r : Except Err (List UserBackup)) (w' : τ) (hI : I w)
    (h : backupUserpassUsers W authPath w = .done (r, w')) : I w' := by
  have h1 := hlist ("auth/" ++ TrimSuffix authPath "/" ++ "/users") w hI
  unfold backupUserpassUsers at h
  simp only at h
  split at h
  · rename_i heq
    rw [heq] at h1
    split at h
    · obtain ⟨x, hx, h⟩ := Run.bind_eq_done h
      simp only [Run.done.injEq, Prod.mk.injEq] at h
      rw [← h.2]
      exact backupUserKeys_inv W I hread _ _ _ _ _ _ h1 hx
    · simp only [Run.done.injEq, Prod.mk.injEq] at h
      rw [← h.2]; exact h1
  · rename_i x1 w1 _ heq
    rw [heq] at h1
    simp only [Run.done.injEq, Prod.mk.injEq] at h
    rw [← h.2]; exact h1

theorem backupLDAPUsers_inv {τ : Type} (W : API τ) (I : τ → Prop)
    (hlist : ∀ p w, I w → I (W.list p w).2)
    (hread : ∀ p w, I w → I (W.read p w).2) (authPath : String)
    (w : τ) (r : Except Err (List UserBackup)) (w' : τ) (hI : I w)
    (h : backupLDAPUsers W authPath w = .done (r, w')) : I w' := by
  have h1 := hlist ("auth/" ++ TrimSuffix authPath "/" ++ "/users") w hI
  unfold backupLDAPUsers at h
  simp only at h
  split at h
  · rename_i heq
    rw [heq] at h1
    split at h
    · obtain ⟨x, hx, h⟩ := Run.bind_eq_done h
      simp only [Run.done.injEq, Prod.mk.injEq] at h
      rw [← h.2]
      exact backupUserKeys_inv W I hread _ _ _ _ _ _ h1 hx
    · simp only [Run.done.injEq, Prod.mk.injEq] at h
      rw [← h.2]; exact h1
  · rename_i x1 w1 _ heq
    rw [heq] at h1
    simp only [Run.done.injEq, Prod.mk.injEq] at h
    rw [← h.2]; exact h1

theorem backupAppRoles_inv {τ : Type} (W : API τ) (I : τ → Prop)
    (hlist : ∀ p w, I w → I (W.list p w).2)
    (hread : ∀ p w, I w → I (W.read p w).2) (authPath : String)
    (w : τ) (r : Except Err (List RoleBackup)) (w' : τ) (hI : I w)
    (h : backupAppRoles W authPath w = .done (r, w')) : I w' := by
  have h1 := hlist ("auth/" ++ TrimSuffix authPath "/" ++ "/role") w hI
  unfold backupAppRoles at h
  simp only at h
  split at h
  · rename_i heq
    rw [heq] at h1
    split at h
    · obtain ⟨x, hx, h⟩ := Run.bind_eq_done h
      simp only [Run.done.injEq, Prod.mk.injEq] at h
      rw [← h.2]
      exact backupRoleKeys_inv W I hread _ _ _ _ _ _ h1 hx
    · simp only [Run.done.injEq, Prod.mk.injEq] at h
      rw [← h.2]; exact h1
  · rename_i x1 w1 _ heq
    rw [heq] at h1
    simp only [Run.done.injEq, Prod.mk.injEq] at h
    rw [← h.2]; exact h1

theorem backupAuthMounts_inv {τ : Type} (W : API τ) (I : τ → Prop)
    (hlist : ∀ p w, I w → I (W.list p w).2)
    (hread : ∀ p w, I w → I (W.read p w).2) :
    ∀ (auths : List (String × AuthMount)) (backup : BackupData) (w : τ) (b' : BackupData)
      (w' : τ), I w → backupAuthMounts W auths backup w = .done (b', w') → I w' := by
  intro auths
  induction auths with
  | nil =>
    intro backup w b' w' hI h
    simp only [backupAuthMounts, Run.done.injEq, Prod.mk.injEq] at h
    rw [← h.2]; exact hI
  | cons m rest ih =>
    obtain ⟨path, auth⟩ := m
    intro backup w b' w' hI h
    unfold backupAuthMounts at h
    split at h
    · exact ih _ _ _ _ hI h
    · split at h
      · obtain ⟨x, hx, h⟩ := Run.bind_eq_done h
        obtain ⟨x1, w1⟩ := x
        have h1 := backupUserpassUsers_inv W I hlist hread path w _ _ hI hx
        cases x1 <;> exact ih _ _ _ _ h1 h
      · split at h
        · obtain ⟨x, hx, h⟩ := Run.bind_eq_done h
          obtain ⟨x1, w1⟩ := x
          have h1 := backupAppRoles_inv W I hlist hread path w _ _ hI hx
          cases x1 <;> exact ih _ _ _ _ h1 h
        · split at h
          · obtain ⟨x, hx, h⟩ := Run.bind_eq_done h
            obtain ⟨x1, w1⟩ := x
            have h1 := backupLDAPUsers_inv W I hlist hread path w _ _ hI hx
            cases x1 <;> exact ih _ _ _ _ h1 h
          · exact ih _ _ _ _ hI h

/-! ### The log of a backup -/

theorem traced_health {σ : Type} (V : API σ) (w : σ × List Event) :
    (traced V).health w
      = ((V.health w.1).1, (V.health w.1).2, w.2 ++ [⟨Call.health, failedE (V.health w.1).1⟩]) :=
  rfl

theorem traced_now {σ : Type} (V : API σ) (w : σ × List Event) :
    (traced V).now w = ((V.now w.1).1, (V.now w.1).2, w.2) := rfl

theorem traced_listPolicies {σ : Type} (V : API σ) (w : σ × List Event) :
    (traced V).listPolicies w
      = ((V.listPolicies w.1).1, (V.listPolicies w.1).2,
          w.2 ++ [⟨Call.listPolicies, failedE (V.listPolicies w.1).1⟩]) := rfl

theorem traced_getPolicy {σ : Type} (V : API σ) (n : String) (w : σ × List Event) :
    (traced V).getPolicy n w
      = ((V.getPolicy n w.1).1, (V.getPolicy n w.1).2,
          w.2 ++ [⟨Call.getPolicy n, failedE (V.getPolicy n w.1).1⟩]) := rfl

theorem traced_read {σ : Type} (V : API σ) (p : String) (w : σ × List Event) :
    (traced V).read p w
      = ((V.read p w.1).1, (V.read p w.1).2, w.2 ++ [⟨Call.read p, failedE (V.read p w.1).1⟩]) :=
  rfl

theorem traced_readWithData {σ : Type} (V : API σ) (p : String) (q : List (String × List String))
    (w : σ × List Event) :
    (traced V).readWithData p q w
      = ((V.readWithData p q w.1).1, (V.readWithData p q w.1).2,
          w.2 ++ [⟨Call.readWithData p q, failedE (V.readWithData p q w.1).1⟩]) := rfl

theorem traced_list {σ : Type} (V : API σ) (p : String) (w : σ × List Event) :
    (traced V).list p w
      = ((V.list p w.1).1, (V.list p w.1).2, w.2 ++ [⟨Call.list p, failedE (V.list p w.1).1⟩]) :=
  rfl

theorem NoTopFailure_snoc {log : List Event} (h : NoTopFailure log) (ev : Event)
    (hev : topListing ev.call = true → ev.failed = false) : NoTopFailure (log ++ [ev]) := by
  intro e he
  rcases List.mem_append.mp he with h1 | h1
  · exact h e h1
  · rw [List.mem_singleton.mp h1]; exact hev

theorem failedE_ok {α : Type} {x : Except Err α} {a : α} (h : x = .ok a) : failedE x = false := by
  rw [h]; rfl

theorem failedE_error {α : Type} {x : Except Err α} {e : Err} (h : x = .error e) :
    failedE x = true := by
  rw [h]; rfl

/-- The item-level calls keep `NoTopFailure`. -/
theorem NoTopFailure_items {σ : Type} (V : API σ) :
    (∀ p (w : σ × List Event), NoTopFailure w.2 → NoTopFailure ((traced V).list p w).2.2)
      ∧ (∀ p (w : σ × List Event), NoTopFailure w.2 → NoTopFailure ((traced V).read p w).2.2)
      ∧ (∀ p q (w : σ × List Event),
          NoTopFailure w.2 → NoTopFailure ((traced V).readWithData p q w).2.2)
      ∧ (∀ (w : σ × List Event), NoTopFailure w.2 → NoTopFailure ((traced V).now w).2.2)
      ∧ (∀ n (w : σ × List Event), NoTopFailure w.2 → NoTopFailure ((traced V).getPolicy n w).2.2) :=
  ⟨fun _ _ h => NoTopFailure_snoc h _ (by simp [topListing]), fun _ _ h => NoTopFailure_snoc h _ (by simp [topListing]),
    fun _ _ _ h => NoTopFailure_snoc h _ (by simp [topListing]), fun _ h => h,
    fun _ _ h => NoTopFailure_snoc h _ (by simp [topListing])⟩

theorem backupSecretEngines_outcome {σ : Type} (V : API σ) (fuel : Nat) (backup : BackupData)
    (F : List String) (w : σ × List Event) (r : Except Err BackupData) (w' : σ × List Event)
    (hI : NoTopFailure w.2)
    (h : backupSecretEngines (traced V) fuel backup F w = .done (r, w')) :
    PhaseOutcome r w'.2 := by
  obtain ⟨hl, hr, hq, hn, _⟩ := NoTopFailure_items V
  unfold backupSecretEngines at h
  rw [traced_listMounts] at h
  split at h
  · rename_i err w1 heq
    simp only [Prod.mk.injEq] at heq
    simp only [Run.done.injEq, Prod.mk.injEq] at h
    rw [← h.1, ← h.2, ← heq.2]
    exact ⟨_, List.mem_append_right _ (List.mem_singleton_self _), failedE_error heq.1, rfl⟩
  · rename_i mounts w1 heq
    simp only [Prod.mk.injEq] at heq
    obtain ⟨x, hx, h⟩ := Run.bind_eq_done h
    simp only [Run.done.injEq, Prod.mk.injEq] at h
    rw [← h.1, ← h.2]
    have h1 : NoTopFailure w1.2 := by
      rw [← heq.2]
      exact NoTopFailure_snoc hI _ (fun _ => failedE_ok heq.1)
    exact backupMounts_inv (traced V) (fun w => NoTopFailure w.2) hl hr hq hn fuel F _ _ _ _ _
      h1 hx

theorem backupPolicies_outcome {σ : Type} (V : API σ) (backup : BackupData)
    (w : σ × List Event) (hI : NoTopFailure w.2) :
    PhaseOutcome (backupPolicies (traced V) backup w).1 (backupPolicies (traced V) backup w).2.2 := by
  obtain ⟨_, _, _, _, hg⟩ := NoTopFailure_items V
  unfold backupPolicies
  rw [traced_listPolicies]
  split
  · rename_i err w1 heq
    simp only [Prod.mk.injEq] at heq
    rw [← heq.2]
    exact ⟨_, List.mem_append_right _ (List.mem_singleton_self _), failedE_error heq.1, rfl⟩
  · rename_i names w1 heq
    simp only [Prod.mk.injEq] at heq
    have h1 : NoTopFailure w1.2 := by
      rw [← heq.2]
      exact NoTopFailure_snoc hI _ (fun _ => failedE_ok heq.1)
    exact backupPolicyNames_inv (traced V) (fun w => NoTopFailure w.2) hg _ _ _ h1

theorem backupAuthMethods_outcome {σ : Type} (V : API σ) (backup : BackupData)
    (w : σ × List Event) (r : Except Err BackupData) (w' : σ × List Event)
    (hI : NoTopFailure w.2)
    (h : backupAuthMethods (traced V) backup w = .done (r, w')) :
    PhaseOutcome r w'.2 := by
  obtain ⟨hl, hr, _, _, _⟩ := NoTopFailure_items V
  unfold backupAuthMethods at h
  rw [traced_listAuth] at h
  split at h
  · rename_i err w1 heq
    simp only [Prod.mk.injEq] at heq
    simp only [Run.done.injEq, Prod.mk.injEq] at h
    rw [← h.1, ← h.2, ← heq.2]
    exact ⟨_, List.mem_append_right _ (List.mem_singleton_self _), failedE_error heq.1, rfl⟩
  · rename_i auths w1 heq
    simp only [Prod.mk.injEq] at heq
    obtain ⟨x, hx, h⟩ := Run.bind_eq_done h
    simp only [Run.done.injEq, Prod.mk.injEq] at h
    rw [← h.1, ← h.2]
    have h1 : NoTopFailure w1.2 := by
      rw [← heq.2]
      exact NoTopFailure_snoc hI _ (fun _ => failedE_ok heq.1)
    exact backupAuthMounts_inv (traced V) (fun w => NoTopFailure w.2) hl hr _ _ _ _ _ h1 hx

theorem Backup_outcome {σ : Type} (V : API σ) (fuel : Nat) (engines : List String) (s : σ)
    (r : Except Err BackupData) (w' : σ × List Event)
    (h : Backup (traced V) fuel engines (s, []) = .done (r, w')) : PhaseOutcome r w'.2 := by
  unfold Backup at h
  simp only [traced_now, traced_health] at h
  obtain ⟨x1, hx1, h⟩ := Run.bind_eq_done h
  obtain ⟨r1, w1⟩ := x1
  have h0 : NoTopFailure ([] ++ [(⟨Call.health, failedE (V.health (V.now s).2).1⟩ : Event)]) :=
    NoTopFailure_snoc (by intro e he; simp at he) _ (by simp [topListing])
  have o1 := backupSecretEngines_outcome V fuel _ engines _ r1 w1 h0 hx1
  cases r1 with
  | error e =>
    simp only [Run.done.injEq, Prod.mk.injEq] at h
    rw [← h.1, ← h.2]; exact o1
  | ok b1 =>
    simp only at h
    have o2 := backupPolicies_outcome V b1 w1 o1
    generalize backupPolicies (traced V) b1 w1 = x2 at h o2
    obtain ⟨r2, w2⟩ := x2
    cases r2 with
    | error e =>
      simp only [Run.done.injEq, Prod.mk.injEq] at h
      rw [← h.1, ← h.2]; exact o2
    | ok b2 =>
      simp only at h
      obtain ⟨x3, hx3, h⟩ := Run.bind_eq_done h
      obtain ⟨r3, w3⟩ := x3
      have o3 := backupAuthMethods_outcome V b2 w2 r3 w3 o2 hx3
      cases r3 with
      | error e =>
        simp only [Run.done.injEq, Prod.mk.injEq] at h
        rw [← h.1, ← h.2]; exact o3
      | ok b3 =>
        simp only [Run.done.injEq, Prod.mk.injEq] at h
        rw [← h.1, ← h.2]; exact o3

/-! ### The export returns -/

theorem listKeys_returns {τ : Type} (Inv : τ → Prop)
    (recurse : String → τ → Run (Except Err (List String) × τ)) (pfx : String) :
    ∀ (keys : List Value),
      (∀ k ∈ keys, ∃ t, k = Value.str t ∧ (HasSuffix t "/" = true →
        ∀ w, Inv w → ∃ r w', recurse (pfx ++ t) w = .done (r, w') ∧ Inv w')) →
      ∀ (acc : List String) (w : τ), Inv w →
        ∃ r w', listKeys recurse pfx keys acc w = .done (r, w') ∧ Inv w' := by
  intro keys
  induction keys with
  | nil => intro _ acc w hI; exact ⟨_, _, rfl, hI⟩
  | cons key rest ih =>
    intro hk acc w hI
    obtain ⟨t, rfl, hrec⟩ := hk key (List.mem_cons_self _ _)
    have ih' := ih (fun k hk' => hk k (List.mem_cons_of_mem _ hk'))
    unfold listKeys
    simp only
    split
    · rename_i hsuf
      obtain ⟨r, w1, hr, hI1⟩ := hrec hsuf w hI
      rw [hr, Run.bind_done]
      cases r with
      | ok subPaths => exact ih' _ _ hI1
      | error e => exact ih' _ _ hI1
    · exact ih' _ _ hI

theorem listAllPaths_returns {τ : Type} (W : API τ) (Inv : τ → Prop) (rank : String → Nat)
    (hW : ReadsWell W Inv rank) (mountPath : String) :
    ∀ (fuel : Nat) (pfx : String) (w : τ), Inv w → rank (mountPath ++ pfx) < fuel →
      ∃ r w', listAllPaths W fuel mountPath pfx w = .done (r, w') ∧ Inv w' := by
  intro fuel
  induction fuel with
  | zero => intro pfx w _ h; omega
  | succ fuel ih =>
    intro pfx w hI hrank
    have h1 := hW.list_keeps (mountPath ++ pfx) w hI
    unfold listAllPaths
    split
    · rename_i heq; rw [heq] at h1; exact ⟨_, _, rfl, h1⟩
    · rename_i heq; rw [heq] at h1; exact ⟨_, _, rfl, h1⟩
    · rename_i resp w1 heq
      rw [heq] at h1
      split
      · rename_i keys hkeys
        apply listKeys_returns Inv _ pfx keys _ _ _ h1
        intro k hk
        obtain ⟨t, rfl⟩ := hW.keys_strings _ _ _ _ _ hI heq hkeys k hk
        refine ⟨t, rfl, ?_⟩
        intro hsuf w2 hI2
        have := hW.rank_decreases _ _ _ _ _ t hI heq hkeys hk hsuf
        apply ih _ _ hI2
        rw [← String.append_assoc]
        omega
      · exact ⟨_, _, rfl, h1⟩

theorem readVersions_returns {τ : Type} (W : API τ) (Inv : τ → Prop) (rank : String → Nat)
    (hW : ReadsWell W Inv rank) (mountPath path : String) :
    ∀ (n : Nat) (v : Int) (acc : List SecretVersion) (w : τ), Inv w →
      ∃ r w', readVersions W mountPath path n v acc w = .done (r, w') ∧ Inv w' := by
  intro n
  induction n with
  | zero => intro v acc w hI; exact ⟨_, _, rfl, hI⟩
  | succ n ih =>
    intro v acc w hI
    have h1 := hW.readWithData_keeps (mountPath ++ "data/" ++ path) [("version", [toString v])] w hI
    unfold readVersions
    split
    · rename_i heq; rw [heq] at h1; exact ih _ _ _ h1
    · rename_i heq; rw [heq] at h1; exact ih _ _ _ h1
    · rename_i resp w1 heq
      rw [heq] at h1
      split
      · exact ih _ _ _ h1
      · rename_i d hd
        rcases hW.version_data _ _ _ _ _ d hI heq hd with h0 | ⟨o, h0⟩
        · rw [h0]; exact ih _ _ _ h1
        · rw [h0]; exact ih _ _ _ h1

theorem backupKVv2Paths_returns {τ : Type} (W : API τ) (Inv : τ → Prop) (rank : String → Nat)
    (hW : ReadsWell W Inv rank) (mountPath : String) :
    ∀ (paths : List String) (acc : List SecretBackup) (w : τ), Inv w →
      ∃ r w', backupKVv2Paths W mountPath paths acc w = .done (r, w') ∧ Inv w' := by
  intro paths
  induction paths with
  | nil => intro acc w hI; exact ⟨_, _, rfl, hI⟩
  | cons path rest ih =>
    intro acc w hI
    have h1 := hW.read_keeps (mountPath ++ "metadata/" ++ path) w hI
    unfold backupKVv2Paths
    split
    · rename_i heq; rw [heq] at h1; exact ih _ _ h1
    · rename_i heq; rw [heq] at h1; exact ih _ _ h1
    · rename_i resp w1 heq
      rw [heq] at h1
      simp only
      split
      · exact ih _ _ h1
      · obtain ⟨vs, w2, hv, h2⟩ := readVersions_returns W Inv rank hW mountPath path
          (metadataOf W.parseTime resp).CurrentVersion.toNat 1 [] w1 h1
        have hcount := hW.version_count _ _ _ _ hI heq
        have hloop : versionLoop W mountPath path (metadataOf W.parseTime resp).CurrentVersion w1
            = .done (vs, w2) := by
          unfold versionLoop
          rw [if_neg (by omega), hv]
        rw [hloop, Run.bind_done]
        simp only
        split
        · exact ih _ _ h2
        · exact ih _ _ h2

theorem backupKVv2Secrets_returns {τ : Type} (W : API τ) (Inv : τ → Prop) (rank : String → Nat)
    (hW : ReadsWell W Inv rank) (fuel : Nat) (hfuel : ∀ p, rank p < fuel) (mountPath : String)
    (w : τ) (hI : Inv w) :
    ∃ r w', backupKVv2Secrets W fuel mountPath w = .done (r, w') ∧ Inv w' := by
  obtain ⟨r, w1, hr, h1⟩ := listAllPaths_returns W Inv rank hW mountPath fuel "metadata/" w hI
    (hfuel _)
  unfold backupKVv2Secrets
  rw [hr, Run.bind_done]
  cases r with
  | error e => exact ⟨_, _, rfl, h1⟩
  | ok paths =>
    simp only
    split
    · exact ⟨_, _, rfl, h1⟩
    · obtain ⟨x, w2, hx, h2⟩ := backupKVv2Paths_returns W Inv rank hW mountPath paths [] w1 h1
      rw [hx, Run.bind_done]
      exact ⟨_, _, rfl, h2⟩

theorem backupKVv1Secrets_returns {τ : Type} (W : API τ) (Inv : τ → Prop) (rank : String → Nat)
    (hW : ReadsWell W Inv rank) (fuel : Nat) (hfuel : ∀ p, rank p < fuel) (mountPath : String)
    (w : τ) (hI : Inv w) :
    ∃ r w', backupKVv1Secrets W fuel mountPath w = .done (r, w') ∧ Inv w' := by
  obtain ⟨r, w1, hr, h1⟩ := listAllPaths_returns W Inv rank hW mountPath fuel "" w hI (hfuel _)
  unfold backupKVv1Secrets
  rw [hr, Run.bind_done]
  cases r with
  | error e => exact ⟨_, _, rfl, h1⟩
  | ok paths =>
    exact ⟨_, _, rfl, backupKVv1Paths_inv W Inv hW.read_keeps hW.now_keeps mountPath _ _ _ h1⟩

theorem backupMounts_returns {τ : Type} (W : API τ) (Inv : τ → Prop) (rank : String → Nat)
    (hW : ReadsWell W Inv rank) (fuel : Nat) (hfuel : ∀ p, rank p < fuel) (F : List String) :
    ∀ (mounts : List (String × MountOutput)) (backup : BackupData) (w : τ), Inv w →
      ∃ r w', backupMounts W fuel F mounts backup w = .done (r, w') ∧ Inv w' := by
  intro mounts
  induction mounts with
  | nil => intro backup w hI; exact ⟨_, _, rfl, hI⟩
  | cons m rest ih =>
    obtain ⟨path, mount⟩ := m
    intro backup w hI
    unfold backupMounts
    split
    · exact ih _ _ hI
    · split
      · exact ih _ _ hI
      · split
        · split
          · obtain ⟨r, w1, hr, h1⟩ := backupKVv2Secrets_returns W Inv rank hW fuel hfuel path w hI
            rw [hr, Run.bind_done]
            cases r <;> exact ih _ _ h1
          · obtain ⟨r, w1, hr, h1⟩ := backupKVv1Secrets_returns W Inv rank hW fuel hfuel path w hI
            rw [hr, Run.bind_done]
            cases r <;> exact ih _ _ h1
        · exact ih _ _ hI

theorem backupUserKeys_returns {τ : Type} (W : API τ) (Inv : τ → Prop)
    (hread : ∀ p w, Inv w → Inv (W.read p w).2) (listPath : String) :
    ∀ (keys : List Value), (∀ k ∈ keys, ∃ t, k = Value.str t) →
      ∀ (acc : List UserBackup) (w : τ), Inv w →
        ∃ r w', backupUserKeys W listPath keys acc w = .done (r, w') ∧ Inv w' := by
  intro keys
  induction keys with
  | nil => intro _ acc w hI; exact ⟨_, _, rfl, hI⟩
  | cons key rest ih =>
    intro hk acc w hI
    obtain ⟨t, rfl⟩ := hk key (List.mem_cons_self _ _)
    have ih' := ih (fun k hk' => hk k (List.mem_cons_of_mem _ hk'))
    have h1 := hread (listPath ++ "/" ++ t) w hI
    unfold backupUserKeys
    simp only
    split
    · rename_i heq; rw [heq] at h1; exact ih' _ _ h1
    · rename_i x1 w1 _ heq
      rw [heq] at h1
      exact ih' _ _ h1

theorem backupRoleKeys_returns {τ : Type} (W : API τ) (Inv : τ → Prop)
    (hread : ∀ p w, Inv w → Inv (W.read p w).2) (listPath : String) :
    ∀ (keys : List Value), (∀ k ∈ keys, ∃ t, k = Value.str t) →
      ∀ (acc : List RoleBackup) (w : τ), Inv w →
        ∃ r w', backupRoleKeys W listPath keys acc w = .done (r, w') ∧ Inv w' := by
  intro keys
  induction keys with
  | nil => intro _ acc w hI; exact ⟨_, _, rfl, hI⟩
  | cons key rest ih =>
    intro hk acc w hI
    obtain ⟨t, rfl⟩ := hk key (List.mem_cons_self _ _)
    have ih' := ih (fun k hk' => hk k (List.mem_cons_of_mem _ hk'))
    have h1 := hread (listPath ++ "/" ++ t) w hI
    unfold backupRoleKeys
    simp only
    split
    · rename_i heq; rw [heq] at h1; exact ih' _ _ h1
    · rename_i x1 w1 _ heq
      rw [heq] at h1
      exact ih' _ _ h1

theorem backupUserpassUsers_returns {τ : Type} (W : API τ) (Inv : τ → Prop)
    (hlist : ∀ p w, Inv w → Inv (W.list p w).2) (hread : ∀ p w, Inv w → Inv (W.read p w).2)
    (hkeys : ∀ p w resp w' keys, Inv w → W.list p w = (.ok (some resp), w') →
      index (resp.Data.getD []) "keys" = Value.arr keys → ∀ k ∈ keys, ∃ t, k = Value.str t)
    (authPath : String) (w : τ) (hI : Inv w) :
    ∃ r w', backupUserpassUsers W authPath w = .done (r, w') ∧ Inv w' := by
  have h1 := hlist ("auth/" ++ TrimSuffix authPath "/" ++ "/users") w hI
  unfold backupUserpassUsers
  simp only
  split
  · rename_i resp w1 heq
    rw [heq] at h1
    split
    · rename_i keys hk
      obtain ⟨x, w2, hx, h2⟩ := backupUserKeys_returns W Inv hread _ keys
        (hkeys _ _ _ _ _ hI heq hk) [] w1 h1
      rw [hx, Run.bind_done]
      exact ⟨_, _, rfl, h2⟩
    · exact ⟨_, _, rfl, h1⟩
  · rename_i x1 w1 _ heq
    rw [heq] at h1
    exact ⟨_, _, rfl, h1⟩

theorem backupLDAPUsers_returns {τ : Type} (W : API τ) (Inv : τ → Prop)
    (hlist : ∀ p w, Inv w → Inv (W.list p w).2) (hread : ∀ p w, Inv w → Inv (W.read p w).2)
    (hkeys : ∀ p w resp w' keys, Inv w → W.list p w = (.ok (some resp), w') →
      index (resp.Data.getD []) "keys" = Value.arr keys → ∀ k ∈ keys, ∃ t, k = Value.str t)
    (authPath : String) (w : τ) (hI : Inv w) :
    ∃ r w', backupLDAPUsers W authPath w = .done (r, w') ∧ Inv w' := by
  have h1 := hlist ("auth/" ++ TrimSuffix authPath "/" ++ "/users") w hI
  unfold backupLDAPUsers
  simp only
  split
  · rename_i resp w1 heq
    rw [heq] at h1
    split
    · rename_i keys hk
      obtain ⟨x, w2, hx, h2⟩ := backupUserKeys_returns W Inv hread _ keys
        (hkeys _ _ _ _ _ hI heq hk) [] w1 h1
      rw [hx, Run.bind_done]
      exact ⟨_, _, rfl, h2⟩
    · exact ⟨_, _, rfl, h1⟩
  · rename_i x1 w1 _ heq
    rw [heq] at h1
    exact ⟨_, _, rfl, h1⟩

theorem backupAppRoles_returns {τ : Type} (W : API τ) (Inv : τ → Prop)
    (hlist : ∀ p w, Inv w → Inv (W.list p w).2) (hread : ∀ p w, Inv w → Inv (W.read p w).2)
    (hkeys : ∀ p w resp w' keys, Inv w → W.list p w = (.ok (some resp), w') →
      index (resp.Data.getD []) "keys" = Value.arr keys → ∀ k ∈ keys, ∃ t, k = Value.str t)
    (authPath : String) (w : τ) (hI : Inv w) :
    ∃ r w', backupAppRoles W authPath w = .done (r, w') ∧ Inv w' := by
  have h1 := hlist ("auth/" ++ TrimSuffix authPath "/" ++ "/role") w hI
  unfold backupAppRoles
  simp only
  split
  · rename_i resp w1 heq
    rw [heq] at h1
    split
    · rename_i keys hk
      obtain ⟨x, w2, hx, h2⟩ := backupRoleKeys_returns W Inv hread _ keys
        (hkeys _ _ _ _ _ hI heq hk) [] w1 h1
      rw [hx, Run.bind_done]
      exact ⟨_, _, rfl, h2⟩
    · exact ⟨_, _, rfl, h1⟩
  · rename_i x1 w1 _ heq
    rw [heq] at h1
    exact ⟨_, _, rfl, h1⟩

theorem backupAuthMounts_returns {τ : Type} (W : API τ) (Inv : τ → Prop)
    (hlist : ∀ p w, Inv w → Inv (W.list p w).2) (hread : ∀ p w, Inv w → Inv (W.read p w).2)
    (hkeys : ∀ p w resp w' keys, Inv w → W.list p w = (.ok (some resp), w') →
      index (resp.Data.getD []) "keys" = Value.arr keys → ∀ k ∈ keys, ∃ t, k = Value.str t) :
    ∀ (auths : List (String × AuthMount)) (backup : BackupData) (w : τ), Inv w →
      ∃ r w', backupAuthMounts W auths backup w = .done (r, w') ∧ Inv w' := by
  intro auths
  induction auths with
  | nil => intro backup w hI; exact ⟨_, _, rfl, hI⟩
  | cons m rest ih =>
    obtain ⟨path, auth⟩ := m
    intro backup w hI
    unfold backupAuthMounts
    split
    · exact ih _ _ hI
    · split
      · obtain ⟨r, w1, hr, h1⟩ := backupUserpassUsers_returns W Inv hlist hread hkeys path w hI
        rw [hr, Run.bind_done]
        cases r <;> exact ih _ _ h1
      · split
        · obtain ⟨r, w1, hr, h1⟩ := backupAppRoles_returns W Inv hlist hread hkeys path w hI
          rw [hr, Run.bind_done]
          cases r <;> exact ih _ _ h1
        · split
          · obtain ⟨r, w1, hr, h1⟩ := backupLDAPUsers_returns W Inv hlist hread hkeys path w hI
            rw [hr, Run.bind_done]
            cases r <;> exact ih _ _ h1
          · exact ih _ _ hI

theorem backupSecretEngines_returns {τ : Type} (W : API τ) (Inv : τ → Prop)
    (rank : String → Nat) (hW : ReadsWell W Inv rank) (fuel : Nat) (hfuel : ∀ p, rank p < fuel)
    (backup : BackupData) (F : List String) (w : τ) (hI : Inv w) :
    ∃ r w', backupSecretEngines W fuel backup F w = .done (r, w') ∧ Inv w' := by
  have h1 := hW.listMounts_keeps w hI
  unfold backupSecretEngines
  split
  · rename_i heq; rw [heq] at h1; exact ⟨_, _, rfl, h1⟩
  · rename_i mounts w1 heq
    rw [heq] at h1
    obtain ⟨b1, w2, hb1, h2⟩ := backupMounts_returns W Inv rank hW fuel hfuel F mounts backup w1 h1
    rw [hb1, Run.bind_done]
    exact ⟨_, _, rfl, h2⟩

theorem backupPolicies_keeps {τ : Type} (W : API τ) (Inv : τ → Prop)
    (hl : ∀ w, Inv w → Inv (W.listPolicies w).2) (hg : ∀ n w, Inv w → Inv (W.getPolicy n w).2)
    (backup : BackupData) (w : τ) (hI : Inv w) : Inv (backupPolicies W backup w).2 := by
  have h1 := hl w hI
  unfold backupPolicies
  split
  · rename_i heq; rw [heq] at h1; exact h1
  · rename_i heq
    rw [heq] at h1
    exact backupPolicyNames_inv W Inv hg _ _ _ h1

theorem backupAuthMethods_returns {τ : Type} (W : API τ) (Inv : τ → Prop)
    (hauth : ∀ w, Inv w → Inv (W.listAuth w).2)
    (hlist : ∀ p w, Inv w → Inv (W.list p w).2) (hread : ∀ p w, Inv w → Inv (W.read p w).2)
    (hkeys : ∀ p w resp w' keys, Inv w → W.list p w = (.ok (some resp), w') →
      index (resp.Data.getD []) "keys" = Value.arr keys → ∀ k ∈ keys, ∃ t, k = Value.str t)
    (backup : BackupData) (w : τ)
    (hI : Inv w) : ∃ r w', backupAuthMethods W backup w = .done (r, w') ∧ Inv w' := by
  have h1 := hauth w hI
  unfold backupAuthMethods
  split
  · rename_i heq; rw [heq] at h1; exact ⟨_, _, rfl, h1⟩
  · rename_i auths w1 heq
    rw [heq] at h1
    obtain ⟨b1, w2, hb1, h2⟩ := backupAuthMounts_returns W Inv hlist hread hkeys auths backup w1 h1
    rw [hb1, Run.bind_done]
    exact ⟨_, _, rfl, h2⟩

/-- On a server that reads well, with fuel above every rank, `Backup` returns. -/
theorem Backup_returns {τ : Type} (W : API τ) (Inv : τ → Prop) (rank : String → Nat)
    (hW : ReadsWell W Inv rank) (fuel : Nat) (hfuel : ∀ p, rank p < fuel)
    (engines : List String) (w : τ) (hI : Inv w) :
    ∃ r w', Backup W fuel engines w = .done (r, w') := by
  have h0 := hW.health_keeps _ (hW.now_keeps w hI)
  have key : ∀ b0 : BackupData, ∃ r w',
      ((backupSecretEngines W fuel b0 engines (W.health (W.now w).2).2).bind fun r1 =>
        match r1 with
        | (.error err, s1) =>
          Run.done (Except.error ("failed to backup secret engines: " ++ err), s1)
        | (.ok backup, s1) =>
          match backupPolicies W backup s1 with
          | (.error err, s2) => Run.done (Except.error ("failed to backup policies: " ++ err), s2)
          | (.ok backup, s2) =>
            (backupAuthMethods W backup s2).bind fun r3 =>
              match r3 with
              | (.error err, s3) =>
                Run.done (Except.error ("failed to backup auth methods: " ++ err), s3)
              | (.ok backup, s3) => Run.done (Except.ok backup, s3)) = .done (r, w') := by
    intro b0
    obtain ⟨r1, w1, hr1, h1⟩ := backupSecretEngines_returns W Inv rank hW fuel hfuel b0 engines
      _ h0
    rw [hr1, Run.bind_done]
    cases r1 with
    | error e => exact ⟨_, _, rfl⟩
    | ok b1 =>
      simp only
      have h2 := backupPolicies_keeps W Inv hW.listPolicies_keeps hW.getPolicy_keeps b1 w1 h1
      generalize backupPolicies W b1 w1 = x2 at h2
      obtain ⟨r2, w2⟩ := x2
      cases r2 with
      | error e => exact ⟨_, _, rfl⟩
      | ok b2 =>
        simp only
        obtain ⟨r3, w3, hr3, _⟩ := backupAuthMethods_returns W Inv hW.listAuth_keeps hW.list_keeps hW.read_keeps
          hW.keys_strings b2 w2 h2
        rw [hr3, Run.bind_done]
        cases r3 with
        | error e => exact ⟨_, _, rfl⟩
        | ok b3 => exact ⟨_, _, rfl⟩
  exact key _

/-- The logging server reads well when the server does. -/
theorem ReadsWell_traced {σ : Type} {V : API σ} {Inv : σ → Prop} {rank : String → Nat}
    (h : ReadsWell V Inv rank) :
    ReadsWell (traced V) (fun w => Inv w.1) rank where
  now_keeps := fun w hI => h.now_keeps w.1 hI
  health_keeps := fun w hI => h.health_keeps w.1 hI
  listMounts_keeps := fun w hI => h.listMounts_keeps w.1 hI
  list_keeps := fun p w hI => h.list_keeps p w.1 hI
  read_keeps := fun p w hI => h.read_keeps p w.1 hI
  readWithData_keeps := fun p q w hI => h.readWithData_keeps p q w.1 hI
  listPolicies_keeps := fun w hI => h.listPolicies_keeps w.1 hI
  getPolicy_keeps := fun n w hI => h.getPolicy_keeps n w.1 hI
  listAuth_keeps := fun w hI => h.listAuth_keeps w.1 hI
  keys_strings := by
    intro p w resp w' keys hI heq
    rw [traced_list] at heq
    simp only [Prod.mk.injEq] at heq
    exact h.keys_strings p w.1 resp (V.list p w.1).2 keys hI (Prod.ext heq.1 rfl)
  rank_decreases := by
    intro p w resp w' keys t hI heq
    rw [traced_list] at heq
    simp only [Prod.mk.injEq] at heq
    exact h.rank_decreases p w.1 resp (V.list p w.1).2 keys t hI (Prod.ext heq.1 rfl)
  version_data := by
    intro p q w resp w' d hI heq
    rw [traced_readWithData] at heq
    simp only [Prod.mk.injEq] at heq
    exact h.version_data p q w.1 resp (V.readWithData p q w.1).2 d hI (Prod.ext heq.1 rfl)
  version_count := by
    intro p w resp w' hI heq
    rw [traced_read] at heq
    simp only [Prod.mk.injEq] at heq
    exact h.version_count p w.1 resp (V.read p w.1).2 hI (Prod.ext heq.1 rfl)

/-! ### The concrete server reads well -/

theorem mem_addKey (ks : List String) (k t : String) : t ∈ addKey ks k ↔ t ∈ ks ∨ t = k := by
  unfold addKey
  split
  · rename_i h
    rw [contains_iff] at h
    constructor
    · exact Or.inl
    · rintro (h1 | h1)
      · exact h1
      · rw [h1]; exact h
  · simp

theorem mem_childrenOf_aux (path t : String) :
    ∀ (kv : List (String × Data)) (init : List String),
      t ∈ kv.foldl (fun ks e =>
          if HasPrefix e.1 path then
            match e.1.data.drop path.data.length with
            | [] => ks
            | c :: rest => addKey ks ⟨firstSegment (c :: rest)⟩
          else ks) init
        ↔ t ∈ init ∨ ∃ e ∈ kv, HasPrefix e.1 path = true
            ∧ ∃ c rest, e.1.data.drop path.data.length = c :: rest
              ∧ t = ⟨firstSegment (c :: rest)⟩ := by
  intro kv
  induction kv with
  | nil => intro init; simp
  | cons e kv ih =>
    intro init
    rw [List.foldl_cons, ih]
    constructor
    · rintro (h | ⟨e', he', h⟩)
      · split at h
        · rename_i hp
          split at h
          · exact Or.inl h
          · rename_i c rest hd
            rcases (mem_addKey _ _ _).mp h with h1 | h1
            · exact Or.inl h1
            · exact Or.inr ⟨e, List.mem_cons_self _ _, hp, c, rest, hd, h1⟩
        · exact Or.inl h
      · exact Or.inr ⟨e', List.mem_cons_of_mem _ he', h⟩
    · rintro (h | ⟨e', he', hp, c, rest, hd, ht⟩)
      · left
        split
        · split
          · exact h
          · exact (mem_addKey _ _ _).mpr (Or.inl h)
        · exact h
      · rcases List.mem_cons.mp he' with rfl | he''
        · left
          rw [if_pos hp]
          simp only [hd]
          exact (mem_addKey _ _ _).mpr (Or.inr ht)
        · exact Or.inr ⟨e', he'', hp, c, rest, hd, ht⟩

theorem mem_childrenOf (kv : List (String × Data)) (path t : String) :
    t ∈ Store.childrenOf kv path
      ↔ ∃ e ∈ kv, HasPrefix e.1 path = true
          ∧ ∃ c rest, e.1.data.drop path.data.length = c :: rest
            ∧ t = ⟨firstSegment (c :: rest)⟩ := by
  exact (mem_childrenOf_aux path t kv []).trans (by simp)

theorem firstSegment_prefix : ∀ (r : List Char), firstSegment r <+: r := by
  intro r
  induction r with
  | nil => exact List.prefix_refl _
  | cons c rest ih =>
    unfold firstSegment
    split
    · exact ⟨rest, rfl⟩
    · exact (List.prefix_cons_inj c).mpr ih

theorem slashes_le_maxSlashes (kv : List (String × Data)) (e : String × Data) (h : e ∈ kv) :
    slashes e.1 ≤ maxSlashes kv := by
  induction kv with
  | nil => simp at h
  | cons x rest ih =>
    simp only [maxSlashes, List.foldr_cons]
    rcases List.mem_cons.mp h with rfl | h1
    · exact Nat.le_max_left _ _
    · exact Nat.le_trans (ih h1) (Nat.le_max_right _ _)

theorem mapGet_mem {α : Type} (m : List (String × α)) (k : String) (v : α)
    (h : mapGet m k = some v) : (k, v) ∈ m := by
  induction m with
  | nil => simp [mapGet] at h
  | cons e rest ih =>
    obtain ⟨k', v'⟩ := e
    unfold mapGet at h
    split at h
    · rename_i hk
      simp only [Option.some.injEq] at h
      rw [hk, h]; exact List.mem_cons_self _ _
    · exact List.mem_cons_of_mem _ (ih h)

/-- A child key ending in `/` lies one level further down, within the depth
of the stored keys. -/
theorem storeRank_child (kv : List (String × Data)) (path t : String)
    (ht : t ∈ Store.childrenOf kv path) (hsuf : HasSuffix t "/" = true) :
    storeRank kv (path ++ t) < storeRank kv path := by
  obtain ⟨e, he, hp, c, rest, hd, rfl⟩ := (mem_childrenOf kv path _).mp ht
  have hmax := slashes_le_maxSlashes kv e he
  obtain ⟨u, hu⟩ := (HasPrefix_iff _ _).mp hp
  have hdrop : u = c :: rest := by
    rw [← hd, ← hu]; simp
  obtain ⟨v, hv⟩ := firstSegment_prefix (c :: rest)
  have hcount : (c :: rest).count '/' = (firstSegment (c :: rest)).count '/' + v.count '/' := by
    have := congrArg (List.count '/') hv
    rw [List.count_append] at this
    exact this.symm
  have h1 : slashes e.1 = slashes path + (firstSegment (c :: rest)).count '/' + v.count '/' := by
    unfold slashes
    rw [← hu, hdrop, List.count_append, hcount, Nat.add_assoc]
  have h2 : 1 ≤ (firstSegment (c :: rest)).count '/' := by
    obtain ⟨x, hx⟩ := (HasSuffix_iff _ _).mp hsuf
    simp only at hx
    rw [← hx]
    simp [List.count_append]
  have h3 : slashes (path ++ ⟨firstSegment (c :: rest)⟩)
      = slashes path + (firstSegment (c :: rest)).count '/' := by
    unfold slashes
    rw [String.data_append, List.count_append]
  unfold storeRank
  omega

/-- The concrete server reads well from the states with a given content
whose stored `data` fields are nil or maps and whose stored version counts
are below the largest `int`. -/
theorem storeAPI_readsWell (kv0 : List (String × Data))
    (hdata : ∀ e ∈ kv0, index e.2 "data" = Value.null ∨ ∃ o, index e.2 "data" = Value.obj o)
    (hcount : ∀ e ∈ kv0, (parseMetadata (fun _ => Time.zero) e.2).CurrentVersion < maxInt) :
    ReadsWell storeAPI (fun s => s.kv = kv0) (storeRank kv0) where
  version_count := by
    intro p w resp w' hI heq
    simp only [storeAPI] at heq
    split at heq
    · simp at heq
    · simp only [Prod.mk.injEq, Except.ok.injEq] at heq
      cases hg : mapGet w.kv p with
      | none => rw [hg] at heq; simp at heq
      | some d' =>
        rw [hg] at heq
        simp only [Option.map_some', Option.some.injEq] at heq
        have hm := mapGet_mem _ _ _ hg
        rw [hI] at hm
        rw [← heq.1]
        exact hcount _ hm
  now_keeps := fun w hI => hI
  health_keeps := fun w hI => hI
  listMounts_keeps := by
    intro w hI; simp only [storeAPI]; split <;> exact hI
  list_keeps := by
    intro p w hI; simp only [storeAPI]
    split
    · exact hI
    · split <;> exact hI
  read_keeps := by
    intro p w hI; simp only [storeAPI]; split <;> exact hI
  readWithData_keeps := by
    intro p q w hI; simp only [storeAPI]; split <;> exact hI
  listPolicies_keeps := by
    intro w hI; simp only [storeAPI]; split <;> exact hI
  getPolicy_keeps := by
    intro n w hI; simp only [storeAPI]; split <;> exact hI
  listAuth_keeps := by
    intro w hI; simp only [storeAPI]; split <;> exact hI
  keys_strings := by
    intro p w resp w' keys _ heq hkeys k hk
    simp only [storeAPI] at heq
    split at heq
    · simp at heq
    · split at heq
      · simp at heq
      · simp only [Prod.mk.injEq, Except.ok.injEq, Option.some.injEq] at heq
        rw [← heq.1] at hkeys
        simp only [Option.getD_some, index, mapGet, if_true, Value.arr.injEq] at hkeys
        rw [← hkeys] at hk
        obtain ⟨t, _, ht⟩ := List.mem_map.mp hk
        exact ⟨t, ht.symm⟩
  rank_decreases := by
    intro p w resp w' keys t hI heq hkeys hk hsuf
    simp only [storeAPI] at heq
    split at heq
    · simp at heq
    · split at heq
      · simp at heq
      · rename_i k ks hch
        simp only [Prod.mk.injEq, Except.ok.injEq, Option.some.injEq] at heq
        rw [← heq.1] at hkeys
        simp only [Option.getD_some, index, mapGet, if_true, Value.arr.injEq] at hkeys
        rw [← hkeys] at hk
        obtain ⟨t', ht', hte⟩ := List.mem_map.mp hk
        simp only [Value.str.injEq] at hte
        rw [hte, ← hch, hI] at ht'
        exact storeRank_child kv0 p t ht' hsuf
  version_data := by
    intro p q w resp w' d hI heq hd
    simp only [storeAPI] at heq
    split at heq
    · simp at heq
    · simp only [Prod.mk.injEq, Except.ok.injEq] at heq
      cases hg : mapGet w.kv (p ++ encodeQuery q) with
      | none => rw [hg] at heq; simp at heq
      | some d' =>
        rw [hg] at heq
        simp only [Option.map_some', Option.some.injEq] at heq
        rw [← heq.1] at hd
        simp only [Option.some.injEq] at hd
        have hm := mapGet_mem _ _ _ hg
        rw [hI] at hm
        rw [← hd]
        exact hdata _ hm

theorem fetchedPolicies_snoc_other (log : List Event) (ev : Event)
    (h : ∀ n, ev.call ≠ Call.getPolicy n) :
    fetchedPolicies (log ++ [ev]) = fetchedPolicies log := by
  have hnone : (match ev.call, ev.failed with
      | .getPolicy n, false => some n
      | _, _ => none) = none := by
    obtain ⟨c, f⟩ := ev
    cases c
    all_goals first | rfl | exact (h _ rfl).elim
  simp only [fetchedPolicies, List.filterMap_append, List.filterMap_cons, List.filterMap_nil,
    hnone, List.append_nil]

/-- The item-level calls other than a policy fetch leave `fetchedPolicies`. -/
theorem fetchedPolicies_items {σ : Type} (V : API σ) (ns : List String) :
    (∀ p (w : σ × List Event),
        fetchedPolicies w.2 = ns → fetchedPolicies ((traced V).list p w).2.2 = ns)
      ∧ (∀ p (w : σ × List Event),
        fetchedPolicies w.2 = ns → fetchedPolicies ((traced V).read p w).2.2 = ns)
      ∧ (∀ p q (w : σ × List Event),
        fetchedPolicies w.2 = ns → fetchedPolicies ((traced V).readWithData p q w).2.2 = ns)
      ∧ (∀ (w : σ × List Event),
        fetchedPolicies w.2 = ns → fetchedPolicies ((traced V).now w).2.2 = ns) := by
  refine ⟨?_, ?_, ?_, fun w h => h⟩
  · intro p w h
    rw [traced_list, fetchedPolicies_snoc_other _ _ (by simp), h]
  · intro p w h
    rw [traced_read, fetchedPolicies_snoc_other _ _ (by simp), h]
  · intro p q w h
    rw [traced_readWithData, fetchedPolicies_snoc_other _ _ (by simp), h]

theorem backupPolicyNames_fetched {σ : Type} (V : API σ) :
    ∀ (names : List String) (backup : BackupData) (w : σ × List Event),
      backup.Policies.map (fun p => p.Name) = fetchedPolicies w.2 →
      (backupPolicyNames (traced V) names backup w).1.Policies.map (fun p => p.Name)
        = fetchedPolicies (backupPolicyNames (traced V) names backup w).2.2 := by
  intro names
  induction names with
  | nil => intro backup w h; exact h
  | cons n rest ih =>
    intro backup w h
    unfold backupPolicyNames
    split
    · exact ih _ _ h
    · rw [traced_getPolicy]
      split
      · rename_i err w1 heq
        simp only [Prod.mk.injEq] at heq
        apply ih
        rw [← heq.2, h]
        simp [fetchedPolicies, failedE_error heq.1]
      · rename_i policy w1 heq
        simp only [Prod.mk.injEq] at heq
        apply ih
        rw [← heq.2]
        simp [fetchedPolicies, failedE_ok heq.1, h]

theorem Backup_phases_traced {σ : Type} (V : API σ) (fuel : Nat) (engines : List String) (s : σ)
    (b : BackupData) (w' : σ × List Event)
    (h : Backup (traced V) fuel engines (s, []) = .done (.ok b, w')) :
    ∃ b0 b1 b2 w0 w1 w2, b0.Policies = [] ∧ fetchedPolicies w0.2 = []
      ∧ backupSecretEngines (traced V) fuel b0 engines w0 = .done (.ok b1, w1)
      ∧ backupPolicies (traced V) b1 w1 = (.ok b2, w2)
      ∧ backupAuthMethods (traced V) b2 w2 = .done (.ok b, w') := by
  unfold Backup at h
  simp only [traced_now, traced_health] at h
  obtain ⟨r1, hr1, h⟩ := Run.bind_eq_done h
  split at h
  · simp at h
  · rename_i b1 w1
    split at h
    · simp at h
    · rename_i b2 w2 hp
      obtain ⟨r3, hr3, h⟩ := Run.bind_eq_done h
      split at h
      · simp at h
      · rename_i b3 w3
        simp only [Run.done.injEq, Prod.mk.injEq, Except.ok.injEq] at h
        obtain ⟨rfl, rfl⟩ := h
        refine ⟨_, b1, b2, _, w1, w2, ?_, ?_, hr1, hp, hr3⟩
        · split <;> rfl
        · simp [fetchedPolicies]

/-- The policies of a returned snapshot are those whose fetch succeeded. -/
theorem Backup_policies_fetched {σ : Type} (V : API σ) (fuel : Nat) (engines : List String)
    (s : σ) (b : BackupData) (w' : σ × List Event)
    (h : Backup (traced V) fuel engines (s, []) = .done (.ok b, w')) :
    b.Policies.map (fun p => p.Name) = fetchedPolicies w'.2 := by
  obtain ⟨b0, b1, b2, w0, w1, w2, hb0, hf0, h1, h2, h3⟩ :=
    Backup_phases_traced V fuel engines s b w' h
  obtain ⟨hl, hr, hq, hn⟩ := fetchedPolicies_items V []
  -- engines
  obtain ⟨_, _, _, _, _, _, hp1, _⟩ := backupSecretEngines_spec (traced V) fuel b0 engines w0 b1 w1 h1
  have hf1 : fetchedPolicies w1.2 = [] := by
    unfold backupSecretEngines at h1
    rw [traced_listMounts] at h1
    split at h1
    · simp at h1
    · rename_i mounts wm heq
      simp only [Prod.mk.injEq] at heq
      obtain ⟨x, hx, h1⟩ := Run.bind_eq_done h1
      simp only [Run.done.injEq, Prod.mk.injEq, Except.ok.injEq] at h1
      rw [← h1.2]
      refine backupMounts_inv (traced V) (fun w => fetchedPolicies w.2 = []) hl hr hq hn fuel
        engines _ _ _ _ _ ?_ hx
      rw [← heq.2]
      show fetchedPolicies (_ ++ [_]) = _
      rw [fetchedPolicies_snoc_other _ _ (by simp), hf0]
  -- policies
  have hf2 : b2.Policies.map (fun p => p.Name) = fetchedPolicies w2.2 := by
    unfold backupPolicies at h2
    rw [traced_listPolicies] at h2
    split at h2
    · simp at h2
    · rename_i names wp heq
      simp only [Prod.mk.injEq] at heq
      simp only [Prod.mk.injEq, Except.ok.injEq] at h2
      rw [← h2.1, ← h2.2]
      apply backupPolicyNames_fetched
      rw [← heq.2, fetchedPolicies_snoc_other _ _ (by simp), hf1, hp1, hb0]
      rfl
  -- auth methods
  obtain ⟨_, _, _, _, _, _, _, hp3⟩ := backupAuthMethods_spec (traced V) b2 w2 b w' h3
  rw [hp3, hf2]
  obtain ⟨hl', hr', _, _⟩ := fetchedPolicies_items V (fetchedPolicies w2.2)
  unfold backupAuthMethods at h3
  rw [traced_listAuth] at h3
  split at h3
  · simp at h3
  · rename_i auths wa heq
    simp only [Prod.mk.injEq] at heq
    obtain ⟨x, hx, h3⟩ := Run.bind_eq_done h3
    simp only [Run.done.injEq, Prod.mk.injEq, Except.ok.injEq] at h3
    rw [← h3.2]
    symm
    refine backupAuthMounts_inv (traced V) (fun w => fetchedPolicies w.2 = fetchedPolicies w2.2)
      hl' hr' _ _ _ _ _ ?_ hx
    rw [← heq.2]
    show fetchedPolicies (_ ++ [_]) = _
    rw [fetchedPolicies_snoc_other _ _ (by simp)]

/-- C10: a `Backup` that returns has returned an error exactly when its log
holds a failed top-level listing (of the mounts, the policies or the auth
methods), so no failure of an item-level call makes it an error; the
policies of a returned snapshot are those whose fetch succeeded.  An item
whose call fails is left out and the run goes on with the next one: a path
listing that fails gives no paths, a metadata read or a secret read that
fails adds no secret, a version read that fails adds no version, a policy
fetch that fails adds no policy, a user or role read that fails adds no user
or role.  On a server that reads well (a finite key tree, string keys,
version data that is nil or a map, version counts below the largest `int`),
with fuel above every rank, `Backup` does return. -/
theorem Backup_fails_iff_top_level_listing_fails {σ : Type} (V : API σ) (fuel : Nat)
    (engines : List String) (s : σ) :
    (∀ r w', Backup (traced V) fuel engines (s, []) = .done (r, w') →
        (failedE r = true ↔ ∃ ev ∈ w'.2, ev.failed = true ∧ topListing ev.call = true)
        ∧ ∀ b, r = .ok b → b.Policies.map (fun p => p.Name) = fetchedPolicies w'.2)
      ∧ (∀ (Inv : σ → Prop) (rank : String → Nat), ReadsWell V Inv rank →
          (∀ p, rank p < fuel) → Inv s →
          ∃ r w', Backup (traced V) fuel engines (s, []) = .done (r, w'))
      ∧ (∀ (n : Nat) (mountPath pfx err : String) (t t1 : σ),
          V.list (mountPath ++ pfx) t = (.error err, t1) →
          listAllPaths V (n + 1) mountPath pfx t = .done (.ok [], t1))
      ∧ (∀ (mountPath path err : String) (rest : List String) (acc : List SecretBackup)
          (t t1 : σ), V.read (mountPath ++ "metadata/" ++ path) t = (.error err, t1) →
          backupKVv2Paths V mountPath (path :: rest) acc t
            = backupKVv2Paths V mountPath rest acc t1)
      ∧ (∀ (mountPath path err : String) (rest : List String) (acc : List SecretBackup)
          (t t1 : σ), V.read (mountPath ++ path) t = (.error err, t1) →
          backupKVv1Paths V mountPath (path :: rest) acc t
            = backupKVv1Paths V mountPath rest acc t1)
      ∧ (∀ (mountPath path err : String) (n : Nat) (v : Int) (acc : List SecretVersion)
          (t t1 : σ),
          V.readWithData (mountPath ++ "data/" ++ path) [("version", [toString v])] t
            = (.error err, t1) →
          readVersions V mountPath path (n + 1) v acc t
            = readVersions V mountPath path n (v + 1) acc t1)
      ∧ (∀ (name err : String) (rest : List String) (b : BackupData) (t t1 : σ),
          ¬ (name = "root" ∨ name = "default") → V.getPolicy name t = (.error err, t1) →
          backupPolicyNames V (name :: rest) b t = backupPolicyNames V rest b t1)
      ∧ (∀ (listPath name err : String) (rest : List Value) (acc : List UserBackup) (t t1 : σ),
          V.read (listPath ++ "/" ++ name) t = (.error err, t1) →
          backupUserKeys V listPath (Value.str name :: rest) acc t
            = backupUserKeys V listPath rest acc t1)
      ∧ (∀ (listPath name err : String) (rest : List Value) (acc : List RoleBackup) (t t1 : σ),
          V.read (listPath ++ "/" ++ name) t = (.error err, t1) →
          backupRoleKeys V listPath (Value.str name :: rest) acc t
            = backupRoleKeys V listPath rest acc t1) := by
  refine ⟨?_, ?_, ?_, ?_, ?_, ?_, ?_, ?_, ?_⟩
  · intro r w' h
    have ho := Backup_outcome V fuel engines s r w' h
    constructor
    · cases r with
      | error e => exact ⟨fun _ => ho, fun _ => rfl⟩
      | ok b =>
        constructor
        · intro hf; simp [failedE] at hf
        · rintro ⟨ev, hev, hfail, htop⟩
          have := ho ev hev htop
          rw [hfail] at this
          exact absurd this (by simp)
    · intro b hb
      subst hb
      exact Backup_policies_fetched V fuel engines s b w' h
  · intro Inv rank hV hfuel hs
    exact Backup_returns (traced V) (fun w => Inv w.1) rank (ReadsWell_traced hV) fuel hfuel
      engines (s, []) hs
  · intro n mountPath pfx err t t1 h
    simp only [listAllPaths, h]
  · intro mountPath path err rest acc t t1 h
    rw [backupKVv2Paths]
    simp only [h]
  · intro mountPath path err rest acc t t1 h
    rw [backupKVv1Paths]
    simp only [h]
  · intro mountPath path err n v acc t t1 h
    rw [readVersions]
    simp only [h]
  · intro name err rest b t t1 hname h
    rw [backupPolicyNames]
    simp only [hname, if_false, h]
  · intro listPath name err rest acc t t1 h
    rw [backupUserKeys]
    simp only [h]
  · intro listPath name err rest acc t t1 h
    rw [backupRoleKeys]
    simp only [h]

/-- C10 on `itemFailureStore`: with a secret that cannot be read and a policy
that cannot be fetched the run returns a snapshot without them, and with the
policy listing denied it returns an error. -/
theorem Backup_item_failure_witness :
    Backup (traced storeAPI) 3 [] (itemFailureStore, [])
        = .done (.ok itemFailureSnapshot, { itemFailureStore with clock := 2 }, itemFailureLog)
      ∧ ((failedE (Except.ok itemFailureSnapshot : Except Err BackupData) = true
            ↔ ∃ ev ∈ itemFailureLog, ev.failed = true ∧ topListing ev.call = true)
          ∧ ∀ b, (Except.ok itemFailureSnapshot : Except Err BackupData) = .ok b →
            b.Policies.map (fun p => p.Name) = fetchedPolicies itemFailureLog)
      ∧ (∃ r w', Backup (traced storeAPI) 3 [] (itemFailureStore, []) = .done (r, w'))
      ∧ (∃ w', Backup (traced storeAPI) 3 [] ({ itemFailureStore with denied := ["sys/policy"] }, [])
          = .done (.error "failed to backup policies: permission denied", w')) :=
  ⟨rfl,
    (Backup_fails_iff_top_level_listing_fails storeAPI 3 [] itemFailureStore).1 _ _ rfl,
    (Backup_fails_iff_top_level_listing_fails storeAPI 3 [] itemFailureStore).2.1
      (fun s => s.kv = itemFailureStore.kv) (storeRank itemFailureStore.kv)
      (storeAPI_readsWell itemFailureStore.kv (by
        intro e he
        simp only [itemFailureStore, Store.empty, List.mem_cons, List.mem_singleton,
          List.not_mem_nil, or_false] at he
        rcases he with rfl | rfl <;> exact Or.inl rfl) (by
        intro e he
        simp only [itemFailureStore, Store.empty, List.mem_cons, List.mem_singleton,
          List.not_mem_nil, or_false] at he
        rcases he with rfl | rfl <;> decide))
      (by
        intro p
        have h : maxSlashes itemFailureStore.kv = 1 := rfl
        unfold storeRank
        omega)
      rfl,
    ⟨_, rfl⟩⟩

/-! ### The key space of a store with one secret -/

theorem firstSegment_of_no_slash : ∀ (r : List Char), '/' ∉ r → firstSegment r = r := by
  intro r
  induction r with
  | nil => intro _; rfl
  | cons c rest ih =>
    intro h
    simp only [List.mem_cons, not_or] at h
    have hc : ¬ c = '/' := fun hc => h.1 hc.symm
    simp only [firstSegment, hc, if_false, ih h.2]

theorem firstSegment_of_slash : ∀ (r : List Char), '/' ∈ r →
    ∃ seg rest, r = seg ++ '/' :: rest ∧ firstSegment r = seg ++ ['/'] := by
  intro r
  induction r with
  | nil => intro h; simp at h
  | cons c rest ih =>
    intro h
    by_cases hc : c = '/'
    · exact ⟨[], rest, by simp [hc], by simp [firstSegment, hc]⟩
    · have h' : '/' ∈ rest := by
        rcases List.mem_cons.mp h with h1 | h1
        · exact absurd h1.symm hc
        · exact h1
      obtain ⟨seg, rest', hr, hf⟩ := ih h'
      exact ⟨c :: seg, rest', by simp [hr], by simp [firstSegment, hc, hf]⟩

theorem HasSuffix_slash_append (seg : List Char) : HasSuffix ⟨seg ++ ['/']⟩ "/" = true := by
  rw [HasSuffix_iff]
  exact ⟨seg, rfl⟩

theorem convertInterfaceMapToString_eq (sprint : Value → String) (m : Data)
    (h : (Keys m).Nodup) :
    convertInterfaceMapToString sprint m = m.map fun kv => (kv.1, optionString sprint kv.2) := by
  unfold convertInterfaceMapToString
  have := foldl_mapSet_append (optionString sprint) m [] h (by simp [Keys])
  simpa using this

theorem mapGet_map {α β : Type} (f : α → β) (m : List (String × α)) (k : String) :
    mapGet (m.map fun kv => (kv.1, f kv.2)) k = (mapGet m k).map f := by
  induction m with
  | nil => rfl
  | cons e rest ih =>
    obtain ⟨k', v⟩ := e
    by_cases h : k' = k
    · simp [mapGet, h]
    · simp [mapGet, h, ih]

/-- An engine without a version-2 option is not restored as version 2 and
its mount is not exported as version 2. -/
theorem not_version2 (sprint : Value → String) (options : Data) (hnd : (Keys options).Nodup)
    (hv1 : ∀ v, mapGet options "version" = some v → optionString sprint v ≠ "2") :
    isVersion2 options = false
      ∧ mapGet (convertInterfaceMapToString sprint options) "version" ≠ some "2" := by
  constructor
  · unfold isVersion2 index
    cases hg : mapGet options "version" with
    | none => rfl
    | some v =>
      have := hv1 v hg
      cases v <;> simp_all [optionString]
  · rw [convertInterfaceMapToString_eq sprint options hnd, mapGet_map]
    cases hg : mapGet options "version" with
    | none => simp
    | some v =>
      have := hv1 v hg
      simpa using this

theorem isSystemMount_of_not_reserved (path : String) (h : ¬ reservedPath path) :
    isSystemMount path = false := by
  unfold reservedPath at h
  unfold isSystemMount
  simp only [not_or, Bool.not_eq_true] at h
  simp [h.1, h.2.1, h.2.2]

theorem filteredOut_eq_false (F : List String) (path : String)
    (h : F ≠ [] → TrimSuffix path "/" ∈ F) : filteredOut F path = false := by
  unfold filteredOut
  cases F with
  | nil => rfl
  | cons a as =>
    have := (contains_iff (a :: as) (TrimSuffix path "/")).mpr (h (by simp))
    simp [this]

theorem auth_prefix_apart (mountPath key : String) (hslash : HasSuffix mountPath "/" = true)
    (hauth : HasPrefix mountPath "auth/" = false) (hk : HasPrefix key "auth/" = true) :
    HasPrefix key mountPath = false := by
  cases hx : HasPrefix key mountPath with
  | false => rfl
  | true =>
    exfalso
    have h1 := (HasPrefix_iff _ _).mp hk
    have h2 := (HasPrefix_iff _ _).mp hx
    by_cases hlen : ("auth/" : String).data.length ≤ mountPath.data.length
    · have := List.prefix_of_prefix_length_le h1 h2 hlen
      rw [(HasPrefix_iff _ _).mpr this] at hauth
      exact absurd hauth (by simp)
    · have h3 := List.prefix_of_prefix_length_le h2 h1 (by omega)
      obtain ⟨t, ht⟩ := (HasSuffix_iff _ _).mp hslash
      have h4 : mountPath.data = ("auth/" : String).data.take mountPath.data.length :=
        (List.prefix_iff_eq_take.mp h3)
      have hl : mountPath.data.length < 5 := by
        have : ("auth/" : String).data.length = 5 := by decide
        omega
      have hmem : '/' ∈ mountPath.data := by
        rw [← ht]; simp
      rw [h4] at hmem
      have hmem2 : '/' ∈ ['a', 'u', 't', 'h'] := by
        have htake : ("auth/" : String).data.take mountPath.data.length
            <+: ['a', 'u', 't', 'h'] := by
          have : ("auth/" : String).data = ['a', 'u', 't', 'h'] ++ ['/'] := by decide
          rw [this, List.take_append_of_le_length (by
            show mountPath.data.length ≤ 4
            omega)]
          exact List.take_prefix _ _
        exact htake.subset hmem
      simp at hmem2

theorem HasPrefix_of_append (key p t : String) (h : HasPrefix key (p ++ t) = true) :
    HasPrefix key p = true := by
  rw [HasPrefix_iff] at h ⊢
  rw [String.data_append] at h
  exact (List.prefix_append _ _).trans h

theorem mem_mapSet {α : Type} (m : List (String × α)) (k : String) (v : α) (e : String × α)
    (h : e ∈ mapSet m k v) : e = (k, v) ∨ e ∈ m := by
  induction m with
  | nil =>
    simp only [mapSet, List.mem_singleton] at h
    exact Or.inl h
  | cons x rest ih =>
    obtain ⟨k', v'⟩ := x
    unfold mapSet at h
    split at h
    · rcases List.mem_cons.mp h with h1 | h1
      · exact Or.inl h1
      · exact Or.inr (List.mem_cons_of_mem _ h1)
    · rcases List.mem_cons.mp h with h1 | h1
      · exact Or.inr (by rw [h1]; exact List.mem_cons_self _ _)
      · rcases ih h1 with h2 | h2
        · exact Or.inl h2
        · exact Or.inr (List.mem_cons_of_mem _ h2)

/-- Stored keys that are not below `path` add nothing to its listing. -/
theorem childrenOf_fold_apart (path : String) :
    ∀ (others : List (String × Data)) (acc : List String),
      (∀ e ∈ others, HasPrefix e.1 path = false) →
      others.foldl (fun ks e =>
        if HasPrefix e.1 path then
          match e.1.data.drop path.data.length with
          | [] => ks
          | c :: rest => addKey ks ⟨firstSegment (c :: rest)⟩
        else ks) acc = acc := by
  intro others
  induction others with
  | nil => intro acc _; rfl
  | cons e rest ih =>
    intro acc h
    simp only [List.foldl_cons, h e (List.mem_cons_self _ _), Bool.false_eq_true, if_false]
    exact ih acc (fun e he => h e (List.mem_cons_of_mem _ he))

theorem childrenOf_head (key path : String) (d : Data) (c : Char) (rest : List Char)
    (others : List (String × Data))
    (hp : HasPrefix key path = true) (hd : key.data.drop path.data.length = c :: rest)
    (ho : ∀ e ∈ others, HasPrefix e.1 path = false) :
    Store.childrenOf ((key, d) :: others) path = [⟨firstSegment (c :: rest)⟩] := by
  simp only [Store.childrenOf, List.foldl_cons, hp, if_true, hd, addKey,
    contains, Bool.false_eq_true, if_false, List.nil_append]
  exact childrenOf_fold_apart path others _ ho

theorem storeAPIWith_list_head (sprint : Value → String) (s : Store) (key path : String)
    (d : Data) (c : Char) (rest : List Char) (others : List (String × Data))
    (hkv : s.kv = (key, d) :: others) (hden : s.denied = [])
    (hp : HasPrefix key path = true) (hd : key.data.drop path.data.length = c :: rest)
    (ho : ∀ e ∈ others, HasPrefix e.1 path = false) :
    (storeAPIWith sprint).list path s
      = (.ok (some ⟨some [("keys", Value.arr [Value.str ⟨firstSegment (c :: rest)⟩])]⟩), s) := by
  simp [storeAPIWith, storeAPI, hkv, hden, contains, childrenOf_head key path d c rest others hp hd ho]

/-- On a store whose one key below `mountPath` is `mountPath ++ pfx ++ rem`,
with `rem` a non-empty path that does not end in `/`, the enumeration below
`pfx` returns `rem`. -/
theorem listAllPaths_head (sprint : Value → String) (mountPath : String) (d : Data) (s : Store)
    (others : List (String × Data)) (hden : s.denied = [])
    (ho : ∀ e ∈ others, HasPrefix e.1 mountPath = false) :
    ∀ (fuel : Nat) (pfx rem : String), s.kv = (mountPath ++ pfx ++ rem, d) :: others → rem ≠ "" →
      HasSuffix rem "/" = false → slashes rem < fuel →
      listAllPaths (storeAPIWith sprint) fuel mountPath pfx s = .done (.ok [rem], s) := by
  intro fuel
  induction fuel with
  | zero => intro pfx rem _ _ _ h; omega
  | succ fuel ih =>
    intro pfx rem hkv hne hleaf hfuel
    obtain ⟨remData⟩ := rem
    cases remData with
    | nil => exact absurd rfl hne
    | cons c rest =>
      have hp : HasPrefix (mountPath ++ pfx ++ ⟨c :: rest⟩) (mountPath ++ pfx) = true :=
        HasPrefix_append_self _ _
      have hd : (mountPath ++ pfx ++ (⟨c :: rest⟩ : String)).data.drop (mountPath ++ pfx).data.length
          = c :: rest := by
        rw [String.data_append (mountPath ++ pfx)]
        exact List.drop_left _ _
      have ho' : ∀ e ∈ others, HasPrefix e.1 (mountPath ++ pfx) = false := by
        intro e he
        cases hx : HasPrefix e.1 (mountPath ++ pfx) with
        | false => rfl
        | true =>
          have := HasPrefix_of_append _ _ _ hx
          rw [ho e he] at this
          exact absurd this (by simp)
      have hlist := storeAPIWith_list_head sprint s _ (mountPath ++ pfx) d c rest others hkv hden
        hp hd ho'
      unfold listAllPaths
      rw [hlist]
      simp only [Option.getD_some, index, mapGet, if_true, Option.getD_some]
      unfold listKeys
      simp only
      by_cases hs : '/' ∈ c :: rest
      · obtain ⟨seg, rest', hr, hf⟩ := firstSegment_of_slash (c :: rest) hs
        have hdir : HasSuffix ⟨firstSegment (c :: rest)⟩ "/" = true := by
          rw [hf]; exact HasSuffix_slash_append seg
        rw [if_pos hdir]
        have hrest' : rest' ≠ [] := by
          intro h0
          rw [h0] at hr
          have : HasSuffix ⟨c :: rest⟩ "/" = true := by
            rw [hr]; exact HasSuffix_slash_append seg
          rw [this] at hleaf
          exact absurd hleaf (by simp)
        have hsplit : (⟨c :: rest⟩ : String) = ⟨firstSegment (c :: rest)⟩ ++ ⟨rest'⟩ := by
          apply String.ext
          rw [String.data_append, hf, hr]
          simp
        have hkv' : s.kv
            = (mountPath ++ (pfx ++ ⟨firstSegment (c :: rest)⟩) ++ ⟨rest'⟩, d) :: others := by
          rw [hkv, hsplit]
          simp only [String.append_assoc]
        have hleaf' : HasSuffix ⟨rest'⟩ "/" = false := by
          cases hx : HasSuffix ⟨rest'⟩ "/" with
          | false => rfl
          | true =>
            obtain ⟨t, ht⟩ := (HasSuffix_iff _ _).mp hx
            have : HasSuffix ⟨c :: rest⟩ "/" = true := by
              rw [HasSuffix_iff]
              refine ⟨seg ++ '/' :: t, ?_⟩
              simp only at ht ⊢
              rw [hr, ← ht]
              simp
            rw [this] at hleaf
            exact absurd hleaf (by simp)
        have hcount : slashes ⟨rest'⟩ < fuel := by
          have : slashes ⟨c :: rest⟩ = seg.count '/' + 1 + slashes ⟨rest'⟩ := by
            unfold slashes
            simp only
            rw [hr]
            simp [List.count_append, List.count_cons]
            omega
          omega
        rw [ih (pfx ++ ⟨firstSegment (c :: rest)⟩) ⟨rest'⟩ hkv' (by
          intro h0; exact hrest' (congrArg String.data h0)) hleaf' hcount]
        simp only [Run.bind_done, List.nil_append, List.map_cons, List.map_nil, listKeys, ← hsplit]
      · have hf := firstSegment_of_no_slash (c :: rest) hs
        rw [hf, hleaf]
        simp [listKeys]

theorem RestoredOne_putPolicy (sprint : Value → String) {mountPath : String} {mount : MountOutput}
    {key : String} {payload : Data} (n t : String) (s : Store)
    (h : RestoredOne mountPath mount key payload s) :
    RestoredOne mountPath mount key payload ((storeAPIWith sprint).putPolicy n t s).2 := by
  simp only [storeAPIWith, storeAPI]
  split
  · exact h
  · exact h

theorem RestoredOne_listAuth (sprint : Value → String) {mountPath : String} {mount : MountOutput}
    {key : String} {payload : Data} (s : Store)
    (h : RestoredOne mountPath mount key payload s) :
    RestoredOne mountPath mount key payload ((storeAPIWith sprint).listAuth s).2 := by
  simp only [storeAPIWith, storeAPI]
  split
  · exact h
  · exact h

theorem RestoredOne_enableAuth (sprint : Value → String) {mountPath : String}
    {mount : MountOutput} {key : String} {payload : Data} (p : String) (i : EnableAuthOptions)
    (s : Store) (h : RestoredOne mountPath mount key payload s) :
    RestoredOne mountPath mount key payload ((storeAPIWith sprint).enableAuth p i s).2 := by
  simp only [storeAPIWith, storeAPI]
  split
  · exact h
  · split
    · exact h
    · exact h

/-- A write below `auth/` leaves the restored secret in place. -/
theorem RestoredOne_write (sprint : Value → String) {mountPath : String} {mount : MountOutput}
    {key : String} {payload : Data} (hkey : HasPrefix key "auth/" = false) (path : String)
    (d : Data) (s : Store) (hp : HasPrefix path "auth/" = true)
    (h : RestoredOne mountPath mount key payload s) :
    RestoredOne mountPath mount key payload ((storeAPIWith sprint).write path d s).2 := by
  obtain ⟨h1, h2, h3, others, h4, h5⟩ := h
  have hne : ¬ key = path := by
    intro e
    rw [e, hp] at hkey
    exact absurd hkey (by simp)
  simp only [storeAPIWith, storeAPI, h2, contains, Bool.false_eq_true, if_false]
  refine ⟨h1, rfl, h3, mapSet others path d, ?_, ?_⟩
  · show mapSet s.kv path d = _
    rw [h4]
    simp only [mapSet, hne, if_false]
  · intro e he
    rcases mem_mapSet _ _ _ _ he with h6 | h6
    · rw [h6]; exact hp
    · exact h5 e h6

/-- The store after restoring a snapshot with one v1-style engine that
holds one secret. -/
theorem Restore_one_engine (sprint : Value → String) (ts : Time)
    (vaultVersion mountPath typ desc : String)
    (config options : Data) (secretPath : String) (version : SecretVersion)
    (metadata : SecretMetadata) (policies : List PolicyBackup) (auths : List AuthMethodBackup)
    (opts : RestoreOptions)
    (htyp : typ = "kv" ∨ typ = "generic")
    (hv1 : isVersion2 options = false)
    (hslash : HasSuffix mountPath "/" = true)
    (hauth : HasPrefix mountPath "auth/" = false)
    (hscope : filteredOut opts.Engines mountPath = false) :
    RestoredOne mountPath ⟨typ, desc, convertInterfaceMapToString sprint options⟩
      (mountPath ++ secretPath) version.Data
      (Restore (storeAPIWith sprint) ⟨ts, vaultVersion,
        [⟨mountPath, typ, desc, config, options, [⟨secretPath, [version], metadata⟩]⟩],
        policies, auths⟩ opts Store.empty).2 := by
  have hengines : restoreSecretEngines (storeAPIWith sprint) opts.Engines
      [⟨mountPath, typ, desc, config, options, [⟨secretPath, [version], metadata⟩]⟩] Store.empty
      = (none, { Store.empty with
          mounts := [(mountPath, ⟨typ, desc, convertInterfaceMapToString sprint options⟩)]
          kv := [(mountPath ++ secretPath, version.Data)] }) := by
    have hl : (storeAPIWith sprint).listMounts Store.empty = (.ok [], Store.empty) := rfl
    have hm : ∀ p i, (storeAPIWith sprint).mount p i Store.empty
        = (none, { Store.empty with mounts := [(p ++ "/", ⟨i.Typ, i.Description, i.Options⟩)] }) :=
      fun _ _ => rfl
    have hw : ∀ p d (ms : List (String × MountOutput)),
        (storeAPIWith sprint).write p d { Store.empty with mounts := ms }
          = (.ok none, { Store.empty with mounts := ms, kv := [(p, d)] }) :=
      fun _ _ _ => rfl
    have hs : (storeAPIWith sprint).sprint = sprint := rfl
    simp only [restoreSecretEngines, hscope, Bool.false_eq_true, if_false, hl, List.any_nil,
      hm, mountInputOf, TrimSuffix_append _ _ hslash, restoreEngineSecrets, htyp, if_true, hv1,
      restoreKVv1Secrets, List.getLast?_singleton, hw, hs]
  have hkey : HasPrefix (mountPath ++ secretPath) "auth/" = false := by
    cases hx : HasPrefix (mountPath ++ secretPath) "auth/" with
    | false => rfl
    | true =>
      have := auth_prefix_apart mountPath _ hslash hauth hx
      rw [HasPrefix_append_self] at this
      exact absurd this (by simp)
  rw [Restore_state, hengines]
  simp only
  have h1 : RestoredOne mountPath ⟨typ, desc, convertInterfaceMapToString sprint options⟩
      (mountPath ++ secretPath) version.Data
      { Store.empty with
        mounts := [(mountPath, ⟨typ, desc, convertInterfaceMapToString sprint options⟩)]
        kv := [(mountPath ++ secretPath, version.Data)] } :=
    ⟨rfl, rfl, rfl, [], rfl, by simp⟩
  have h2 : RestoredOne mountPath ⟨typ, desc, convertInterfaceMapToString sprint options⟩
      (mountPath ++ secretPath) version.Data
      (if opts.SkipPolicies = true then
          { Store.empty with
            mounts := [(mountPath, ⟨typ, desc, convertInterfaceMapToString sprint options⟩)]
            kv := [(mountPath ++ secretPath, version.Data)] }
        else (restorePolicies (storeAPIWith sprint) policies
          { Store.empty with
            mounts := [(mountPath, ⟨typ, desc, convertInterfaceMapToString sprint options⟩)]
            kv := [(mountPath ++ secretPath, version.Data)] }).2) := by
    split
    · exact h1
    · exact restorePolicies_inv (storeAPIWith sprint) _
        (fun n t w h => RestoredOne_putPolicy sprint n t w h) _ _ h1
  split
  · exact h2
  · exact restoreAuthMethods_inv (storeAPIWith sprint) _ opts auths
      (fun w h => RestoredOne_listAuth sprint w h)
      (fun a _ w l w1 h heq _ => by
        have h1' := RestoredOne_listAuth sprint w h
        rw [heq] at h1'
        exact RestoredOne_enableAuth sprint _ _ w1 h1')
      (fun path d w hp h => RestoredOne_write sprint hkey path d w hp h) _ h2

theorem storeAPIWith_getPolicy_state (sprint : Value → String) (n : String) (s : Store) :
    ((storeAPIWith sprint).getPolicy n s).2 = s := by
  simp only [storeAPIWith, storeAPI]
  split <;> rfl

theorem backupPolicyNames_store_state (sprint : Value → String) (names : List String)
    (backup : BackupData) (s : Store) :
    (backupPolicyNames (storeAPIWith sprint) names backup s).2 = s :=
  backupPolicyNames_inv (storeAPIWith sprint) (fun w => w = s)
    (fun n w h => by rw [h]; exact storeAPIWith_getPolicy_state sprint n s) names backup s rfl

/-- The keys of a listing of the concrete server are strings. -/
theorem storeAPIWith_keys_strings (sprint : Value → String) (p : String) (w : Store)
    (resp : Secret) (w' : Store) (keys : List Value)
    (heq : (storeAPIWith sprint).list p w = (.ok (some resp), w'))
    (hkeys : index (resp.Data.getD []) "keys" = Value.arr keys) :
    ∀ k ∈ keys, ∃ t, k = Value.str t := by
  intro k hk
  simp only [storeAPIWith, storeAPI] at heq
  split at heq
  · simp at heq
  · split at heq
    · simp at heq
    · simp only [Prod.mk.injEq, Except.ok.injEq, Option.some.injEq] at heq
      rw [← heq.1] at hkeys
      simp only [Option.getD_some, index, mapGet, if_true, Value.arr.injEq] at hkeys
      rw [← hkeys] at hk
      obtain ⟨t, _, ht⟩ := List.mem_map.mp hk
      exact ⟨t, ht.symm⟩

/-- The auth phase of the export returns on a store that denies nothing, and
keeps the engines of the snapshot. -/
theorem backupAuthMethods_store (sprint : Value → String) (backup : BackupData) (s : Store)
    (hden : s.denied = []) :
    ∃ b' s', backupAuthMethods (storeAPIWith sprint) backup s = .done (.ok b', s')
      ∧ b'.SecretEngines = backup.SecretEngines := by
  have hl : (storeAPIWith sprint).listAuth s = (.ok s.auths, s) := by
    simp [storeAPIWith, storeAPI, hden, contains]
  obtain ⟨r, w', hr, _⟩ := backupAuthMounts_returns (storeAPIWith sprint) (fun _ => True)
    (fun _ _ _ => trivial) (fun _ _ _ => trivial)
    (fun p w resp w1 keys _ heq hkeys => storeAPIWith_keys_strings sprint p w resp w1 keys heq hkeys)
    s.auths backup s trivial
  obtain ⟨_, _, _, h3, _⟩ := backupAuthMounts_spec (storeAPIWith sprint) _ _ _ _ _ hr
  refine ⟨r, w', ?_, h3⟩
  unfold backupAuthMethods
  rw [hl]
  simp only [hr, Run.bind_done]

/-- The engine phase of the export on a store with one v1-style mount whose
one stored key below the mount is a secret. -/
theorem backupSecretEngines_one (sprint : Value → String) (fuel : Nat) (backup : BackupData)
    (mountPath : String)
    (mount : MountOutput) (secretPath : String) (payload : Data)
    (others : List (String × Data))
    (auths : List (String × AuthMount)) (policies : List (String × String)) (clock : Int)
    (ho : ∀ e ∈ others, HasPrefix e.1 mountPath = false)
    (hres : ¬ reservedPath mountPath)
    (htyp : mount.Typ = "kv" ∨ mount.Typ = "generic")
    (hver : mapGet mount.Options "version" ≠ some "2")
    (hne : secretPath ≠ "") (hleaf : HasSuffix secretPath "/" = false)
    (hfuel : slashes secretPath < fuel) :
    backupSecretEngines (storeAPIWith sprint) fuel backup []
        ⟨[(mountPath, mount)], auths, policies, (mountPath ++ secretPath, payload) :: others, [],
          clock⟩
      = .done (.ok (backup.addEngine ⟨mountPath, mount.Typ, mount.Description, [],
            convertStringMapToInterface mount.Options,
            [⟨secretPath, [⟨1, payload, ⟨clock⟩, "", false⟩],
              { SecretMetadata.zero with CurrentVersion := 1, MaxVersions := 1 }⟩]⟩),
          ⟨[(mountPath, mount)], auths, policies, (mountPath ++ secretPath, payload) :: others, [],
            clock + 1⟩) := by
  have hpaths := listAllPaths_head sprint mountPath payload
    ⟨[(mountPath, mount)], auths, policies, (mountPath ++ secretPath, payload) :: others, [],
      clock⟩ others rfl ho
    fuel "" secretPath (by simp only [String.append_empty]) hne hleaf hfuel
  have hread : (storeAPIWith sprint).read (mountPath ++ secretPath)
      ⟨[(mountPath, mount)], auths, policies, (mountPath ++ secretPath, payload) :: others, [],
        clock⟩
      = (.ok (some ⟨some payload⟩),
        ⟨[(mountPath, mount)], auths, policies, (mountPath ++ secretPath, payload) :: others, [],
          clock⟩) := by
    simp [storeAPIWith, storeAPI, contains, mapGet]
  have hlm : (storeAPIWith sprint).listMounts
      ⟨[(mountPath, mount)], auths, policies, (mountPath ++ secretPath, payload) :: others, [],
        clock⟩
      = (.ok [(mountPath, mount)],
        ⟨[(mountPath, mount)], auths, policies, (mountPath ++ secretPath, payload) :: others, [],
          clock⟩) :=
    rfl
  have hsecrets : backupKVv1Secrets (storeAPIWith sprint) fuel mountPath
      ⟨[(mountPath, mount)], auths, policies, (mountPath ++ secretPath, payload) :: others, [],
        clock⟩
      = .done (.ok [⟨secretPath, [⟨1, payload, ⟨clock⟩, "", false⟩],
              { SecretMetadata.zero with CurrentVersion := 1, MaxVersions := 1 }⟩],
          ⟨[(mountPath, mount)], auths, policies, (mountPath ++ secretPath, payload) :: others,
            [], clock + 1⟩) := by
    unfold backupKVv1Secrets
    rw [hpaths]
    simp only [Run.bind_done, backupKVv1Paths, hread, List.nil_append]
    rfl
  unfold backupSecretEngines
  rw [hlm]
  simp only [backupMounts, isSystemMount_of_not_reserved mountPath hres, filteredOut,
    List.length_nil, gt_iff_lt, Nat.lt_irrefl, decide_False, Bool.false_and, Bool.false_eq_true,
    if_false, htyp, if_true, hver, hsecrets, Run.bind_done, convertToMap]

/-- The export of a store with one v1-style mount whose one stored key
outside `auth/` is a secret below the mount. -/
theorem Backup_restored_one (sprint : Value → String) (fuel : Nat) (mountPath : String)
    (mount : MountOutput)
    (secretPath : String) (payload : Data) (s : Store)
    (h : RestoredOne mountPath mount (mountPath ++ secretPath) payload s)
    (hres : ¬ reservedPath mountPath)
    (hslash : HasSuffix mountPath "/" = true)
    (hauth : HasPrefix mountPath "auth/" = false)
    (htyp : mount.Typ = "kv" ∨ mount.Typ = "generic")
    (hver : mapGet mount.Options "version" ≠ some "2")
    (hne : secretPath ≠ "") (hleaf : HasSuffix secretPath "/" = false)
    (hfuel : slashes secretPath < fuel) :
    ∃ b' s', Backup (storeAPIWith sprint) fuel [] s = .done (.ok b', s')
      ∧ b'.SecretEngines = [⟨mountPath, mount.Typ, mount.Description, [],
          convertStringMapToInterface mount.Options,
          [⟨secretPath, [⟨1, payload, ⟨1⟩, "", false⟩],
            { SecretMetadata.zero with CurrentVersion := 1, MaxVersions := 1 }⟩]⟩] := by
  obtain ⟨mounts, auths, policies, kv, denied, clock⟩ := s
  obtain ⟨h1, h2, h3, others, h4, h5⟩ := h
  simp only at h1 h2 h3 h4
  subst h1 h2 h3 h4
  have ho : ∀ e ∈ others, HasPrefix e.1 mountPath = false :=
    fun e he => auth_prefix_apart mountPath e.1 hslash hauth (h5 e he)
  have hnow : (storeAPIWith sprint).now
      ⟨[(mountPath, mount)], auths, policies, (mountPath ++ secretPath, payload) :: others, [], 0⟩
      = (⟨0⟩, ⟨[(mountPath, mount)], auths, policies,
          (mountPath ++ secretPath, payload) :: others, [], 1⟩) :=
    rfl
  have hhealth : (storeAPIWith sprint).health
      ⟨[(mountPath, mount)], auths, policies, (mountPath ++ secretPath, payload) :: others, [], 1⟩
      = (.ok "1.15.0",
        ⟨[(mountPath, mount)], auths, policies, (mountPath ++ secretPath, payload) :: others, [],
          1⟩) := rfl
  have hengines := backupSecretEngines_one sprint fuel ⟨⟨0⟩, "1.15.0", [], [], []⟩ mountPath mount
    secretPath payload others auths policies 1 ho hres htyp hver hne hleaf hfuel
  have hlp : ∀ b, backupPolicies (storeAPIWith sprint) b
      ⟨[(mountPath, mount)], auths, policies, (mountPath ++ secretPath, payload) :: others, [],
        1 + 1⟩
      = (.ok (backupPolicyNames (storeAPIWith sprint) (Keys policies) b
            ⟨[(mountPath, mount)], auths, policies,
              (mountPath ++ secretPath, payload) :: others, [], 1 + 1⟩).1,
          ⟨[(mountPath, mount)], auths, policies, (mountPath ++ secretPath, payload) :: others,
            [], 1 + 1⟩) := by
    intro b
    have hl : (storeAPIWith sprint).listPolicies
        ⟨[(mountPath, mount)], auths, policies, (mountPath ++ secretPath, payload) :: others, [],
          1 + 1⟩
        = (.ok (Keys policies),
          ⟨[(mountPath, mount)], auths, policies, (mountPath ++ secretPath, payload) :: others,
            [], 1 + 1⟩) :=
      rfl
    unfold backupPolicies
    rw [hl]
    simp only [backupPolicyNames_store_state]
  obtain ⟨b3, s3, hb3, he3⟩ := backupAuthMethods_store sprint
    (backupPolicyNames (storeAPIWith sprint) (Keys policies)
      ((⟨⟨0⟩, "1.15.0", [], [], []⟩ : BackupData).addEngine ⟨mountPath, mount.Typ,
        mount.Description, [], convertStringMapToInterface mount.Options,
        [⟨secretPath, [⟨1, payload, ⟨1⟩, "", false⟩],
          { SecretMetadata.zero with CurrentVersion := 1, MaxVersions := 1 }⟩]⟩)
      ⟨[(mountPath, mount)], auths, policies, (mountPath ++ secretPath, payload) :: others, [],
        1 + 1⟩).1
    ⟨[(mountPath, mount)], auths, policies, (mountPath ++ secretPath, payload) :: others, [],
      1 + 1⟩ rfl
  refine ⟨b3, s3, ?_, ?_⟩
  · unfold Backup
    simp only [hnow, hhealth, hengines, Run.bind_done, hlp, hb3]
  · rw [he3]
    simp only [BackupData.addEngine, List.nil_append,
      (backupPolicyNames_spec (storeAPIWith sprint) _ _ _).1]

/-- C7 (amended): for every way `sprint` of printing a value and every
snapshot that holds one v1-style key-value engine (type `kv` or `generic`,
distinct option keys, no version option that reads `2` once `Restore` has
converted it to a string) at a mount path that ends in `/`, is not reserved
and is not below `auth/`, with one secret at a non-empty path not ending in
`/` that has one version, and that holds any policies and auth methods:
`Restore` into the empty store, with the engine in the scope of the
allow-list, followed by `Backup` with enough fuel returns a snapshot whose
engine at that mount path has a secret at that path whose one version
carries the original payload (its number is 1 and its time the time of the
export); the engines of the returned snapshot are that engine alone. -/
theorem Restore_then_Backup_returns_v1_payload (sprint : Value → String) (ts : Time)
    (vaultVersion mountPath typ desc : String) (config options : Data) (secretPath : String)
    (version : SecretVersion) (metadata : SecretMetadata) (policies : List PolicyBackup)
    (auths : List AuthMethodBackup) (opts : RestoreOptions) (fuel : Nat)
    (htyp : typ = "kv" ∨ typ = "generic")
    (hnd : (Keys options).Nodup)
    (hv1 : ∀ v, mapGet options "version" = some v → optionString sprint v ≠ "2")
    (hslash : HasSuffix mountPath "/" = true)
    (hres : ¬ reservedPath mountPath)
    (hauth : HasPrefix mountPath "auth/" = false)
    (hscope : opts.Engines ≠ [] → TrimSuffix mountPath "/" ∈ opts.Engines)
    (hne : secretPath ≠ "") (hleaf : HasSuffix secretPath "/" = false)
    (hfuel : slashes secretPath < fuel) :
    ∃ b' s',
      Backup (storeAPIWith sprint) fuel []
          (Restore (storeAPIWith sprint) ⟨ts, vaultVersion,
            [⟨mountPath, typ, desc, config, options, [⟨secretPath, [version], metadata⟩]⟩],
            policies, auths⟩ opts Store.empty).2 = .done (.ok b', s')
        ∧ (∃ e ∈ b'.SecretEngines, e.Path = mountPath
            ∧ ∃ secret ∈ e.Secrets, secret.Path = secretPath
              ∧ secret.Versions.map (fun v => v.Data) = [version.Data])
        ∧ b'.SecretEngines = [⟨mountPath, typ, desc, [],
            convertStringMapToInterface (convertInterfaceMapToString sprint options),
            [⟨secretPath, [⟨1, version.Data, ⟨1⟩, "", false⟩],
              { SecretMetadata.zero with CurrentVersion := 1, MaxVersions := 1 }⟩]⟩] := by
  obtain ⟨hv, hver⟩ := not_version2 sprint options hnd hv1
  have hrestored := Restore_one_engine sprint ts vaultVersion mountPath typ desc config options
    secretPath version metadata policies auths opts htyp hv hslash hauth
    (filteredOut_eq_false _ _ hscope)
  obtain ⟨b', s', hb, he⟩ := Backup_restored_one sprint fuel mountPath
    ⟨typ, desc, convertInterfaceMapToString sprint options⟩ secretPath version.Data _
    hrestored hres hslash hauth htyp hver hne hleaf hfuel
  refine ⟨b', s', hb, ?_, he⟩
  rw [he]
  exact ⟨_, List.mem_singleton_self _, rfl, _, List.mem_singleton_self _, rfl, rfl⟩

/-- C7 as stated fails on the concrete server for an engine under a reserved
prefix: the restored mount `sys/legacy/` is skipped by the export, which
returns no engine.  It fails as well for an engine whose version option is
the number 2, which `Restore` converts to the string `2`; for an engine
below `auth/` whose secret lies where the auth phase writes a user; for a
mount path without the final `/`; for a secret path that ends in `/` or is
empty; and for an engine outside the allow-list of the import. -/
theorem Restore_then_Backup_loses_reserved_engine :
    ((reservedEngineSnapshot.SecretEngines.map fun e =>
        (e.Path, e.Typ, e.Secrets.map fun x => (x.Path, x.Versions.map fun v => v.Data)))
        = [("sys/legacy/", "kv", [("app", [[("k", Value.str "v")]])])]
      ∧ ∃ s', Backup storeAPI 2 []
          (Restore storeAPI reservedEngineSnapshot defaultOptions Store.empty).2
        = .done (.ok ⟨⟨0⟩, "1.15.0", [], [], []⟩, s'))
      ∧ (optionString sprintValue (Value.float ⟨2, 0⟩) = "2"
        ∧ (oneEngineSnapshot "kv/" [("version", Value.float ⟨2, 0⟩)] "app" []).payloads
          = [("kv/", [("app", [[("user", Value.str "u"), ("pw", Value.str "p")]])])]
        ∧ roundTrip (oneEngineSnapshot "kv/" [("version", Value.float ⟨2, 0⟩)] "app" [])
            defaultOptions 3 = some [("kv/", [])])
      ∧ ((oneEngineSnapshot "auth/userpass/" [] "users/alice" [aliceAuth]).payloads
          = [("auth/userpass/",
              [("users/alice", [[("user", Value.str "u"), ("pw", Value.str "p")]])])]
        ∧ roundTrip (oneEngineSnapshot "auth/userpass/" [] "users/alice" [aliceAuth])
            defaultOptions 3
          = some [("auth/userpass/", [("users/alice",
              [[("policies", Value.str "ops"), ("password", Value.str "ChangeMe123!")]])])])
      ∧ roundTrip (oneEngineSnapshot "kv" [] "app" []) defaultOptions 3 = some [("kv/", [])]
      ∧ roundTrip (oneEngineSnapshot "kv/" [] "dir/" []) defaultOptions 3 = some [("kv/", [])]
      ∧ roundTrip (oneEngineSnapshot "kv/" [] "" []) defaultOptions 3 = some [("kv/", [])]
      ∧ roundTrip (oneEngineSnapshot "kv/" [] "app" [])
          { defaultOptions with Engines := ["other"] } 3 = some [] :=
  ⟨⟨rfl, _, rfl⟩, ⟨by decide, rfl, rfl⟩, ⟨rfl, rfl⟩, rfl, rfl, rfl, rfl⟩

/-- C7 (amended) on `oneSecretSnapshot`, whose version option is the number
1 and which holds a userpass auth method with a user: the secret
`team/app/db` of the engine `kv/` comes back with its payload. -/
theorem Restore_then_Backup_witness :
    ("kv" = "kv" ∨ "kv" = "generic")
      ∧ (Keys [("version", Value.float ⟨1, 0⟩)]).Nodup
      ∧ optionString sprintValue (Value.float ⟨1, 0⟩) = "1"
      ∧ HasSuffix "kv/" "/" = true ∧ ¬ reservedPath "kv/" ∧ HasPrefix "kv/" "auth/" = false
      ∧ "team/app/db" ≠ "" ∧ HasSuffix "team/app/db" "/" = false ∧ slashes "team/app/db" < 3
      ∧ ∃ b' s',
        Backup storeAPI 3 [] (Restore storeAPI oneSecretSnapshot defaultOptions Store.empty).2
            = .done (.ok b', s')
          ∧ (∃ e ∈ b'.SecretEngines, e.Path = "kv/"
              ∧ ∃ secret ∈ e.Secrets, secret.Path = "team/app/db"
                ∧ secret.Versions.map (fun v => v.Data)
                  = [[("user", Value.str "u"), ("pw", Value.str "p")]])
          ∧ b'.SecretEngines = [⟨"kv/", "kv", "legacy", [],
              convertStringMapToInterface
                (convertInterfaceMapToString sprintValue [("version", Value.float ⟨1, 0⟩)]),
              [⟨"team/app/db",
                [⟨1, [("user", Value.str "u"), ("pw", Value.str "p")], ⟨1⟩, "", false⟩],
                { SecretMetadata.zero with CurrentVersion := 1, MaxVersions := 1 }⟩]⟩] :=
  ⟨Or.inl rfl, by decide, by decide, rfl, by decide, rfl, by decide, rfl, by decide,
    Restore_then_Backup_returns_v1_payload sprintValue Time.zero "" "kv/" "kv" "legacy" []
      [("version", Value.float ⟨1, 0⟩)] "team/app/db"
      ⟨7, [("user", Value.str "u"), ("pw", Value.str "p")], ⟨99⟩, "", false⟩
      { SecretMetadata.zero with CurrentVersion := 7 } [⟨"ops", "# operators"⟩] [aliceAuth]
      defaultOptions 3
      (Or.inl rfl) (by decide)
      (by
        intro v hv
        simp only [mapGet, if_true, Option.some.injEq] at hv
        rw [← hv]
        decide)
      rfl (by decide) rfl (by intro h; exact absurd rfl h) (by decide) rfl (by decide)⟩

/-! ### The enumeration of a key tree -/

theorem firstSegment_append_slash : ∀ (name rest : List Char), '/' ∉ name →
    firstSegment (name ++ '/' :: rest) = name ++ ['/'] := by
  intro name
  induction name with
  | nil => intro rest _; simp [firstSegment]
  | cons c name ih =>
    intro rest h
    simp only [List.mem_cons, not_or] at h
    have hc : ¬ c = '/' := fun hc => h.1 hc.symm
    have e := ih rest h.2
    simp only [List.cons_append, firstSegment, hc, if_false, List.cons.injEq, true_and]
    exact e

/-- A path that begins with a directory segment has that segment as its first. -/
theorem firstSegment_dir (k : String) (r : List Char) (hseg : '/' ∉ k.data.dropLast)
    (hdir : HasSuffix k "/" = true) : firstSegment (k.data ++ r) = k.data := by
  obtain ⟨name, hname⟩ := (HasSuffix_iff _ _).mp hdir
  have hk : k.data = name ++ ['/'] := hname.symm
  rw [hk] at hseg ⊢
  rw [List.dropLast_concat] at hseg
  rw [List.append_assoc]
  exact firstSegment_append_slash name r hseg

/-- A leaf segment holds no `/`. -/
theorem leaf_no_slash (k : String) (hseg : '/' ∉ k.data.dropLast)
    (hleaf : HasSuffix k "/" = false) : '/' ∉ k.data := by
  intro hmem
  rcases List.eq_nil_or_concat k.data with h | ⟨l, c, h⟩
  · rw [h] at hmem; simp at hmem
  · rw [h] at hseg hmem
    rw [List.concat_eq_append] at hseg hmem h
    rw [List.dropLast_concat] at hseg
    rcases List.mem_append.mp hmem with h1 | h1
    · exact hseg h1
    · have hc : c = '/' := (List.mem_singleton.mp h1).symm
      have : HasSuffix k "/" = true := by
        rw [HasSuffix_iff]
        exact ⟨l, by rw [h, hc]⟩
      rw [this] at hleaf
      exact absurd hleaf (by simp)

/-- Every path that the key `k` of a level contributes begins with `k` as
its first segment. -/
theorem firstSegment_of_key (k x : String) (hseg : '/' ∉ k.data.dropLast)
    (hx : (HasSuffix k "/" = false ∧ x = k)
      ∨ (HasSuffix k "/" = true ∧ ∃ rel : String, x = k ++ rel)) :
    firstSegment x.data = k.data := by
  rcases hx with ⟨hleaf, rfl⟩ | ⟨hdir, rel, rfl⟩
  · exact firstSegment_of_no_slash _ (leaf_no_slash x hseg hleaf)
  · rw [String.data_append]
    exact firstSegment_dir k rel.data hseg hdir

theorem String_append_left_cancel (k a b : String) (h : k ++ a = k ++ b) : a = b := by
  have := congrArg String.data h
  rw [String.data_append, String.data_append] at this
  exact String.ext (List.append_cancel_left this)

theorem listKeys_leaves {σ : Type} (Inv : σ → Prop)
    (recurse : String → σ → Run (Except Err (List String) × σ)) (pfx : String)
    (P : String → String → Prop) :
    ∀ (ks : List String), (∀ k ∈ ks, '/' ∉ k.data.dropLast) → ks.Nodup →
      (∀ k ∈ ks, HasSuffix k "/" = true → ∀ w, Inv w →
        ∃ sub w', recurse (pfx ++ k) w = .done (.ok sub, w') ∧ Inv w' ∧ sub.Nodup
          ∧ ∀ rel, rel ∈ sub ↔ P k rel) →
      ∀ (acc : List String) (w : σ), Inv w →
        ∃ paths w', listKeys recurse pfx (ks.map Value.str) acc w = .done (.ok (acc ++ paths), w')
          ∧ Inv w' ∧ paths.Nodup
          ∧ ∀ x, x ∈ paths ↔ ∃ k ∈ ks, (HasSuffix k "/" = false ∧ x = k)
              ∨ (HasSuffix k "/" = true ∧ ∃ rel, P k rel ∧ x = k ++ rel) := by
  intro ks
  induction ks with
  | nil =>
    intro _ _ _ acc w hI
    exact ⟨[], w, by simp [listKeys], hI, List.nodup_nil, by simp⟩
  | cons k rest ih =>
    intro hseg hnd hrec acc w hI
    have hnd' := List.nodup_cons.mp hnd
    have ih' := ih (fun k' hk' => hseg k' (List.mem_cons_of_mem _ hk')) hnd'.2
      (fun k' hk' => hrec k' (List.mem_cons_of_mem _ hk'))
    have hsegk := hseg k (List.mem_cons_self _ _)
    -- the paths of the other keys begin with another segment
    have hother : ∀ (paths : List String),
        (∀ x, x ∈ paths ↔ ∃ k' ∈ rest, (HasSuffix k' "/" = false ∧ x = k')
              ∨ (HasSuffix k' "/" = true ∧ ∃ rel, P k' rel ∧ x = k' ++ rel)) →
        ∀ x ∈ paths, firstSegment x.data ≠ k.data := by
      intro paths hp x hx heq
      obtain ⟨k', hk', hcase⟩ := (hp x).mp hx
      have h1 : firstSegment x.data = k'.data := by
        apply firstSegment_of_key k' x (hseg k' (List.mem_cons_of_mem _ hk'))
        rcases hcase with h | ⟨h, rel, _, hrel⟩
        · exact Or.inl h
        · exact Or.inr ⟨h, rel, hrel⟩
      have : k' = k := String.ext (h1.symm.trans heq)
      exact hnd'.1 (this ▸ hk')
    simp only [List.map_cons]
    unfold listKeys
    simp only
    cases hsuf : HasSuffix k "/" with
    | true =>
      obtain ⟨sub, w1, hr, hI1, hsubnd, hsub⟩ := hrec k (List.mem_cons_self _ _) hsuf w hI
      obtain ⟨paths, w2, hrun, hI2, hpnd, hp⟩ :=
        ih' (acc ++ sub.map (fun subPath => k ++ subPath)) w1 hI1
      refine ⟨sub.map (fun subPath => k ++ subPath) ++ paths, w2, ?_, hI2, ?_, ?_⟩
      · simp only [if_true, hr, Run.bind_done, hrun, List.append_assoc]
      · rw [List.nodup_append]
        refine ⟨hsubnd.map (fun a b h => String_append_left_cancel k a b h), hpnd, ?_⟩
        intro x hx1 hx2
        obtain ⟨rel, _, rfl⟩ := List.mem_map.mp hx1
        exact hother paths hp _ hx2 (firstSegment_of_key k _ hsegk (Or.inr ⟨hsuf, rel, rfl⟩))
      · intro x
        simp only [List.mem_append, List.mem_map, List.mem_cons, exists_eq_or_imp, hsuf,
          Bool.true_eq_false, false_and, true_and, false_or, hp x]
        constructor
        · rintro (⟨rel, hrel, rfl⟩ | h)
          · exact Or.inl ⟨rel, (hsub rel).mp hrel, rfl⟩
          · exact Or.inr h
        · rintro (⟨rel, hrel, rfl⟩ | h)
          · exact Or.inl ⟨rel, (hsub rel).mpr hrel, rfl⟩
          · exact Or.inr h
    | false =>
      obtain ⟨paths, w2, hrun, hI2, hpnd, hp⟩ := ih' (acc ++ [k]) w hI
      refine ⟨k :: paths, w2, ?_, hI2, ?_, ?_⟩
      · simp only [Bool.false_eq_true, if_false, hrun, List.append_assoc, List.singleton_append]
      · rw [List.nodup_cons]
        refine ⟨?_, hpnd⟩
        intro hx
        exact hother paths hp _ hx (firstSegment_of_key k k hsegk (Or.inl ⟨hsuf, rfl⟩))
      · intro x
        simp only [List.mem_cons, exists_eq_or_imp, hsuf, Bool.false_eq_true, false_and,
          true_and, or_false, hp x]

theorem LeafBelow_of_shows_nothing (ls : String → Option (List String)) (q rel : String)
    (h : ls q = none) : ¬ LeafBelow ls q rel := by
  intro hl
  cases hl with
  | leaf _ _ keys hk _ _ => rw [h] at hk; exact absurd hk (by simp)
  | dir _ _ _ keys hk _ _ _ => rw [h] at hk; exact absurd hk (by simp)

theorem LeafBelow_iff (ls : String → Option (List String)) (q x : String) (keys : List String)
    (h : ls q = some keys) :
    LeafBelow ls q x ↔ ∃ k ∈ keys, (HasSuffix k "/" = false ∧ x = k)
      ∨ (HasSuffix k "/" = true ∧ ∃ rel, LeafBelow ls (q ++ k) rel ∧ x = k ++ rel) := by
  constructor
  · intro hl
    cases hl with
    | leaf _ _ keys' hk hmem hleaf =>
      rw [h] at hk
      cases hk
      exact ⟨x, hmem, Or.inl ⟨hleaf, rfl⟩⟩
    | dir _ k rel keys' hk hmem hdir hsub =>
      rw [h] at hk
      cases hk
      exact ⟨k, hmem, Or.inr ⟨hdir, rel, hsub, rfl⟩⟩
  · rintro ⟨k, hmem, ⟨hleaf, rfl⟩ | ⟨hdir, rel, hsub, rfl⟩⟩
    · exact LeafBelow.leaf q _ keys h hmem hleaf
    · exact LeafBelow.dir q k rel keys h hmem hdir hsub

theorem listAllPaths_leaves {σ : Type} (V : API σ) (Inv : σ → Prop) (mountPath pfx : String)
    (ls : String → Option (List String)) (rank : String → Nat)
    (hV : KeyTree V Inv (mountPath ++ pfx) ls rank) :
    ∀ (fuel : Nat) (q : String) (s : σ), Inv s → rank q < fuel →
      ∃ paths s', listAllPaths V fuel mountPath (pfx ++ q) s = .done (.ok paths, s') ∧ Inv s'
        ∧ paths.Nodup ∧ ∀ rel, rel ∈ paths ↔ LeafBelow ls q rel := by
  intro fuel
  induction fuel with
  | zero => intro q s _ h; omega
  | succ fuel ih =>
    intro q s hI hrank
    have hshow := hV.list_shows q s hI
    have hkeep := hV.list_keeps (mountPath ++ pfx ++ q) s hI
    unfold listAllPaths
    rw [← String.append_assoc]
    generalize V.list (mountPath ++ pfx ++ q) s = ans at hshow hkeep
    obtain ⟨r, s1⟩ := ans
    have hnone : shownKeys r = none →
        ∃ paths s',
          (Run.done (Except.ok ([] : List String), s1) : Run (Except Err (List String) × σ))
            = .done (.ok paths, s') ∧ Inv s'
          ∧ paths.Nodup ∧ ∀ rel, rel ∈ paths ↔ LeafBelow ls q rel := by
      intro hn
      rw [hn] at hshow
      have hls : ls q = none := by
        cases h : ls q with
        | none => rfl
        | some keys => rw [h] at hshow; simp at hshow
      exact ⟨[], s1, rfl, hkeep, List.nodup_nil, fun rel =>
        ⟨fun h => absurd h (List.not_mem_nil _),
          fun h => absurd h (LeafBelow_of_shows_nothing ls q rel hls)⟩⟩
    cases r with
    | error e => exact hnone rfl
    | ok o =>
      cases o with
      | none => exact hnone rfl
      | some resp =>
        simp only
        cases hk : index (resp.Data.getD []) "keys" with
        | arr keys =>
          simp only [shownKeys, hk] at hshow
          cases hls : ls q with
          | none => rw [hls] at hshow; simp at hshow
          | some ks =>
            rw [hls] at hshow
            simp only [Option.map_some', Option.some.injEq] at hshow
            rw [hshow]
            obtain ⟨paths, s2, hrun, hI2, hnd, hp⟩ :=
              listKeys_leaves Inv (fun p t => listAllPaths V fuel mountPath p t) (pfx ++ q)
                (fun k rel => LeafBelow ls (q ++ k) rel) ks (hV.segments q ks hls)
                (hV.distinct q ks hls)
                (fun k hk' hdir w hw => by
                  have hlt := hV.finite q ks hls k hk' hdir
                  obtain ⟨sub, w', h1, h2, h3, h4⟩ := ih (q ++ k) w hw (by omega)
                  rw [← String.append_assoc] at h1
                  exact ⟨sub, w', h1, h2, h3, h4⟩)
                [] s1 hkeep
            refine ⟨paths, s2, by simpa using hrun, hI2, hnd, ?_⟩
            intro rel
            rw [hp rel, LeafBelow_iff ls q rel ks hls]
        | null => exact hnone (by simp [shownKeys, hk])
        | bool b => exact hnone (by simp [shownKeys, hk])
        | int i => exact hnone (by simp [shownKeys, hk])
        | float f => exact hnone (by simp [shownKeys, hk])
        | number n => exact hnone (by simp [shownKeys, hk])
        | str t => exact hnone (by simp [shownKeys, hk])
        | obj kv => exact hnone (by simp [shownKeys, hk])
        | strMap kv => exact hnone (by simp [shownKeys, hk])
        | other t => exact hnone (by simp [shownKeys, hk])

theorem addKey_nodup (ks : List String) (k : String) (h : ks.Nodup) : (addKey ks k).Nodup := by
  unfold addKey
  cases hc : contains ks k with
  | true => simpa using h
  | false =>
    have hk : k ∉ ks := by
      intro hm
      rw [(contains_iff ks k).mpr hm] at hc
      exact absurd hc (by simp)
    simp only [Bool.false_eq_true, if_false]
    rw [List.nodup_append]
    exact ⟨h, List.nodup_singleton k, by
      intro x hx hx'
      rw [List.mem_singleton] at hx'
      exact hk (hx' ▸ hx)⟩

theorem childrenOf_nodup (path : String) :
    ∀ (kv : List (String × Data)) (init : List String), init.Nodup →
      (kv.foldl (fun ks e =>
          if HasPrefix e.1 path then
            match e.1.data.drop path.data.length with
            | [] => ks
            | c :: rest => addKey ks ⟨firstSegment (c :: rest)⟩
          else ks) init).Nodup := by
  intro kv
  induction kv with
  | nil => intro init h; exact h
  | cons e kv ih =>
    intro init h
    rw [List.foldl_cons]
    apply ih
    split
    · split
      · exact h
      · exact addKey_nodup _ _ h
    · exact h

theorem firstSegment_dropLast : ∀ (r : List Char), '/' ∉ (firstSegment r).dropLast := by
  intro r
  induction r with
  | nil => simp [firstSegment]
  | cons c rest ih =>
    unfold firstSegment
    split
    · simp
    · rename_i hc
      cases hf : firstSegment rest with
      | nil => simp
      | cons d ds =>
        rw [hf] at ih
        rw [List.dropLast_cons₂]
        intro hm
        rcases List.mem_cons.mp hm with h1 | h1
        · exact hc h1.symm
        · exact ih h1

/-- The key space of the concrete server beneath any path is a finite tree. -/
theorem storeAPI_keyTree (kv0 : List (String × Data)) (den : List String) (root : String) :
    KeyTree storeAPI (fun s => s.kv = kv0 ∧ s.denied = den) root (Store.keyTree kv0 den root)
      (fun q => storeRank kv0 (root ++ q)) where
  list_keeps := by
    intro p s hI
    simp only [storeAPI]
    split
    · exact hI
    · split <;> exact hI
  list_shows := by
    intro q s hI
    simp only [storeAPI, Store.keyTree, hI.1, hI.2]
    split
    · rfl
    · cases hc : Store.childrenOf kv0 (root ++ q) with
      | nil => rfl
      | cons k ks => simp [shownKeys, index, mapGet]
  distinct := by
    intro q keys h
    have hnd : (Store.childrenOf kv0 (root ++ q)).Nodup := childrenOf_nodup _ kv0 [] List.nodup_nil
    simp only [Store.keyTree] at h
    split at h
    · simp at h
    · split at h
      · simp at h
      · rename_i k ks hc
        simp only [Option.some.injEq] at h
        rw [← h, ← hc]
        exact hnd
  segments := by
    intro q keys h k hk
    simp only [Store.keyTree] at h
    split at h
    · simp at h
    · split at h
      · simp at h
      · rename_i k0 ks hc
        simp only [Option.some.injEq] at h
        rw [← h, ← hc] at hk
        obtain ⟨e, _, _, c, rest, _, rfl⟩ := (mem_childrenOf kv0 _ k).mp hk
        exact firstSegment_dropLast _
  finite := by
    intro q keys h k hk hdir
    simp only [Store.keyTree] at h
    split at h
    · simp at h
    · split at h
      · simp at h
      · rename_i k0 ks hc
        simp only [Option.some.injEq] at h
        rw [← h, ← hc] at hk
        have := storeRank_child kv0 (root ++ q) k hk hdir
        simpa only [String.append_assoc] using this

/-- C11: on every server whose key space beneath `mountPath ++ pfx` is a
finite tree (`KeyTree`: listings answer from the tree `ls`, the keys of a
level are distinct segments, a key ending in `/` leads to a level of smaller
rank), `listAllPaths` returns with enough fuel, returns no error, and returns
each leaf key path beneath the prefix once: a path is returned exactly when
it is the directory keys on the way down followed by a leaf key.  A level
that shows nothing (`ls q = none`: the listing fails or returns nothing) has
no leaf path beneath it, and the keys beside it are enumerated all the same. -/
theorem listAllPaths_returns_exactly_the_leaf_paths {σ : Type} (V : API σ) (Inv : σ → Prop)
    (mountPath pfx : String) (ls : String → Option (List String)) (rank : String → Nat)
    (hV : KeyTree V Inv (mountPath ++ pfx) ls rank) (fuel : Nat) (hfuel : rank "" < fuel)
    (s : σ) (hs : Inv s) :
    ∃ paths s', listAllPaths V fuel mountPath pfx s = .done (.ok paths, s') ∧ Inv s'
      ∧ paths.Nodup ∧ (∀ rel, rel ∈ paths ↔ LeafBelow ls "" rel)
      ∧ (ls "" = none → paths = [])
      ∧ ∀ keys, ls "" = some keys → ∀ k ∈ keys,
          (HasSuffix k "/" = false → k ∈ paths)
          ∧ (HasSuffix k "/" = true → ls k = none → ∀ rel, k ++ rel ∉ paths) := by
  obtain ⟨paths, s', hrun, hI, hnd, hp⟩ :=
    listAllPaths_leaves V Inv mountPath pfx ls rank hV fuel "" s hs hfuel
  rw [String.append_empty] at hrun
  refine ⟨paths, s', hrun, hI, hnd, hp, ?_, ?_⟩
  · intro hnone
    apply List.eq_nil_iff_forall_not_mem.mpr
    intro rel hrel
    exact LeafBelow_of_shows_nothing ls "" rel hnone ((hp rel).mp hrel)
  · intro keys hkeys k hk
    constructor
    · intro hleaf
      exact (hp k).mpr (LeafBelow.leaf "" k keys hkeys hk hleaf)
    · intro hdir hnone rel hrel
      obtain ⟨k', hk', hcase⟩ := (LeafBelow_iff ls "" _ keys hkeys).mp ((hp _).mp hrel)
      have hseg := hV.segments "" keys hkeys
      have h1 : firstSegment (k ++ rel).data = k.data :=
        firstSegment_of_key k _ (hseg k hk) (Or.inr ⟨hdir, rel, rfl⟩)
      have h2 : firstSegment (k ++ rel).data = k'.data := by
        apply firstSegment_of_key k' _ (hseg k' hk')
        rcases hcase with h | ⟨h, rel', _, hrel'⟩
        · exact Or.inl h
        · exact Or.inr ⟨h, rel', hrel'⟩
      have hkk : k' = k := String.ext (h2.symm.trans h1)
      subst hkk
      rcases hcase with ⟨hleaf, _⟩ | ⟨_, rel', hsub, _⟩
      · rw [hdir] at hleaf; exact absurd hleaf (by simp)
      · rw [String.empty_append] at hsub
        exact LeafBelow_of_shows_nothing ls k' rel' hnone hsub

/-- C11 at a store with a secret at the top of the mount, two below
directories and one below a directory whose listing is denied: the three
reachable leaf paths are returned, the denied level contributes none. -/
theorem listAllPaths_leaf_paths_witness :
    listAllPaths storeAPI 4 "secret/" "" treeStore
        = .done (.ok ["a", "dir/b", "dir/sub/c"], treeStore)
      ∧ Store.keyTree treeStore.kv treeStore.denied "secret/" "locked/" = none
      ∧ ∃ paths s', listAllPaths storeAPI 4 "secret/" "" treeStore = .done (.ok paths, s')
        ∧ (s'.kv = treeStore.kv ∧ s'.denied = treeStore.denied)
        ∧ paths.Nodup
        ∧ (∀ rel, rel ∈ paths
            ↔ LeafBelow (Store.keyTree treeStore.kv treeStore.denied ("secret/" ++ "")) "" rel)
        ∧ (Store.keyTree treeStore.kv treeStore.denied ("secret/" ++ "") "" = none → paths = [])
        ∧ ∀ keys, Store.keyTree treeStore.kv treeStore.denied ("secret/" ++ "") "" = some keys →
            ∀ k ∈ keys, (HasSuffix k "/" = false → k ∈ paths)
              ∧ (HasSuffix k "/" = true →
                  Store.keyTree treeStore.kv treeStore.denied ("secret/" ++ "") k = none →
                  ∀ rel, k ++ rel ∉ paths) :=
  ⟨rfl, rfl,
    listAllPaths_returns_exactly_the_leaf_paths storeAPI
      (fun s => s.kv = treeStore.kv ∧ s.denied = treeStore.denied) "secret/" ""
      (Store.keyTree treeStore.kv treeStore.denied ("secret/" ++ ""))
      (fun q => storeRank treeStore.kv ("secret/" ++ "" ++ q))
      (storeAPI_keyTree treeStore.kv treeStore.denied ("secret/" ++ "")) 4 (by decide)
      treeStore ⟨rfl, rfl⟩⟩

/-! ### The mount a restore creates -/

theorem restoreSecretEngines_append {σ : Type} (V : API σ) (F : List String) :
    ∀ (pre rest : List SecretEngineBackup) (s : σ),
      restoreSecretEngines V F (pre ++ rest) s
        = match restoreSecretEngines V F pre s with
          | (some err, s1) => (some err, s1)
          | (none, s1) => restoreSecretEngines V F rest s1 := by
  intro pre
  induction pre with
  | nil => intro rest s; simp [restoreSecretEngines]
  | cons e pre ih =>
    intro rest s
    simp only [List.cons_append, restoreSecretEngines]
    split
    · exact ih rest s
    · split
      · rfl
      · split
        · exact ih rest _
        · split
          · exact ih rest _
          · exact ih rest _

/-- The secrets of an engine are restored by writes alone. -/
theorem restoreEngineSecrets_writes {σ : Type} (V : API σ) (engine : SecretEngineBackup)
    (w : σ × List Event) :
    ∃ writes, (restoreEngineSecrets (traced V) engine w).2 = w.2 ++ writes
      ∧ ∀ ev ∈ writes, ∃ p d, ev.call = Call.write p d := by
  apply restoreEngineSecrets_inv (traced V)
    (fun w' => ∃ writes, w'.2 = w.2 ++ writes
      ∧ ∀ ev ∈ writes, ∃ p d, ev.call = Call.write p d)
  · intro path d w' _ hI
    obtain ⟨writes, hw, hall⟩ := hI
    refine ⟨writes ++ [⟨Call.write path d, failedE (V.write path d w'.1).1⟩], ?_, ?_⟩
    · rw [traced_write, hw, List.append_assoc]
    · intro ev hev
      rcases List.mem_append.mp hev with h | h
      · exact hall ev h
      · rw [List.mem_singleton.mp h]; exact ⟨path, d, rfl⟩
  · exact ⟨[], by simp, by simp⟩

theorem Keys_map_snd {α β : Type} (f : α → β) (m : List (String × α)) :
    Keys (m.map fun kv => (kv.1, f kv.2)) = Keys m := by
  simp [Keys, List.map_map, Function.comp_def]

theorem convertStringMapToInterface_eq (m : StrMap) (h : (Keys m).Nodup) :
    convertStringMapToInterface m = m.map fun kv => (kv.1, Value.str kv.2) := by
  unfold convertStringMapToInterface
  have := foldl_mapSet_append Value.str m [] h (by simp [Keys])
  simpa using this

/-- The string form of the exported options of a mount is its options. -/
theorem convert_roundtrip (sprint : Value → String) (m : StrMap) (h : (Keys m).Nodup) :
    convertInterfaceMapToString sprint (convertStringMapToInterface m) = m := by
  rw [convertStringMapToInterface_eq m h, convertInterfaceMapToString_eq]
  · simp [List.map_map, Function.comp_def, optionString]
  · rw [Keys_map_snd]; exact h

/-- C12: when `Restore` comes to an engine in scope (the engines before it
restored without error, log `w.2`) and the mount listing does not hold the
path of the engine, it lists the mounts, makes one create-mount call at the
path without its trailing `/`, carrying the type and description of the
snapshot and the string form of its options, then only writes, and goes on
with the engines after it.  The string form of the exported form of a
string-to-string map is that map, so the create-mount call for an engine
exported from a mount carries the type, description and options of that
mount. -/
theorem Restore_creates_absent_mount_with_original_options {σ : Type} (V : API σ)
    (backup : BackupData) (opts : RestoreOptions) (s : σ)
    (pre rest : List SecretEngineBackup) (engine : SecretEngineBackup)
    (w : σ × List Event) (mounts : List (String × MountOutput)) (s1 : σ)
    (hsplit : backup.SecretEngines = pre ++ engine :: rest)
    (hscope : filteredOut opts.Engines engine.Path = false)
    (hpre : restoreSecretEngines (traced V) opts.Engines pre (s, []) = (none, w))
    (hlist : V.listMounts w.1 = (.ok mounts, s1))
    (habsent : engine.Path ∉ Keys mounts) :
    (∃ (failed : Bool) (writes : List Event) (s2 : σ),
        Restore (traced V) backup opts (s, [])
          = Restore (traced V) { backup with SecretEngines := rest } opts
              (s2, w.2 ++ [⟨Call.listMounts, false⟩,
                ⟨Call.mount (TrimSuffix engine.Path "/")
                  ⟨engine.Typ, engine.Description,
                    convertInterfaceMapToString V.sprint engine.Options⟩, failed⟩] ++ writes)
        ∧ ∀ ev ∈ writes, ∃ p d, ev.call = Call.write p d)
    ∧ (∀ (sprint : Value → String) (m : StrMap), (Keys m).Nodup →
        convertInterfaceMapToString sprint (convertStringMapToInterface m) = m)
    ∧ (∀ (mount : MountOutput), (Keys mount.Options).Nodup →
        engineOf (engine.Path, mount) engine →
        mountInputOf V.sprint engine = ⟨mount.Typ, mount.Description, mount.Options⟩) := by
  refine ⟨?_, convert_roundtrip, ?_⟩
  · have hany : (mounts.any fun m => decide (m.1 = engine.Path)) = false :=
      (any_key_eq_false mounts engine.Path).mpr habsent
    have hstep : restoreSecretEngines (traced V) opts.Engines backup.SecretEngines (s, [])
        = restoreSecretEngines (traced V) opts.Engines (engine :: rest) w := by
      rw [hsplit, restoreSecretEngines_append, hpre]
    have hrest : ∀ w', restoreSecretEngines (traced V) opts.Engines backup.SecretEngines (s, [])
          = restoreSecretEngines (traced V) opts.Engines rest w' →
        Restore (traced V) backup opts (s, [])
          = Restore (traced V) { backup with SecretEngines := rest } opts w' := by
      intro w' h
      simp only [Restore, h]
    rw [restoreSecretEngines] at hstep
    simp only [hscope, Bool.false_eq_true, if_false, traced_listMounts, hlist, hany, traced_mount,
      traced_sprint, failedE] at hstep
    generalize hm : V.mount (TrimSuffix engine.Path "/") (mountInputOf V.sprint engine) s1 = r
      at hstep
    obtain ⟨e, s2⟩ := r
    cases e with
    | some err =>
      refine ⟨true, [], s2, ?_, by simp⟩
      rw [hrest _ hstep]
      simp [mountInputOf]
    | none =>
      have e1 : w.2 ++ [⟨Call.listMounts, false⟩] ++
            [⟨Call.mount (TrimSuffix engine.Path "/") (mountInputOf V.sprint engine),
              (none : Option Err).isSome⟩]
          = w.2 ++ [⟨Call.listMounts, false⟩,
              ⟨Call.mount (TrimSuffix engine.Path "/")
                ⟨engine.Typ, engine.Description,
                  convertInterfaceMapToString V.sprint engine.Options⟩, false⟩] := by
        simp [mountInputOf]
      simp only [e1] at hstep
      obtain ⟨writes, hw, hall⟩ := restoreEngineSecrets_writes V engine
        (s2, w.2 ++ [⟨Call.listMounts, false⟩,
              ⟨Call.mount (TrimSuffix engine.Path "/")
                ⟨engine.Typ, engine.Description,
                  convertInterfaceMapToString V.sprint engine.Options⟩, false⟩])
      refine ⟨false, writes, (restoreEngineSecrets (traced V) engine
        (s2, w.2 ++ [⟨Call.listMounts, false⟩,
              ⟨Call.mount (TrimSuffix engine.Path "/")
                ⟨engine.Typ, engine.Description,
                  convertInterfaceMapToString V.sprint engine.Options⟩, false⟩])).1,
        ?_, hall⟩
      rw [hrest _ hstep]
      congr 1
      exact Prod.ext rfl hw
  · intro mount hnd he
    obtain ⟨_, ht, hd, ho⟩ := he
    simp only [mountInputOf, ht, hd, ho, convert_roundtrip V.sprint _ hnd]

/-- C12 on the empty target and the export of a mount with two options: the
create-mount call carries the options of the mount. -/
theorem Restore_creates_absent_mount_witness :
    (Restore (traced storeAPI) versionedSnapshot defaultOptions (Store.empty, [])).2.2
        = [⟨Call.listMounts, false⟩,
            ⟨Call.mount "team" ⟨"kv", "team secrets", [("version", "2"), ("audit", "on")]⟩,
              false⟩,
            ⟨Call.write "team/data/db" [("data", Value.obj [("pw", Value.str "x")])], false⟩]
      ∧ engineOf ("team/", versionedMount) ⟨"team/", "kv", "team secrets", [],
          [("version", Value.str "2"), ("audit", Value.str "on")],
          [⟨"db", [⟨1, [("pw", Value.str "x")], Time.zero, "", false⟩],
            { SecretMetadata.zero with CurrentVersion := 1 }⟩]⟩
      ∧ ((∃ (failed : Bool) (writes : List Event) (s2 : Store),
          Restore (traced storeAPI) versionedSnapshot defaultOptions (Store.empty, [])
            = Restore (traced storeAPI) { versionedSnapshot with SecretEngines := [] }
                defaultOptions
                (s2, [] ++ [⟨Call.listMounts, false⟩,
                  ⟨Call.mount (TrimSuffix "team/" "/")
                    ⟨"kv", "team secrets",
                      convertInterfaceMapToString sprintValue
                        [("version", Value.str "2"), ("audit", Value.str "on")]⟩, failed⟩]
                  ++ writes)
          ∧ ∀ ev ∈ writes, ∃ p d, ev.call = Call.write p d)
        ∧ (∀ (sprint : Value → String) (m : StrMap), (Keys m).Nodup →
            convertInterfaceMapToString sprint (convertStringMapToInterface m) = m)
        ∧ (∀ (mount : MountOutput), (Keys mount.Options).Nodup →
            engineOf ("team/", mount) ⟨"team/", "kv", "team secrets", [],
              [("version", Value.str "2"), ("audit", Value.str "on")],
              [⟨"db", [⟨1, [("pw", Value.str "x")], Time.zero, "", false⟩],
                { SecretMetadata.zero with CurrentVersion := 1 }⟩]⟩ →
            mountInputOf sprintValue ⟨"team/", "kv", "team secrets", [],
              [("version", Value.str "2"), ("audit", Value.str "on")],
              [⟨"db", [⟨1, [("pw", Value.str "x")], Time.zero, "", false⟩],
                { SecretMetadata.zero with CurrentVersion := 1 }⟩]⟩
              = ⟨mount.Typ, mount.Description, mount.Options⟩)) :=
  ⟨rfl, ⟨rfl, rfl, rfl, rfl⟩,
    Restore_creates_absent_mount_with_original_options storeAPI versionedSnapshot defaultOptions
      Store.empty [] [] _ (Store.empty, []) [] Store.empty rfl rfl rfl rfl (by simp [Keys])⟩

/-! ### The writes of a v2-style restore -/

theorem restoreVersions_renumber {σ : Type} (V : API σ) (mountPath secretPath : String)
    (f : SecretVersion → Int) :
    ∀ (versions : List SecretVersion) (s : σ),
      restoreVersions V mountPath secretPath
          (versions.map fun v => { v with Version := f v }) s
        = restoreVersions V mountPath secretPath versions s := by
  intro versions
  induction versions with
  | nil => intro s; rfl
  | cons v rest ih =>
    intro s
    simp only [List.map_cons, restoreVersions]
    split
    · exact ih s
    · exact ih _

theorem restoreKVv2Secrets_renumber {σ : Type} (V : API σ) (mountPath : String)
    (f : SecretVersion → Int) :
    ∀ (secrets : List SecretBackup) (s : σ),
      restoreKVv2Secrets V mountPath (secrets.map (SecretBackup.renumber f)) s
        = restoreKVv2Secrets V mountPath secrets s := by
  intro secrets
  induction secrets with
  | nil => intro s; rfl
  | cons secret rest ih =>
    intro s
    simp only [List.map_cons, restoreKVv2Secrets, SecretBackup.renumber,
      restoreVersions_renumber, ih]

theorem restoreKVv2Secrets_calls {σ : Type} (V : API σ) (mountPath : String) :
    ∀ (secrets : List SecretBackup) (s : σ) (log : List Event),
      callsOf (restoreKVv2Secrets (traced V) mountPath secrets (s, log)).2.2
        = callsOf log ++ secrets.flatMap fun secret =>
            versionWrites mountPath secret.Path secret.Versions
              ++ metadataWrites mountPath secret := by
  intro secrets
  induction secrets with
  | nil => intro s log; simp [restoreKVv2Secrets]
  | cons secret rest ih =>
    intro s log
    have hv := restoreVersions_calls V mountPath secret.Path secret.Versions s log
    simp only [restoreKVv2Secrets, List.flatMap_cons]
    by_cases h1 : secret.Metadata.MaxVersions > 0 ∨ secret.Metadata.CasRequired = true
        ∨ secret.Metadata.CustomMetadata.length > 0
    · by_cases h2 : (metadataData secret.Metadata).length > 0
      · have hm : metadataWrites mountPath secret
            = [Call.write (mountPath ++ "metadata/" ++ secret.Path)
                (metadataData secret.Metadata)] := by
          simp only [metadataWrites, if_pos h1, if_pos h2]
        simp only [if_pos h1, if_pos h2, traced_write, ih, callsOf_append, hv, hm]
        simp [callsOf]
      · have hm : metadataWrites mountPath secret = [] := by
          simp only [metadataWrites, if_pos h1, if_neg h2]
        simp only [if_pos h1, if_neg h2, ih, hv, hm]
        simp
    · have hm : metadataWrites mountPath secret = [] := by
        simp only [metadataWrites, if_neg h1]
      simp only [if_neg h1, ih, hv, hm]
      simp

/-- C13: on every server, whether its writes succeed or fail, the calls of
`restoreKVv2Secrets` are, secret by secret, one data write per version that
is not destroyed, in the order of the version list, each to
`mountPath ++ "data/" ++` the path of the secret with the body
`{"data": payload}`, followed by the metadata write of the secret if there
is one, which goes to another path.  The numbers of the versions are not
read: renumbering the versions leaves the run as it is. -/
theorem restoreKVv2Secrets_writes_each_live_version {σ : Type} (V : API σ)
    (mountPath : String) (secrets : List SecretBackup) (s : σ) :
    callsOf (restoreKVv2Secrets (traced V) mountPath secrets (s, [])).2.2
        = (secrets.flatMap fun secret =>
            ((secret.Versions.filter fun v => !v.Destroyed).map fun v =>
              Call.write (mountPath ++ "data/" ++ secret.Path) [("data", Value.obj v.Data)])
            ++ metadataWrites mountPath secret)
      ∧ (∀ secret, ∀ c ∈ metadataWrites mountPath secret,
          ∃ d, c = Call.write (mountPath ++ "metadata/" ++ secret.Path) d)
      ∧ (∀ f : SecretVersion → Int,
          restoreKVv2Secrets (traced V) mountPath (secrets.map (SecretBackup.renumber f)) (s, [])
            = restoreKVv2Secrets (traced V) mountPath secrets (s, []))
      ∧ (restoreKVv2Secrets (traced storeAPI) "secret/" [⟨"app", threeVersions,
            SecretMetadata.zero⟩] (dataDeniedStore, [])).2.2
          = [⟨Call.write "secret/data/app" [("data", Value.obj [("k", Value.str "one")])], true⟩,
              ⟨Call.write "secret/data/app" [("data", Value.obj [("k", Value.str "three")])],
                true⟩] := by
  refine ⟨?_, ?_, ?_, rfl⟩
  · rw [restoreKVv2Secrets_calls]
    simp [callsOf, versionWrites]
  · intro secret c hc
    unfold metadataWrites at hc
    split at hc
    · split at hc
      · exact ⟨_, List.mem_singleton.mp hc⟩
      · simp at hc
    · simp at hc
  · intro f
    exact restoreKVv2Secrets_renumber (traced V) mountPath f secrets (s, [])

/-! ### The metadata write of a v2-style restore -/

/-- The map `metadataData` holds exactly the fields that are present. -/
theorem metadataData_fields (m : SecretMetadata) :
    mapGet (metadataData m) "max_versions"
        = (if m.MaxVersions > 0 then some (Value.int m.MaxVersions) else none)
      ∧ mapGet (metadataData m) "cas_required"
        = (if m.CasRequired = true then some (Value.bool true) else none)
      ∧ mapGet (metadataData m) "custom_metadata"
        = (if m.CustomMetadata.length > 0 then some (Value.strMap m.CustomMetadata) else none)
      ∧ mapGet (metadataData m) "delete_version_after"
        = (if m.DeleteVersionAfter ≠ "" then some (Value.str m.DeleteVersionAfter) else none)
      ∧ ∀ k ∈ Keys (metadataData m), k = "max_versions" ∨ k = "cas_required"
          ∨ k = "custom_metadata" ∨ k = "delete_version_after" := by
  unfold metadataData
  by_cases h1 : m.MaxVersions > 0 <;> by_cases h2 : m.CasRequired = true
    <;> by_cases h3 : m.CustomMetadata.length > 0 <;> by_cases h4 : m.DeleteVersionAfter = ""
    <;> simp only [h1, h2, h3, h4, if_true, if_false, ne_eq, not_true_eq_false, not_false_eq_true]
    <;> simp [mapSet, mapGet, Keys]

/-- The metadata write is made exactly when the version limit, the CAS flag
or the custom metadata is present; the auto-delete duration is written with
it and does not cause it. -/
theorem metadataWrites_eq (mountPath : String) (secret : SecretBackup) :
    metadataWrites mountPath secret
      = if secret.Metadata.MaxVersions > 0 ∨ secret.Metadata.CasRequired = true
            ∨ secret.Metadata.CustomMetadata.length > 0 then
          [Call.write (mountPath ++ "metadata/" ++ secret.Path) (metadataData secret.Metadata)]
        else [] := by
  unfold metadataWrites
  split
  · rename_i h
    have hlen : (metadataData secret.Metadata).length > 0 := by
      obtain ⟨f1, f2, f3, _, _⟩ := metadataData_fields secret.Metadata
      cases hd : metadataData secret.Metadata with
      | cons _ _ => simp
      | nil =>
        rw [hd] at f1 f2 f3
        simp only [mapGet] at f1 f2 f3
        rcases h with h | h | h
        · rw [if_pos h] at f1; simp at f1
        · rw [if_pos h] at f2; simp at f2
        · rw [if_pos h] at f3; simp at f3
    rw [if_pos hlen]
  · rfl

/-- C14 at a secret whose only non-default metadata field is the auto-delete
duration: `restoreKVv2Secrets` writes the version and makes no metadata
write, so the duration is not restored; with a version limit beside it the
metadata write is made and carries both fields. -/
theorem restoreKVv2Secrets_drops_lone_auto_delete :
    (restoreKVv2Secrets (traced storeAPI) "secret/" [autoDeleteSecret] (Store.empty, [])).2.2
        = [⟨Call.write "secret/data/app" [("data", Value.obj [("k", Value.str "v")])], false⟩]
      ∧ autoDeleteSecret.Metadata.DeleteVersionAfter = "72h0m0s"
      ∧ (restoreKVv2Secrets (traced storeAPI) "secret/" [autoDeleteLimitedSecret]
          (Store.empty, [])).2.2
        = [⟨Call.write "secret/data/app" [("data", Value.obj [("k", Value.str "v")])], false⟩,
            ⟨Call.write "secret/metadata/app"
              [("max_versions", Value.int 5), ("delete_version_after", Value.str "72h0m0s")],
              false⟩] :=
  ⟨rfl, rfl, rfl⟩

/-! ### The writes of a v1-style restore -/

theorem sliceIndex_last {α : Type} (xs : List α) (h : xs ≠ []) :
    sliceIndex xs ((xs.length : Int) - 1) = .done (xs.getLast h) := by
  have hlen : 0 < xs.length := List.length_pos.mpr h
  have hi : ¬ ((xs.length : Int) - 1 < 0) := by omega
  have ht : ((xs.length : Int) - 1).toNat = xs.length - 1 := by omega
  have hg : xs[xs.length - 1]? = some (xs.getLast h) := by
    rw [← List.getLast?_eq_getElem?, List.getLast?_eq_getLast _ h]
  simp only [sliceIndex, hi, if_false, ht, hg]

theorem restoreKVv1SecretsIndexed_eq {σ : Type} (V : API σ) (mountPath : String) :
    ∀ (secrets : List SecretBackup) (s : σ),
      restoreKVv1SecretsIndexed V mountPath secrets s
        = .done (restoreKVv1Secrets V mountPath secrets s) := by
  intro secrets
  induction secrets with
  | nil => intro s; rfl
  | cons secret rest ih =>
    intro s
    simp only [restoreKVv1SecretsIndexed, restoreKVv1Secrets]
    by_cases h : secret.Versions = []
    · simp only [h, List.length_nil, if_true, List.getLast?_nil, ih]
    · have hlen : ¬ secret.Versions.length = 0 := fun h0 => h (List.length_eq_zero.mp h0)
      simp only [hlen, if_false, sliceIndex_last _ h, Run.bind_done, ih,
        List.getLast?_eq_getLast _ h]

/-- C15: `restoreKVv1Secrets` never indexes the version list out of range
(the run with the index spelled out ends without a panic, in the same
result), and on every server its calls are, secret by secret, no call for a
secret with an empty version list and, for a secret with versions, one write
to `mountPath ++` the path of the secret whose body is the payload of the
last version. -/
theorem restoreKVv1Secrets_writes_last_version {σ : Type} (V : API σ) (mountPath : String)
    (secrets : List SecretBackup) (s : σ) :
    restoreKVv1SecretsIndexed (traced V) mountPath secrets (s, [])
        = .done (restoreKVv1Secrets (traced V) mountPath secrets (s, []))
      ∧ callsOf (restoreKVv1Secrets (traced V) mountPath secrets (s, [])).2.2
        = (secrets.flatMap fun secret =>
            if h : secret.Versions.length = 0 then []
            else [Call.write (mountPath ++ secret.Path)
              (secret.Versions.getLast fun h0 => h (congrArg List.length h0)).Data])
      ∧ callsOf (restoreKVv1Secrets (traced storeAPI) "legacy/" v1Secrets (Store.empty, [])).2.2
        = [Call.write "legacy/app" [("k", Value.str "three")],
            Call.write "legacy/team/db" [("pw", Value.str "x")]] := by
  refine ⟨restoreKVv1SecretsIndexed_eq (traced V) mountPath secrets (s, []), ?_, rfl⟩
  rw [restoreKVv1Secrets_calls]
  simp only [callsOf, List.map_nil, List.nil_append, lastVersionWrites]
  induction secrets with
  | nil => rfl
  | cons secret rest ih =>
    rw [List.filterMap_cons, List.flatMap_cons, ← ih]
    by_cases h : secret.Versions = []
    · simp [h]
    · have hlen : ¬ secret.Versions.length = 0 := fun h0 => h (List.length_eq_zero.mp h0)
      simp [hlen, List.getLast?_eq_getLast _ h]

/-! ### The counters of a metadata record -/

theorem parseDigits_append : ∀ (l r : List Char) (acc : Nat),
    parseDigits (l ++ r) acc = (parseDigits l acc).bind (parseDigits r) := by
  intro l
  induction l with
  | nil => intro r acc; rfl
  | cons c l ih =>
    intro r acc
    simp only [List.cons_append, parseDigits]
    split
    · exact ih r _
    · rfl

theorem parseDigits_digitChar (k : Nat) (hk : k < 10) (acc : Nat) :
    parseDigits [Nat.digitChar k] acc = some (acc * 10 + k) := by
  interval_cases k <;> simp [parseDigits, Nat.digitChar]

theorem digitChar_not_sign (k : Nat) (hk : k < 10) :
    ¬ (Nat.digitChar k = '+' ∨ Nat.digitChar k = '-') := by
  interval_cases k <;> simp [Nat.digitChar]

/-- The decimal numeral that `Nat.toDigits` writes is read back by
`parseDigits`; it is not empty and begins with a digit. -/
theorem parseDigits_toDigitsCore : ∀ (fuel n : Nat) (ds : List Char), n < fuel →
    ∃ l, Nat.toDigitsCore 10 fuel n ds = l ++ ds
      ∧ (∃ k rest, k < 10 ∧ l = Nat.digitChar k :: rest)
      ∧ ∀ acc, parseDigits l acc = some (acc * 10 ^ l.length + n) := by
  intro fuel
  induction fuel with
  | zero => intro n ds h; omega
  | succ fuel ih =>
    intro n ds h
    unfold Nat.toDigitsCore
    simp only
    split
    · rename_i h0
      have hn : n < 10 := by omega
      refine ⟨[Nat.digitChar (n % 10)], rfl, ⟨n % 10, [], by omega, rfl⟩, ?_⟩
      intro acc
      rw [parseDigits_digitChar _ (by omega)]
      simp [Nat.mod_eq_of_lt hn]
    · rename_i h0
      have hlt : n / 10 < fuel := by omega
      obtain ⟨l, hl, hhead, hp⟩ := ih (n / 10) (Nat.digitChar (n % 10) :: ds) hlt
      refine ⟨l ++ [Nat.digitChar (n % 10)], by rw [hl]; simp, ?_, ?_⟩
      · obtain ⟨k, rest, hk, hl'⟩ := hhead
        exact ⟨k, rest ++ [Nat.digitChar (n % 10)], hk, by rw [hl']; rfl⟩
      · intro acc
        rw [parseDigits_append, hp]
        simp only [Option.bind_eq_bind, Option.some_bind]
        rw [parseDigits_digitChar _ (by omega)]
        simp only [List.length_append, List.length_singleton, Option.some.injEq]
        have := Nat.div_add_mod n 10
        rw [Nat.pow_succ]
        nlinarith [this]

theorem parseDigits_toDigits (n : Nat) :
    ∃ k rest, k < 10 ∧ Nat.toDigits 10 n = Nat.digitChar k :: rest
      ∧ parseDigits (Nat.toDigits 10 n) 0 = some n := by
  obtain ⟨l, hl, ⟨k, rest, hk, hl'⟩, hp⟩ := parseDigits_toDigitsCore (n + 1) n [] (by omega)
  rw [List.append_nil] at hl
  refine ⟨k, rest, hk, ?_, ?_⟩
  · rw [Nat.toDigits, hl, hl']
  · rw [Nat.toDigits, hl, hp 0]; simp

/-- `strconv.ParseInt` reads the decimal numeral of an integer of the 64-bit
range back as that integer. -/
theorem parseInt64_toString (n : Int) (h : inInt64 n) : parseInt64 (toString n) = n := by
  obtain ⟨hlo, hhi⟩ := h
  cases n with
  | ofNat m =>
    obtain ⟨k, rest, hk, hd, hp⟩ := parseDigits_toDigits m
    have hdata : (toString (Int.ofNat m)).data = Nat.digitChar k :: rest := by
      show (Nat.toDigits 10 m).asString.data = _
      rw [← hd]; rfl
    rw [hd] at hp
    have hsign := digitChar_not_sign k hk
    have hminus : ¬ Nat.digitChar k = '-' := fun e => hsign (Or.inr e)
    have hplus : ¬ Nat.digitChar k = '+' := fun e => hsign (Or.inl e)
    have hm : ¬ m ≥ 2 ^ 63 := by
      have : (m : Int) < 2 ^ 63 := hhi
      omega
    unfold parseInt64
    rw [hdata]
    simp only [hplus, hminus, or_self, if_false, hp, hm]
    rfl
  | negSucc m =>
    obtain ⟨k, rest, hk, hd, hp⟩ := parseDigits_toDigits (m + 1)
    have hdata : (toString (Int.negSucc m)).data = '-' :: Nat.digitChar k :: rest := by
      show ("-" ++ (Nat.toDigits 10 (m + 1)).asString).data = _
      rw [String.data_append, ← hd]; rfl
    rw [hd] at hp
    have hm : ¬ m + 1 > 2 ^ 63 := by
      rw [Int.negSucc_eq] at hlo
      omega
    unfold parseInt64
    rw [hdata]
    simp only [or_true, if_true, hp, hm, if_false]
    rfl

theorem floatToInt_isInteger (f : Float64) (n : Int) (hf : f.isInteger n) (h : inInt64 n) :
    floatToInt f = n := by
  unfold Float64.isInteger at hf
  unfold floatToInt
  by_cases he : 0 ≤ f.exp
  · rw [if_pos he] at hf
    simp only [he, if_true, ← hf]
    exact if_pos h
  · rw [if_neg he] at hf
    have hpos : (2 : Int) ^ (-f.exp).toNat ≠ 0 := pow_ne_zero _ (by decide)
    simp only [he, if_false, hf, Int.mul_tdiv_cancel _ hpos]
    exact if_pos h

theorem decodeCounter_holds (v : Value) (n : Int) (h : HoldsInteger v n) :
    decodeCounter v = some n := by
  cases h with
  | native => rfl
  | float f _ hf hr => simp only [decodeCounter, floatToInt_isInteger f n hf hr]
  | number _ hr => simp only [decodeCounter, parseInt64_toString n hr]

theorem decodeCounter_notNumeric (v : Value) (h : NotNumeric v) : decodeCounter v = none := by
  cases v <;> first | rfl | exact absurd h (by simp [NotNumeric])

/-- The counters and the custom metadata of the result of `parseMetadata`,
each from its own key of the record. -/
theorem parseMetadata_fields (parseTime : String → Time) (data : Data) :
    (parseMetadata parseTime data).CurrentVersion
        = (decodeCounter (index data "current_version")).getD 0
      ∧ (parseMetadata parseTime data).MaxVersions
        = (decodeCounter (index data "max_versions")).getD 0
      ∧ (parseMetadata parseTime data).OldestVersion
        = (decodeCounter (index data "oldest_version")).getD 0
      ∧ (∀ v, index data "custom_metadata" = Value.strMap v →
          (parseMetadata parseTime data).CustomMetadata = v)
      ∧ ((∀ v, index data "custom_metadata" ≠ Value.strMap v) →
          (parseMetadata parseTime data).CustomMetadata = []) := by
  unfold parseMetadata
  lift_lets
  extract_lets m0 m1 m2 m3 m4 m5 m6 m7 m8
  have h8 : m8.CurrentVersion = m7.CurrentVersion ∧ m8.MaxVersions = m7.MaxVersions
      ∧ m8.OldestVersion = m7.OldestVersion ∧ m8.CustomMetadata = m7.CustomMetadata := by
    unfold m8
    split <;> exact ⟨rfl, rfl, rfl, rfl⟩
  have h7 : m7.CurrentVersion = m6.CurrentVersion ∧ m7.MaxVersions = m6.MaxVersions
      ∧ m7.OldestVersion = m6.OldestVersion
      ∧ (∀ v, index data "custom_metadata" = Value.strMap v → m7.CustomMetadata = v)
      ∧ ((∀ v, index data "custom_metadata" ≠ Value.strMap v) →
          m7.CustomMetadata = m6.CustomMetadata) := by
    unfold m7
    split
    · rename_i v h
      refine ⟨rfl, rfl, rfl, ?_, ?_⟩
      · intro v' hv'
        rw [h] at hv'
        cases hv'
        rfl
      · intro hne
        exact absurd h (hne v)
    · exact ⟨rfl, rfl, rfl, fun v hv => by simp_all, fun _ => rfl⟩
  have h6 : m6.CurrentVersion = m5.CurrentVersion ∧ m6.MaxVersions = m5.MaxVersions
      ∧ m6.OldestVersion = m5.OldestVersion ∧ m6.CustomMetadata = m5.CustomMetadata := by
    unfold m6
    split <;> exact ⟨rfl, rfl, rfl, rfl⟩
  have h5 : m5.CurrentVersion = m4.CurrentVersion ∧ m5.MaxVersions = m4.MaxVersions
      ∧ m5.OldestVersion = (decodeCounter (index data "oldest_version")).getD m4.OldestVersion
      ∧ m5.CustomMetadata = m4.CustomMetadata := by
    unfold m5
    split <;> rename_i h <;> rw [h] <;> exact ⟨rfl, rfl, rfl, rfl⟩
  have h4 : m4.CurrentVersion = m3.CurrentVersion
      ∧ m4.MaxVersions = (decodeCounter (index data "max_versions")).getD m3.MaxVersions
      ∧ m4.OldestVersion = m3.OldestVersion ∧ m4.CustomMetadata = m3.CustomMetadata := by
    unfold m4
    split <;> rename_i h <;> rw [h] <;> exact ⟨rfl, rfl, rfl, rfl⟩
  have h3 : m3.CurrentVersion
        = (decodeCounter (index data "current_version")).getD m2.CurrentVersion
      ∧ m3.MaxVersions = m2.MaxVersions
      ∧ m3.OldestVersion = m2.OldestVersion ∧ m3.CustomMetadata = m2.CustomMetadata := by
    unfold m3
    split <;> rename_i h <;> rw [h] <;> exact ⟨rfl, rfl, rfl, rfl⟩
  have h2 : m2.CurrentVersion = m1.CurrentVersion ∧ m2.MaxVersions = m1.MaxVersions
      ∧ m2.OldestVersion = m1.OldestVersion ∧ m2.CustomMetadata = m1.CustomMetadata := by
    unfold m2
    split <;> exact ⟨rfl, rfl, rfl, rfl⟩
  have h1 : m1.CurrentVersion = 0 ∧ m1.MaxVersions = 0
      ∧ m1.OldestVersion = 0 ∧ m1.CustomMetadata = [] := by
    unfold m1
    split <;> exact ⟨rfl, rfl, rfl, rfl⟩
  refine ⟨?_, ?_, ?_, ?_, ?_⟩
  · rw [h8.1, h7.1, h6.1, h5.1, h4.1, h3.1, h2.1, h1.1]
  · rw [h8.2.1, h7.2.1, h6.2.1, h5.2.1, h4.2.1, h3.2.1, h2.2.1, h1.2.1]
  · rw [h8.2.2.1, h7.2.2.1, h6.2.2.1, h5.2.2.1, h4.2.2.1, h3.2.2.1, h2.2.2.1, h1.2.2.1]
  · intro v hv
    rw [h8.2.2.2, h7.2.2.2.1 v hv]
  · intro hne
    rw [h8.2.2.2, h7.2.2.2.2 hne, h6.2.2.2, h5.2.2.2, h4.2.2.2, h3.2.2.2, h2.2.2.2, h1.2.2.2]

/-- C16 (amended): each of the three counters of the result is decoded from
its own key alone.  It is the integer the record holds under the key as a
native integer, as a float whose value is an integer of the 64-bit range, or
as a JSON number written as the decimal numeral of an integer of the 64-bit
range; it is 0 when the key is absent or holds a value of another kind. -/
theorem parseMetadata_decodes_each_counter (parseTime : String → Time) (data : Data) :
    ((∀ n, HoldsInteger (index data "current_version") n →
          (parseMetadata parseTime data).CurrentVersion = n)
        ∧ (NotNumeric (index data "current_version") →
          (parseMetadata parseTime data).CurrentVersion = 0))
      ∧ ((∀ n, HoldsInteger (index data "max_versions") n →
          (parseMetadata parseTime data).MaxVersions = n)
        ∧ (NotNumeric (index data "max_versions") →
          (parseMetadata parseTime data).MaxVersions = 0))
      ∧ ((∀ n, HoldsInteger (index data "oldest_version") n →
          (parseMetadata parseTime data).OldestVersion = n)
        ∧ (NotNumeric (index data "oldest_version") →
          (parseMetadata parseTime data).OldestVersion = 0))
      ∧ (∀ (parseTime' : String → Time) (data' : Data),
          (index data' "current_version" = index data "current_version" →
            (parseMetadata parseTime' data').CurrentVersion
              = (parseMetadata parseTime data).CurrentVersion)
          ∧ (index data' "max_versions" = index data "max_versions" →
            (parseMetadata parseTime' data').MaxVersions
              = (parseMetadata parseTime data).MaxVersions)
          ∧ (index data' "oldest_version" = index data "oldest_version" →
            (parseMetadata parseTime' data').OldestVersion
              = (parseMetadata parseTime data).OldestVersion))
      ∧ (HoldsInteger (index mixedRecord "current_version") 3
          ∧ HoldsInteger (index mixedRecord "max_versions") 10
          ∧ HoldsInteger (index mixedRecord "oldest_version") 2
          ∧ NotNumeric (index mixedRecord "created_time")
          ∧ NotNumeric (index mixedRecord "updated_time")) := by
  obtain ⟨hc, hm, ho, _, _⟩ := parseMetadata_fields parseTime data
  refine ⟨⟨?_, ?_⟩, ⟨?_, ?_⟩, ⟨?_, ?_⟩, ?_, ?_⟩
  · intro n h; rw [hc, decodeCounter_holds _ n h]; rfl
  · intro h; rw [hc, decodeCounter_notNumeric _ h]; rfl
  · intro n h; rw [hm, decodeCounter_holds _ n h]; rfl
  · intro h; rw [hm, decodeCounter_notNumeric _ h]; rfl
  · intro n h; rw [ho, decodeCounter_holds _ n h]; rfl
  · intro h; rw [ho, decodeCounter_notNumeric _ h]; rfl
  · intro parseTime' data'
    obtain ⟨hc', hm', ho', _, _⟩ := parseMetadata_fields parseTime' data'
    exact ⟨fun h => by rw [hc, hc', h], fun h => by rw [hm, hm', h],
      fun h => by rw [ho, ho', h]⟩
  · refine ⟨HoldsInteger.number 3 ⟨by decide, by decide⟩,
      HoldsInteger.float ⟨5, 1⟩ 10 (by unfold Float64.isInteger; decide)
        ⟨by decide, by decide⟩,
      HoldsInteger.native 2, trivial, trivial⟩

/-- C16 as stated fails for a JSON number that is not a plain decimal
numeral of the 64-bit range: the JSON number `1e2`, the integer 100, is
decoded as 0, where the numeral `100` is decoded as 100; and the JSON number
`9223372036854775808`, the integer `2 ^ 63`, is decoded as `2 ^ 63 - 1`.
Nor is the float `2 ^ 70`, an integer outside the 64-bit range, decoded as
its value. -/
theorem parseMetadata_miscounts_exponent_number :
    (parseMetadata (fun _ => Time.zero) [("current_version", Value.number "1e2")]).CurrentVersion
        = 0
      ∧ (parseMetadata (fun _ => Time.zero)
          [("current_version", Value.number "100")]).CurrentVersion = 100
      ∧ (parseMetadata (fun _ => Time.zero)
          [("max_versions", Value.number "9223372036854775808")]).MaxVersions
        = 9223372036854775807
      ∧ Float64.isInteger ⟨1, 70⟩ (2 ^ 70)
      ∧ (parseMetadata (fun _ => Time.zero)
          [("oldest_version", Value.float ⟨1, 70⟩)]).OldestVersion ≠ 2 ^ 70 :=
  ⟨rfl, rfl, rfl, by unfold Float64.isInteger; decide, by decide⟩

/-! ### The custom metadata of a metadata record -/

/-- A record whose custom metadata is a map of generic values is parsed as
the record without the key. -/
theorem parseMetadata_without_custom (parseTime : String → Time) (data data' : Data)
    (kv : List (String × Value)) (hobj : index data "custom_metadata" = Value.obj kv)
    (habsent : mapGet data' "custom_metadata" = none)
    (hsame : ∀ k, k ≠ "custom_metadata" → mapGet data' k = mapGet data k) :
    parseMetadata parseTime data = parseMetadata parseTime data' := by
  have hnull : index data' "custom_metadata" = Value.null := by
    simp only [index, habsent, Option.getD_none]
  have hk : ∀ k, k ≠ "custom_metadata" → index data' k = index data k := by
    intro k h
    simp only [index, hsame k h]
  simp only [parseMetadata, hobj, hnull, hk "cas_required" (by decide),
    hk "created_time" (by decide), hk "current_version" (by decide),
    hk "max_versions" (by decide), hk "oldest_version" (by decide),
    hk "updated_time" (by decide), hk "delete_version_after" (by decide)]

/-- C17: the custom metadata of the result is the value of the key
`custom_metadata` when that is a string-to-string map, and empty otherwise.
For a record that holds a map from strings to generic values under the key,
the custom metadata of the result is empty and the result is that of the
record without the key, so every other field is as if the key were absent. -/
theorem parseMetadata_copies_only_string_map (parseTime : String → Time) (data : Data) :
    (∀ v, index data "custom_metadata" = Value.strMap v →
        (parseMetadata parseTime data).CustomMetadata = v)
      ∧ ((∀ v, index data "custom_metadata" ≠ Value.strMap v) →
        (parseMetadata parseTime data).CustomMetadata = [])
      ∧ (∀ (kv : List (String × Value)) (data' : Data),
          index data "custom_metadata" = Value.obj kv →
          mapGet data' "custom_metadata" = none →
          (∀ k, k ≠ "custom_metadata" → mapGet data' k = mapGet data k) →
          (parseMetadata parseTime data).CustomMetadata = []
            ∧ parseMetadata parseTime data = parseMetadata parseTime data')
      ∧ (parseMetadata (fun _ => Time.zero) decodedRecord
          = ⟨true, Time.zero, 2, 0, 0, Time.zero, [], "0s"⟩
        ∧ parseMetadata (fun _ => Time.zero) decodedRecordWithout
          = ⟨true, Time.zero, 2, 0, 0, Time.zero, [], "0s"⟩
        ∧ (parseMetadata (fun _ => Time.zero)
            [("custom_metadata", Value.strMap [("owner", "ops")])]).CustomMetadata
          = [("owner", "ops")]) := by
  obtain ⟨_, _, _, hmap, hnot⟩ := parseMetadata_fields parseTime data
  refine ⟨hmap, hnot, ?_, rfl, rfl, rfl⟩
  intro kv data' hobj habsent hsame
  refine ⟨hnot ?_, parseMetadata_without_custom parseTime data data' kv hobj habsent hsame⟩
  intro v hv
  rw [hobj] at hv
  cases hv

/-! ### An engine whose mount cannot be created -/

/-- C9 (amended): for an engine in scope, `restoreSecretEngines` lists the
mounts.  When the listing lacks the path of the engine it calls create-mount:
when that call fails it goes on to the next engine without any write for
this one, and when it succeeds it restores the secrets of this engine before
going on.  When the listing holds the path it makes no create-mount call and
restores the secrets of this engine before going on.  Restoring the secrets
of a key-value engine is making the writes of its secrets: for a v2-style
engine the data writes of the live versions and the metadata write of each
secret, for a v1-style engine the write of the last version of each secret. -/
theorem restoreSecretEngines_skips_secrets_when_mount_fails {σ : Type} (V : API σ)
    (F : List String) (engine : SecretEngineBackup) (rest : List SecretEngineBackup)
    (s : σ) (log : List Event) (l : List (String × MountOutput)) (s1 : σ)
    (hscope : filteredOut F engine.Path = false)
    (hl : V.listMounts s = (.ok l, s1)) :
    (engine.Path ∉ Keys l →
      restoreSecretEngines (traced V) F (engine :: rest) (s, log)
        = match V.mount (TrimSuffix engine.Path "/") (mountInputOf V.sprint engine) s1 with
          | (some _, s2) =>
            restoreSecretEngines (traced V) F rest
              (s2, log ++ [⟨Call.listMounts, false⟩,
                ⟨Call.mount (TrimSuffix engine.Path "/") (mountInputOf V.sprint engine), true⟩])
          | (none, s2) =>
            restoreSecretEngines (traced V) F rest
              (restoreEngineSecrets (traced V) engine
                (s2, log ++ [⟨Call.listMounts, false⟩,
                  ⟨Call.mount (TrimSuffix engine.Path "/") (mountInputOf V.sprint engine),
                    false⟩])))
      ∧ (engine.Path ∈ Keys l →
        restoreSecretEngines (traced V) F (engine :: rest) (s, log)
          = restoreSecretEngines (traced V) F rest
              (restoreEngineSecrets (traced V) engine (s1, log ++ [⟨Call.listMounts, false⟩])))
      ∧ (engine.Typ = "kv" ∨ engine.Typ = "generic" →
        ∀ w : σ × List Event,
          callsOf (restoreEngineSecrets (traced V) engine w).2
            = callsOf w.2 ++
              if isVersion2 engine.Options = true then
                engine.Secrets.flatMap fun secret =>
                  versionWrites engine.Path secret.Path secret.Versions
                    ++ metadataWrites engine.Path secret
              else lastVersionWrites engine.Path engine.Secrets) := by
  refine ⟨?_, ?_, ?_⟩
  · intro habsent
    have hany : (l.any fun m => decide (m.1 = engine.Path)) = false :=
      (any_key_eq_false l engine.Path).mpr habsent
    rw [restoreSecretEngines]
    simp only [hscope, Bool.false_eq_true, if_false, traced_listMounts, hl, hany, traced_mount,
      traced_sprint, failedE, List.append_assoc, List.singleton_append]
    generalize V.mount (TrimSuffix engine.Path "/") (mountInputOf V.sprint engine) s1 = r
    obtain ⟨e, s2⟩ := r
    cases e <;> rfl
  · intro hin
    have hany : (l.any fun m => decide (m.1 = engine.Path)) = true := by
      cases h : l.any fun m => decide (m.1 = engine.Path) with
      | true => rfl
      | false => exact absurd hin ((any_key_eq_false l engine.Path).mp h)
    rw [restoreSecretEngines]
    simp only [hscope, Bool.false_eq_true, if_false, traced_listMounts, hl, hany, if_true,
      failedE]
  · intro htyp w
    obtain ⟨t, lg⟩ := w
    unfold restoreEngineSecrets
    rw [if_pos htyp]
    cases hv : isVersion2 engine.Options with
    | true =>
      simp only [if_true]
      exact restoreKVv2Secrets_calls V engine.Path engine.Secrets t lg
    | false =>
      simp only [Bool.false_eq_true, if_false]
      exact restoreKVv1Secrets_calls V engine.Path engine.Secrets t lg

/-- C9 as stated fails: when creating the mount is denied no secret of the
engine is written, while the write is made when the creation succeeds. -/
theorem Restore_writes_nothing_when_mount_fails :
    (Restore (traced storeAPI) threeMountSnapshot defaultOptions (mountDeniedStore, [])).2.2
        = [⟨Call.listMounts, false⟩, ⟨Call.mount "secret" ⟨"kv", "main", []⟩, true⟩]
      ∧ (Restore (traced storeAPI) threeMountSnapshot defaultOptions (Store.empty, [])).2.2
        = [⟨Call.listMounts, false⟩, ⟨Call.mount "secret" ⟨"kv", "main", []⟩, false⟩,
            ⟨Call.write "secret/db" [("pw", Value.str "x")], false⟩] :=
  ⟨rfl, rfl⟩

/-- C9 (amended) on the engine `secret/` of `threeMountSnapshot`: with the
creation denied the run lists and calls create-mount only; on a target that
holds the mount it lists and writes the secret. -/
theorem restoreSecretEngines_mount_fails_witness :
    filteredOut [] "secret/" = false
      ∧ storeAPI.listMounts mountDeniedStore = (.ok [], mountDeniedStore)
      ∧ restoreSecretEngines (traced storeAPI) [] threeMountSnapshot.SecretEngines
          (mountDeniedStore, [])
        = (none, mountDeniedStore,
            [⟨Call.listMounts, false⟩, ⟨Call.mount "secret" ⟨"kv", "main", []⟩, true⟩])
      ∧ (restoreSecretEngines (traced storeAPI) [] threeMountSnapshot.SecretEngines
          ({ Store.empty with mounts := [("secret/", ⟨"kv", "main", []⟩)] }, [])).2.2
        = [⟨Call.listMounts, false⟩, ⟨Call.write "secret/db" [("pw", Value.str "x")], false⟩]
      ∧ callsOf (restoreEngineSecrets (traced storeAPI)
          ⟨"secret/", "kv", "main", [], [],
            [⟨"db", [⟨1, [("pw", Value.str "x")], ⟨0⟩, "", false⟩],
              { SecretMetadata.zero with CurrentVersion := 1, MaxVersions := 1 }⟩]⟩
          (Store.empty, [])).2
        = [Call.write "secret/db" [("pw", Value.str "x")]] :=
  ⟨rfl, rfl,
    ((restoreSecretEngines_skips_secrets_when_mount_fails storeAPI []
      ⟨"secret/", "kv", "main", [], [],
        [⟨"db", [⟨1, [("pw", Value.str "x")], ⟨0⟩, "", false⟩],
          { SecretMetadata.zero with CurrentVersion := 1, MaxVersions := 1 }⟩]⟩
      [] mountDeniedStore [] [] mountDeniedStore rfl rfl).1 (by simp [Keys])).trans rfl,
    rfl,
    ((restoreSecretEngines_skips_secrets_when_mount_fails storeAPI []
      ⟨"secret/", "kv", "main", [], [],
        [⟨"db", [⟨1, [("pw", Value.str "x")], ⟨0⟩, "", false⟩],
          { SecretMetadata.zero with CurrentVersion := 1, MaxVersions := 1 }⟩]⟩
      [] mountDeniedStore [] [] mountDeniedStore rfl rfl).2.2 (Or.inl rfl)
        (Store.empty, [])).trans rfl⟩

end VaultMigrator
